import Mathlib

/-!
Call analytics dashboard: record parser and aggregation engine.

A shallow embedding of the data-transformation code of `src/App.js`
(`handleFileUpload`, `statistics`, `users`; `src/App_bkp.js` holds the same
code) together with the ECMAScript operations that code relies on.

Conventions of the embedding.

* A JavaScript string is a Lean `String` (a sequence of code points; the code
  only iterates strings by code point and splits them at single characters).
* A JavaScript object is the ordered list of its own enumerable properties,
  in the order `Object.entries` reports them (array-index keys first, in
  ascending numeric order, then the other keys in insertion order).  Reads
  `o[k]` also see the properties inherited from `Object.prototype`.
* A JavaScript number is an IEEE-754 double, represented exactly by an integer
  number of units of `2^-1074`.
* A run of the code ends in one of three ways, see `Outcome`.
* Every run starts from the standard built-in objects: `Object.prototype` has
  its standard properties and nothing else of consequence.  The code is module
  code, hence strict.
* `String.prototype.localeCompare` and the order in which
  `Array.prototype.sort` leaves rows that its comparator does not order belong
  to the host; they are the parameter `host` of `sortByDate`, `sortByHour24`,
  `statistics` and `aggregate`, see `Host`.
-/

namespace CallAnalytics

/-! ## Outcomes -/

/-- Result of running a piece of the program.  `ok v` is normal completion,
`typeError` is a thrown `TypeError`, and `unmodelled` marks a run that this
development does not follow to its end: a run that writes to the host's
built-in objects in a way that later reads depend on (see `dayStep`), or whose
failure depends on the order in which the host's sort calls a comparator that
throws (see `sortByDate`). -/
inductive Outcome (α : Type) where
  | ok (value : α)
  | typeError
  | unmodelled
  deriving DecidableEq, Repr

/-- Sequencing: the first outcome that is not `ok` ends the run. -/
def Outcome.bind {α β : Type} (x : Outcome α) (f : α → Outcome β) : Outcome β :=
  match x with
  | .ok v => f v
  | .typeError => .typeError
  | .unmodelled => .unmodelled

/-- Left fold whose step can end the run (`Array.prototype.reduce` with a
callback that may throw). -/
def foldlO {α β : Type} (f : β → α → Outcome β) : β → List α → Outcome β
  | b, [] => .ok b
  | b, a :: l => (f b a).bind (fun b1 => foldlO f b1 l)

/-! ## Strings -/

/-- The code points `String.prototype.trim` and the numeric parsers skip:
ECMAScript `WhiteSpace` and `LineTerminator`. -/
def isJSWhiteSpace (c : Char) : Bool :=
  c.toNat = 0x09 || c.toNat = 0x0A || c.toNat = 0x0B || c.toNat = 0x0C ||
  c.toNat = 0x0D || c.toNat = 0x20 || c.toNat = 0xA0 || c.toNat = 0x1680 ||
  (0x2000 ≤ c.toNat && c.toNat ≤ 0x200A) || c.toNat = 0x2028 ||
  c.toNat = 0x2029 || c.toNat = 0x202F || c.toNat = 0x205F ||
  c.toNat = 0x3000 || c.toNat = 0xFEFF

/-- Drop leading white space. -/
def trimStartChars (cs : List Char) : List Char := cs.dropWhile isJSWhiteSpace

/-- Drop leading and trailing white space. -/
def trimChars (cs : List Char) : List Char :=
  (trimStartChars (trimStartChars cs).reverse).reverse

/-- The method `String.prototype.trim`. -/
def jsTrim (s : String) : String := ⟨trimChars s.data⟩

/-- Pieces of a character list between occurrences of `sep`; never empty. -/
def splitChars (sep : Char) : List Char → List (List Char)
  | [] => [[]]
  | c :: cs =>
    if c = sep then [] :: splitChars sep cs
    else
      match splitChars sep cs with
      | [] => [[c]]
      | p :: ps => (c :: p) :: ps

/-- The call `s.split(sep)` for a one-character separator. -/
def jsSplit (sep : Char) (s : String) : List String :=
  (splitChars sep s.data).map String.mk

/-- The expression `s.split(sep)[0]`: the text before the first `sep`. -/
def firstPiece (sep : Char) (s : String) : String :=
  ((jsSplit sep s).head?).getD ""

/-! ## Objects -/

/-- Names of the properties every ordinary object inherits from
`Object.prototype` (ECMAScript, including the legacy accessors of Annex B). -/
def objectPrototypeKeys : List String :=
  ["constructor", "__defineGetter__", "__defineSetter__", "hasOwnProperty",
   "__lookupGetter__", "__lookupSetter__", "isPrototypeOf",
   "propertyIsEnumerable", "toString", "valueOf", "__proto__",
   "toLocaleString"]

/-- Value of a run of decimal digits. -/
def digitsValue (cs : List Char) : Nat :=
  cs.foldl (fun n c => 10 * n + (c.toNat - 48)) 0

/-- An array index: the canonical decimal form of an integer below `2^32 - 1`. -/
def arrayIndex? (s : String) : Option Nat :=
  let cs := s.data
  if cs ≠ [] ∧ cs.all Char.isDigit = true ∧ (cs.head? ≠ some '0' ∨ cs.length = 1) ∧
      digitsValue cs < 2 ^ 32 - 1 then
    some (digitsValue cs)
  else none

/-- Own enumerable properties of an object, in `Object.entries` order. -/
abbrev JSObj (α : Type) := List (String × α)

namespace JSObj

/-- Own-property lookup. -/
def get? {α : Type} (o : JSObj α) (k : String) : Option α :=
  (o.find? (fun e => e.1 == k)).map (fun e => e.2)

/-- Whether `k` is an own property. -/
def has {α : Type} (o : JSObj α) (k : String) : Bool := (o.get? k).isSome

/-- Place a new array-index key among the array-index keys. -/
def insertIndex {α : Type} (i : Nat) (k : String) (v : α) : JSObj α → JSObj α
  | [] => [(k, v)]
  | e :: rest =>
    match arrayIndex? e.1 with
    | some j => if j < i then e :: insertIndex i k v rest else (k, v) :: e :: rest
    | none => (k, v) :: e :: rest

/-- Define or overwrite the own property `k`.  An existing property keeps its
place; a new one goes among the array indices or to the end. -/
def set {α : Type} (o : JSObj α) (k : String) (v : α) : JSObj α :=
  if o.has k then o.map (fun e => if e.1 = k then (k, v) else e)
  else
    match arrayIndex? k with
    | some i => insertIndex i k v o
    | none => o ++ [(k, v)]

/-- Own property names, in order. -/
def keys {α : Type} (o : JSObj α) : List String := o.map (fun e => e.1)

end JSObj

/-! ## Numbers -/

/-- A JavaScript number.  A finite double is a sign and a count of units of
`2^-1074`; every finite double is a whole number of such units. -/
inductive JSNum where
  | nan
  | inf (neg : Bool)
  | fin (neg : Bool) (units : Nat)
  deriving DecidableEq, Repr

namespace JSNum

/-- Units in the number one. -/
def one : Nat := 2 ^ 1074

/-- The double of a natural number below `2^53`. -/
def ofNat (n : Nat) : JSNum := .fin false (n * one)

/-- Number of binary digits of `n`, added to `acc`. -/
def bitLengthAux : Nat → Nat → Nat → Nat
  | 0, _, acc => acc
  | fuel + 1, n, acc => if n = 0 then acc else bitLengthAux fuel (n / 2) (acc + 1)

/-- Number of binary digits of `n` (`0` for `0`). -/
def bitLength (n : Nat) : Nat := bitLengthAux n n 0

/-- Round the ratio `p / q` of unit counts to the nearest count a double can
hold (53 significant bits), ties to even. -/
def roundUnits (p q : Nat) : Nat :=
  let shift := bitLength (p / q) - 53
  let d := q * 2 ^ shift
  let m := p / d
  let r := p % d
  let m1 := if d < 2 * r ∨ (2 * r = d ∧ m % 2 = 1) then m + 1 else m
  m1 * 2 ^ shift

/-- The double nearest to `p / q` units, with overflow to infinity at `2^1024`. -/
def round (neg : Bool) (p q : Nat) : JSNum :=
  if 2 ^ 2098 ≤ roundUnits p q then .inf neg else .fin neg (roundUnits p q)

/-- The operator `+` on numbers. -/
def add : JSNum → JSNum → JSNum
  | .nan, _ => .nan
  | _, .nan => .nan
  | .inf a, .inf b => if a = b then .inf a else .nan
  | .inf a, .fin _ _ => .inf a
  | .fin _ _, .inf b => .inf b
  | .fin a x, .fin b y =>
    if a = b then round a (x + y) 1
    else if x = y then .fin false 0
    else if y < x then round a (x - y) 1
    else round b (y - x) 1

/-- Unary minus. -/
def negate : JSNum → JSNum
  | .nan => .nan
  | .inf a => .inf (!a)
  | .fin a x => .fin (!a) x

/-- The operator `-` on numbers. -/
def sub (x y : JSNum) : JSNum := add x (negate y)

/-- The operator `<` on numbers. -/
def lt : JSNum → JSNum → Bool
  | .nan, _ => false
  | _, .nan => false
  | .inf a, .inf b => a && !b
  | .inf a, .fin _ _ => a
  | .fin _ _, .inf b => !b
  | .fin a x, .fin b y =>
    decide ((if a then -(x : Int) else (x : Int)) < (if b then -(y : Int) else (y : Int)))

/-- The operator `===` on numbers: `NaN` equals nothing, the two zeros are
equal, otherwise sign and magnitude must agree. -/
def strictEq : JSNum → JSNum → Bool
  | .inf a, .inf b => a == b
  | .fin a x, .fin b y => x == y && (a == b || x == 0)
  | _, _ => false

/-- The number with `-0` replaced by `0`. -/
def normalize : JSNum → JSNum
  | .fin neg u => .fin (neg && decide (u ≠ 0)) u
  | x => x

/-- The number whose value is the integer `i` (a double when `i` is one, as
every integer of magnitude up to `2^53` is). -/
def ofInt (i : Int) : JSNum := .fin (decide (i < 0)) (i.natAbs * one)

/-- Sign of a number, as `Array.prototype.sort` reads the result of a
comparator: negative, zero or positive, and `NaN` counts as zero. -/
def sign : JSNum → Int
  | .nan => 0
  | .inf neg => if neg then -1 else 1
  | .fin neg u => if u = 0 then 0 else if neg then -1 else 1

/-- The global `isNaN` on a number. -/
def isNaN : JSNum → Bool
  | .nan => true
  | _ => false

end JSNum

/-- Decimal digit for a value below ten. -/
def digitChar (d : Nat) : Char := Char.ofNat (48 + d)

/-- Decimal digits of `n`, most significant first, prepended to `acc`. -/
def decimalDigitsAux : Nat → Nat → List Char → List Char
  | 0, _, acc => acc
  | fuel + 1, n, acc =>
    if n < 10 then digitChar n :: acc
    else decimalDigitsAux fuel (n / 10) (digitChar (n % 10) :: acc)

/-- Decimal digits of a natural number. -/
def decimalDigits (n : Nat) : List Char := decimalDigitsAux (n + 1) n []

/-- The two multiples of `10^(n - k)` next to the integer `N`, which has `n`
decimal digits: the values with `k` significant digits between which `N`
lies.  The one nearer to `N` comes first, the even one on a tie. -/
def digitCandidates (N n k : Nat) : List Nat :=
  let P := 10 ^ (n - k)
  let lo := N / P * P
  let hi := lo + P
  if N - lo < hi - N ∨ (N - lo = hi - N ∧ (N / P) % 2 = 0) then [lo, hi] else [hi, lo]

/-- The integer whose digits `ToString` prints for the integer-valued double
`N`: the value with the fewest significant digits that still converts back to
`N`, and among those the one nearest to `N`. -/
def shortestDecimal (N : Nat) : Nat :=
  let n := (decimalDigits N).length
  let candidates := (List.range n).map (fun i => digitCandidates N n (i + 1))
  (candidates.flatten.find? (fun V => JSNum.roundUnits (V * JSNum.one) 1 = N * JSNum.one)).getD N

/-- The text of a positive integer `V` in `ToString`: its digits when it is
below `10^21`, else the exponential form `d.ddde+x` of its significant digits. -/
def integerText (V : Nat) : List Char :=
  if V < 10 ^ 21 then decimalDigits V
  else
    let ds := decimalDigits V
    let exponent := 'e' :: '+' :: decimalDigits (ds.length - 1)
    match (ds.reverse.dropWhile (fun c => c = '0')).reverse with
    | [] => ds
    | [d] => d :: exponent
    | d :: rest => d :: '.' :: (rest ++ exponent)

/-- The conversion `ToString` of a number, for `NaN`, the infinities and the
integer-valued doubles; the program converts no other number.  Below `2^53`
every integer is a double and is printed as its own digits. -/
def numberToString : JSNum → Option String
  | .nan => some "NaN"
  | .inf false => some "Infinity"
  | .inf true => some "-Infinity"
  | .fin neg u =>
    if u % JSNum.one = 0 then
      if u / JSNum.one < 2 ^ 53 then
        some ⟨(if neg = true ∧ u ≠ 0 then ['-'] else []) ++ decimalDigits (u / JSNum.one)⟩
      else
        some ⟨(if neg = true then ['-'] else []) ++ integerText (shortestDecimal (u / JSNum.one))⟩
    else none

/-- Value of a character as a digit in a radix up to 36. -/
def digitOfChar (c : Char) : Option Nat :=
  if 48 ≤ c.toNat ∧ c.toNat ≤ 57 then some (c.toNat - 48)
  else if 97 ≤ c.toNat ∧ c.toNat ≤ 122 then some (c.toNat - 87)
  else if 65 ≤ c.toNat ∧ c.toNat ≤ 90 then some (c.toNat - 55)
  else none

/-- Digit values of the longest prefix made of digits of radix `r`. -/
def radixDigits (r : Nat) : List Char → List Nat
  | [] => []
  | c :: cs =>
    match digitOfChar c with
    | some d => if d < r then d :: radixDigits r cs else []
    | none => []

/-- Value of a digit sequence in radix `r`. -/
def radixValue (r : Nat) (ds : List Nat) : Nat := ds.foldl (fun n d => r * n + d) 0

/-- The global `parseInt(s, radix)`; radix `0` stands for an omitted radix.
The integer that the digits denote is rounded to the nearest double (to
`Infinity` from `2^1024` on), as the implementations do for a digit string of
any length. -/
def parseInt (s : String) (radix : Nat) : JSNum :=
  let cs := trimStartChars s.data
  let neg : Bool := cs.head? = some '-'
  let cs1 := if cs.head? = some '-' ∨ cs.head? = some '+' then cs.tail else cs
  if radix ≠ 0 ∧ (radix < 2 ∨ 36 < radix) then .nan
  else
    let hex : Bool := (radix = 0 ∨ radix = 16) ∧ (cs1.take 2 = ['0', 'x'] ∨ cs1.take 2 = ['0', 'X'])
    let cs2 := if hex then cs1.drop 2 else cs1
    let r := if hex then 16 else if radix = 0 then 10 else radix
    let ds := radixDigits r cs2
    if ds = [] then .nan
    else JSNum.round neg (radixValue r ds * JSNum.one) 1

/-- Exponent part `e`/`E`, optional sign, digits: its value, `0` when the text
does not start with a complete exponent part. -/
def exponentPart (cs : List Char) : Int :=
  match cs with
  | e :: rest =>
    if e = 'e' ∨ e = 'E' then
      let neg : Bool := rest.head? = some '-'
      let ds := if rest.head? = some '-' ∨ rest.head? = some '+' then rest.tail else rest
      let digits := ds.takeWhile Char.isDigit
      if digits = [] then 0
      else if neg then -(digitsValue digits : Int) else (digitsValue digits : Int)
    else 0
  | [] => 0

/-- The global `parseFloat(s)`: the value of the longest prefix of the trimmed
text that is a `StrDecimalLiteral`, rounded to the nearest double, as the
implementations do for a mantissa of any length. -/
def parseFloat (s : String) : JSNum :=
  let cs := trimStartChars s.data
  let neg : Bool := cs.head? = some '-'
  let cs1 := if cs.head? = some '-' ∨ cs.head? = some '+' then cs.tail else cs
  if cs1.take 8 = "Infinity".data then .inf neg
  else
    let ip := cs1.takeWhile Char.isDigit
    let afterInt := cs1.dropWhile Char.isDigit
    let fp := if afterInt.head? = some '.' then afterInt.tail.takeWhile Char.isDigit else []
    let afterFrac := if afterInt.head? = some '.' then afterInt.tail.dropWhile Char.isDigit else afterInt
    if ip = [] ∧ fp = [] then .nan
    else
      let m := digitsValue (ip ++ fp)
      let e : Int := exponentPart afterFrac - fp.length
      if 0 ≤ e then JSNum.round neg (m * 10 ^ e.toNat * JSNum.one) 1
      else JSNum.round neg (m * JSNum.one) (10 ^ (-e).toNat)

/-- The expression `parseFloat(x.toFixed(2))`.  Below `10^21` the method
`toFixed(2)` prints the integer `n` nearest to `100 x` (the larger one on a
tie) with two decimals, and `parseFloat` reads `n / 100` back; from `10^21` on
it prints `ToString(x)`, which reads back as `x`. -/
def toFixed2Parsed : JSNum → JSNum
  | .nan => .nan
  | .inf neg => .inf neg
  | .fin neg u =>
    if 10 ^ 21 * JSNum.one ≤ u then .fin neg u
    else JSNum.round (neg && decide (u ≠ 0)) ((200 * u + JSNum.one) / (2 * JSNum.one) * JSNum.one) 100

/-- A value stored in a result row: a string, a number, or the source text of
an inherited built-in function followed by `ones` characters `1` (the result
of `+= 1` on a property that was read from `Object.prototype`). -/
inductive JSVal where
  | str (s : String)
  | num (x : JSNum)
  | nativeText (name : String) (ones : Nat)
  deriving DecidableEq, Repr

/-- A parsed row of the uploaded file: column name to text. -/
abbrev Record := JSObj String

/-! ## Record parser (`handleFileUpload`, `reader.onload`) -/

/-- State of the scanner loop: `values`, `currentValue`, `withinQuotes`. -/
structure Scanner where
  values : List String
  currentValue : List Char
  withinQuotes : Bool
  deriving DecidableEq, Repr

/-- One iteration of `for (let char of row)`. -/
def scanChar (st : Scanner) (char : Char) : Scanner :=
  if char = '"' then { st with withinQuotes := !st.withinQuotes }
  else if char = ',' ∧ st.withinQuotes = false then
    { st with values := st.values ++ [jsTrim ⟨st.currentValue⟩], currentValue := [] }
  else { st with currentValue := st.currentValue ++ [char] }

/-- The quote-aware tokenizer applied to one data line. -/
def tokenize (row : String) : List String :=
  let st := row.data.foldl scanChar ⟨[], [], false⟩
  st.values ++ [jsTrim ⟨st.currentValue⟩]

/-- The assignment `obj[header] = value` on a record.  Assigning a string to
`__proto__` goes to the inherited setter, which ignores it. -/
def assignField (obj : Record) (header value : String) : Record :=
  if header = "__proto__" then obj else obj.set header value

/-- The call `headers.reduce((obj, header, index) => ..., {})` with
`obj[header] = values[index] || ''`. -/
def buildRecord (headers values : List String) : Record :=
  headers.enum.foldl (fun obj ih => assignField obj ih.2 (values.getD ih.1 "")) []

/-- Lines kept by `text.split('\n').filter(row => row.trim())`. -/
def nonBlankRows (text : String) : List String :=
  (jsSplit '\n' text).filter (fun row => jsTrim row ≠ "")

/-- The body of the `try` block of `reader.onload`: the value passed to
`setData`.  With no surviving line `rows[0]` is `undefined` and
`rows[0].split` throws. -/
def parse (text : String) : Outcome (List Record) :=
  match nonBlankRows text with
  | [] => .typeError
  | header :: rest =>
    .ok (rest.map (fun row => buildRecord (jsSplit ',' header) (tokenize row)))

/-! ## Aggregation engine (`statistics`, `users`) -/

/-- A row of a result table. -/
abbrev Row := JSObj JSVal

/-- The per-person value `{ calls, minutes }` of a day bucket.  The call count
is a natural number: it counts elements of an array, which has fewer than
`2^32` of them, so the double that holds it is exact. -/
structure DayStat where
  calls : Nat
  minutes : JSNum
  deriving DecidableEq, Repr

/-- A per-person value of an hour bucket: a count, or the text left by `+= 1`
on a property name inherited from `Object.prototype` (`ones` is the number of
characters `1` after the built-in's source text). -/
inductive HourCell where
  | count (n : Nat)
  | nativeText (ones : Nat)
  deriving DecidableEq, Repr

/-- The filter `call.direction === 'outbound' && call.category === 'outgoing'`. -/
def isValidCall (call : Record) : Bool :=
  call.get? "direction" == some "outbound" && call.get? "category" == some "outgoing"

/-- The array `validCalls`. -/
def validCalls (data : List Record) : List Record := data.filter isValidCall

/-- The property key that `acc[...][call.name]` uses: the name, or the text
`undefined` when the record has no `name`. -/
def personKey (call : Record) : String := (call.get? "name").getD "undefined"

/-- The statement `acc[date][person].minutes += duration`, guarded by
`if (call.talk_duration)` and `if (!isNaN(duration))`. -/
def addDuration (minutes : JSNum) (call : Record) : JSNum :=
  match call.get? "talk_duration" with
  | none => minutes
  | some text =>
    if text = "" then minutes
    else if (parseFloat text).isNaN then minutes
    else minutes.add (parseFloat text)

/-- Property names of a built-in function that the statements of the
`callsByDay` reducer cannot use the way they use a bucket: `name` and `length`
hold a string and a number that cannot be written, `arguments` and `caller`
are accessors, and `calls` and `minutes` hold what earlier records left on the
function. -/
def builtinFunctionKeys : List String :=
  ["name", "length", "arguments", "caller", "calls", "minutes"]

/-- The reducer of `callsByDay`.  A missing `date_started` makes `.split`
throw.  A person key that names an inherited property reads a built-in
function, which is truthy, so the updates land on that function and the bucket
gets no own entry.  A date key that names an inherited property does the same
one level up: `acc[date]` is a built-in function, no bucket is created, the
per-person object is stored on that function and `acc` stays as it is; the run
is not followed when the person key names a property the function already has
a use for (`builtinFunctionKeys`), nor for the date key `__proto__`, which
writes to `Object.prototype` itself. -/
def dayStep (acc : JSObj (JSObj DayStat)) (call : Record) : Outcome (JSObj (JSObj DayStat)) :=
  match call.get? "date_started" with
  | none => .typeError
  | some started =>
    let date := firstPiece ' ' started
    let person := personKey call
    if date ∈ objectPrototypeKeys then
      if date = "__proto__" ∨ person ∈ builtinFunctionKeys then .unmodelled else .ok acc
    else
      let acc1 := if acc.has date then acc else acc.set date []
      let bucket := (acc1.get? date).getD []
      if person ∈ objectPrototypeKeys then .ok acc1
      else
        let bucket1 := if bucket.has person then bucket else bucket.set person ⟨0, JSNum.ofNat 0⟩
        let stat := (bucket1.get? person).getD ⟨0, JSNum.ofNat 0⟩
        .ok (acc1.set date (bucket1.set person ⟨stat.calls + 1, addDuration stat.minutes call⟩))

/-- The object `callsByDay`. -/
def callsByDay (calls : List Record) : Outcome (JSObj (JSObj DayStat)) :=
  foldlO dayStep [] calls

/-- The expression `parseInt(call.date_started.split(' ')[1].split(':')[0])`. -/
def hourOf (call : Record) : Outcome JSNum :=
  match call.get? "date_started" with
  | none => .typeError
  | some started =>
    match (jsSplit ' ' started).get? 1 with
    | none => .typeError
    | some time => .ok (parseInt (firstPiece ':' time) 0)

/-- The statements `if (!acc[hour][person]) acc[hour][person] = 0;` and
`acc[hour][person] += 1` on an hour bucket.  For a person key inherited from
`Object.prototype` the first statement does nothing and the second stores the
built-in's text followed by `1`, except for `__proto__`, whose setter ignores
the string. -/
def bumpHour (bucket : JSObj HourCell) (person : String) : JSObj HourCell :=
  match bucket.get? person with
  | some (.count n) => bucket.set person (.count (n + 1))
  | some (.nativeText k) => bucket.set person (.nativeText (k + 1))
  | none =>
    if person = "__proto__" then bucket
    else if person ∈ objectPrototypeKeys then bucket.set person (.nativeText 1)
    else bucket.set person (.count 1)

/-- The reducer of `callsByHour`; the bucket key is `ToString(hour)`, and
`hour` comes from `parseInt`, which returns `NaN`, an infinity or an
integer-valued double. -/
def hourStep (acc : JSObj (JSObj HourCell)) (call : Record) : Outcome (JSObj (JSObj HourCell)) :=
  (hourOf call).bind (fun hour =>
    match numberToString hour with
    | none => .unmodelled
    | some key =>
      let acc1 := if acc.has key then acc else acc.set key []
      let bucket := (acc1.get? key).getD []
      .ok (acc1.set key (bumpHour bucket (personKey call))))

/-- The object `callsByHour`. -/
def callsByHour (calls : List Record) : Outcome (JSObj (JSObj HourCell)) :=
  foldlO hourStep [] calls

/-- Map with a callback that can end the run. -/
def mapO {α β : Type} (f : α → Outcome β) : List α → Outcome (List β)
  | [] => .ok []
  | a :: l => (f a).bind (fun b => (mapO f l).bind (fun bs => .ok (b :: bs)))

/-- The object literal `{ first..., ...rest }`: the listed properties, then
every own property of `rest` copied in order. -/
def spreadInto (first : Row) (rest : JSObj JSVal) : Row :=
  rest.foldl (fun row e => row.set e.1 e.2) first

/-- The row `{ date, ...Object.entries(stats).reduce(..., {}) }` of
`dailyCallsData`, with `[person]: data.calls`. -/
def dailyCallsRow (entry : String × JSObj DayStat) : Row :=
  spreadInto [("date", .str entry.1)]
    (entry.2.foldl (fun acc e => acc.set e.1 (.num (JSNum.ofNat e.2.calls))) [])

/-- The row of `dailyMinutesData`, with
`[person]: parseFloat(data.minutes.toFixed(2))`. -/
def dailyMinutesRow (entry : String × JSObj DayStat) : Row :=
  spreadInto [("date", .str entry.1)]
    (entry.2.foldl (fun acc e => acc.set e.1 (.num (toFixed2Parsed e.2.minutes))) [])

/-- The string in a row's `date` property, if it is a string. -/
def dateOf (row : Row) : Option String :=
  match row.get? "date" with
  | some (.str s) => some s
  | _ => none

/-- What the program takes from its host: `String.prototype.localeCompare`,
and `Array.prototype.sort` applied to an array of rows, as a function of the
numbers the comparator returns (`NaN` read as `0`). -/
structure Host where
  collate : String → String → Int
  sort : (Row → Row → Int) → List Row → List Row

/-- A comparator that is consistent on the rows to be sorted, in the sense of
ECMAScript: `a < b` exactly when `b > a`, and `≤` is transitive. -/
def ConsistentOn (compare : Row → Row → Int) (rows : List Row) : Prop :=
  (∀ a ∈ rows, ∀ b ∈ rows, (compare a b < 0 ↔ 0 < compare b a)) ∧
    ∀ a ∈ rows, ∀ b ∈ rows, ∀ c ∈ rows, compare a b ≤ 0 → compare b c ≤ 0 → compare a c ≤ 0

/-- What ECMAScript requires of `Array.prototype.sort`: the result holds the
same rows, and for a consistent comparator it is the stable sorted order, in
which `a` stays before `b` unless the comparator is positive.  For any other
comparator the order is implementation-defined. -/
structure Host.Lawful (host : Host) : Prop where
  perm : ∀ compare rows, (host.sort compare rows).Perm rows
  stable : ∀ compare rows, ConsistentOn compare rows →
    host.sort compare rows = rows.insertionSort (fun a b => compare a b ≤ 0)

/-- The comparator `(a, b) => a.date.localeCompare(b.date)` on rows whose
`date` is a string. -/
def compareDate (host : Host) (a b : Row) : Int :=
  host.collate ((dateOf a).getD "") ((dateOf b).getD "")

/-- The call `.sort((a, b) => a.date.localeCompare(b.date))`.  With fewer than
two rows the comparator is not called.  A `date` that is not a string (a
person named `date` overwrote it) has no `localeCompare`: when no row has a
string date the first comparison throws; when only some have, whether a
comparison throws depends on the order of the host's comparisons, and the run
is not followed. -/
def sortByDate (host : Host) (rows : List Row) : Outcome (List Row) :=
  if rows.length ≤ 1 then .ok rows
  else if rows.all (fun r => (dateOf r).isSome) then .ok (host.sort (compareDate host) rows)
  else if rows.all (fun r => (dateOf r).isNone) then .typeError
  else .unmodelled

/-- The 12-hour label `formattedHour`. -/
def formattedHour (hourInt : JSNum) : Outcome String :=
  if hourInt.strictEq (JSNum.ofNat 0) then .ok "12:00 AM"
  else if hourInt.lt (JSNum.ofNat 12) then
    match numberToString hourInt with
    | some s => .ok (s ++ ":00 AM")
    | none => .unmodelled
  else if hourInt.strictEq (JSNum.ofNat 12) then .ok "12:00 PM"
  else
    match numberToString (hourInt.sub (JSNum.ofNat 12)) with
    | some s => .ok (s ++ ":00 PM")
    | none => .unmodelled

/-- A value of an hour bucket as a row value. -/
def hourCellValue (person : String) : HourCell → JSVal
  | .count n => .num (JSNum.ofNat n)
  | .nativeText k => .nativeText person k

/-- The row `{ hour: formattedHour, hour24: hourInt, ...stats }` of
`hourlyCallsData`, with `hourInt = parseInt(hour, 10)`. -/
def hourlyRow (entry : String × JSObj HourCell) : Outcome Row :=
  (formattedHour (parseInt entry.1 10)).bind (fun label =>
    .ok (spreadInto [("hour", .str label), ("hour24", .num (parseInt entry.1 10))]
      (entry.2.map (fun e => (e.1, hourCellValue e.1 e.2)))))

/-- The number in a row's `hour24` property (`NaN` if it is not a number,
which no row built by `hourlyRow` is). -/
def hour24Of (row : Row) : JSNum :=
  match row.get? "hour24" with
  | some (.num x) => x
  | _ => .nan

/-- The comparator `(a, b) => a.hour24 - b.hour24`. -/
def compareHour24 (a b : Row) : Int := ((hour24Of a).sub (hour24Of b)).sign

/-- The call `.sort((a, b) => a.hour24 - b.hour24)`.  With a `NaN` among the
rows the comparator need not be consistent, and the order is then the host's. -/
def sortByHour24 (host : Host) (rows : List Row) : List Row := host.sort compareHour24 rows

/-- The value of `statistics`. -/
structure Statistics where
  dailyCallsData : List Row
  dailyMinutesData : List Row
  hourlyCallsData : List Row
  deriving DecidableEq, Repr

/-- The body of the `statistics` memo, for uploaded data. -/
def statistics (host : Host) (data : List Record) : Outcome Statistics :=
  (callsByDay (validCalls data)).bind (fun byDay =>
  (callsByHour (validCalls data)).bind (fun byHour =>
  (sortByDate host (byDay.map dailyCallsRow)).bind (fun dailyCallsData =>
  (sortByDate host (byDay.map dailyMinutesRow)).bind (fun dailyMinutesData =>
  (mapO hourlyRow byHour).bind (fun hourRows =>
  .ok ⟨dailyCallsData, dailyMinutesData, sortByHour24 host hourRows⟩)))))

/-- Elements of `new Set(xs)` in iteration order: first occurrences. -/
def setElements {α : Type} [DecidableEq α] (xs : List α) : List α :=
  xs.foldl (fun seen x => if x ∈ seen then seen else seen ++ [x]) []

/-- The value of `users`; `none` is `undefined`, the name of a record without
a `name` field. -/
def users (data : List Record) : List (Option String) :=
  setElements ((validCalls data).map (fun call => call.get? "name"))

/-- What the aggregation hands to the rendering code. -/
structure AggregationResult where
  dailyCalls : List Row
  dailyMinutes : List Row
  hourlyCalls : List Row
  persons : List (Option String)
  deriving DecidableEq, Repr

/-- The aggregation engine: `statistics` together with `users`. -/
def aggregate (host : Host) (data : List Record) : Outcome AggregationResult :=
  (statistics host data).bind (fun s =>
    .ok ⟨s.dailyCallsData, s.dailyMinutesData, s.hourlyCallsData, users data⟩)

/-! ## Notions used in the statements -/

/-- A field as written into a data line: bare, or enclosed in double quotes
(`f.2`). -/
def writeField (f : String × Bool) : String :=
  if f.2 then "\"" ++ f.1 ++ "\"" else f.1

/-- A data line: the written fields joined with commas. -/
def csvLine : List (String × Bool) → String
  | [] => ""
  | [f] => writeField f
  | f :: g :: rest => writeField f ++ "," ++ csvLine (g :: rest)

/-- The date key of a record: the part of `date_started` before the first
space. -/
def dateKey (call : Record) : Option String :=
  (JSObj.get? call "date_started").map (firstPiece ' ')

/-- The record has date key `d` and person key `p`. -/
def sameDayPerson (d p : String) (call : Record) : Bool :=
  dateKey call == some d && personKey call == p

/-- Number of filtered records with date key `d` and name `p`. -/
def dayCount (data : List Record) (d p : String) : Nat :=
  (validCalls data).countP (sameDayPerson d p)

/-- The number a record adds to the minutes: the value of `talk_duration` when
it is present, not empty and parses to a number other than `NaN`. -/
def duration? (call : Record) : Option JSNum :=
  match JSObj.get? call "talk_duration" with
  | none => none
  | some text =>
    if text = "" then none
    else if (parseFloat text).isNaN then none
    else some (parseFloat text)

/-- Sum of the durations of `calls`, added in order as doubles from `0`. -/
def minutesOf (calls : List Record) : JSNum :=
  calls.foldl (fun s c => match duration? c with
    | some x => s.add x
    | none => s) (JSNum.ofNat 0)

/-- Sum of the durations of the filtered records with date key `d` and name
`p`. -/
def dayMinutes (data : List Record) (d p : String) : JSNum :=
  minutesOf ((validCalls data).filter (sameDayPerson d p))

/-- The number the claim lets a record add: as `duration?`, but only a finite
number. -/
def finiteDuration? (call : Record) : Option JSNum :=
  match duration? call with
  | some (.fin neg u) => some (.fin neg u)
  | _ => none

/-- The sum as the claim describes it: finite durations only. -/
def finiteDayMinutes (data : List Record) (d p : String) : JSNum :=
  ((validCalls data).filter (sameDayPerson d p)).foldl (fun s c => match finiteDuration? c with
    | some x => s.add x
    | none => s) (JSNum.ofNat 0)

/-- The distinct date keys of the filtered records. -/
def dateKeys (data : List Record) : List String :=
  setElements ((validCalls data).filterMap dateKey)

/-- Value stored for `p` in the bucket of `k`. -/
def lookup2 {α : Type} (acc : JSObj (JSObj α)) (k p : String) : Option α :=
  (JSObj.get? acc k).bind (fun b => JSObj.get? b p)

/-- What the bucket of date `d` holds for person `p` once `calls` have been
reduced: nothing for an inherited property name or a person without calls,
else the number of calls and the sum of their durations. -/
def expectedDay (calls : List Record) (d p : String) : Option DayStat :=
  if p ∈ objectPrototypeKeys ∨ calls.countP (sameDayPerson d p) = 0 then none
  else some ⟨calls.countP (sameDayPerson d p), minutesOf (calls.filter (sameDayPerson d p))⟩

/-- The state of `callsByDay` after the reducer has run over `calls`. -/
structure DayInv (calls : List Record) (acc : JSObj (JSObj DayStat)) : Prop where
  nodup : (JSObj.keys acc).Nodup
  keys : ∀ d, d ∈ JSObj.keys acc ↔ ∃ c ∈ calls, dateKey c = some d
  buckets : ∀ d b, JSObj.get? acc d = some b → (JSObj.keys b).Nodup
  stats : ∀ d p, lookup2 acc d p = expectedDay calls d p

/-- A record of an outbound, outgoing call with the given `name`,
`date_started` and `talk_duration`. -/
def outboundCall (name started duration : String) : Record :=
  [("direction", "outbound"), ("category", "outgoing"), ("name", name),
   ("date_started", started), ("talk_duration", duration)]

/-- The input of the example in the specification. -/
def exampleData : List Record :=
  [outboundCall "Alice" "2024-01-02 09:15:00" "3.5",
   outboundCall "Alice" "2024-01-02 14:00:00" "2"]

/-- The output of the example in the specification; `5.5` is `11 * 2^-1`. -/
def exampleResult : AggregationResult where
  dailyCalls := [[("date", .str "2024-01-02"), ("Alice", .num (JSNum.ofNat 2))]]
  dailyMinutes := [[("date", .str "2024-01-02"), ("Alice", .num (.fin false (11 * 2 ^ 1073)))]]
  hourlyCalls :=
    [[("hour", .str "9:00 AM"), ("hour24", .num (JSNum.ofNat 9)), ("Alice", .num (JSNum.ofNat 1))],
     [("hour", .str "2:00 PM"), ("hour24", .num (JSNum.ofNat 14)), ("Alice", .num (JSNum.ofNat 1))]]
  persons := [some "Alice"]

/-- The record's hour key is the integer `h`. -/
def hourIs (h : Int) (call : Record) : Bool :=
  match hourOf call with
  | .ok x => x.strictEq (JSNum.ofInt h)
  | _ => false

/-- The record has hour key `h` and person key `p`. -/
def sameHourPerson (h : Int) (p : String) (call : Record) : Bool :=
  hourIs h call && personKey call == p

/-- Number of filtered records with hour key `h` and name `p`. -/
def hourCount (data : List Record) (h : Int) (p : String) : Nat :=
  (validCalls data).countP (sameHourPerson h p)

/-- The property key of the record's hour bucket. -/
def hourKey? (call : Record) : Option String :=
  match hourOf call with
  | .ok x => numberToString x
  | _ => none

/-- The record goes to the bucket with key `k`, under the person key `p`. -/
def sameKeyPerson (k p : String) (call : Record) : Bool :=
  hourKey? call == some k && personKey call == p

/-- What the hour bucket with key `k` holds for person `p` once `calls` have
been reduced. -/
def expectedHour (calls : List Record) (k p : String) : Option HourCell :=
  if calls.countP (sameKeyPerson k p) = 0 ∨ p = "__proto__" then none
  else if p ∈ objectPrototypeKeys then some (.nativeText (calls.countP (sameKeyPerson k p)))
  else some (.count (calls.countP (sameKeyPerson k p)))

/-- The state of `callsByHour` after the reducer has run over `calls`. -/
structure HourInv (calls : List Record) (acc : JSObj (JSObj HourCell)) : Prop where
  nodup : (JSObj.keys acc).Nodup
  keys : ∀ k, k ∈ JSObj.keys acc ↔ ∃ c ∈ calls, hourKey? c = some k
  buckets : ∀ k b, JSObj.get? acc k = some b → (JSObj.keys b).Nodup
  cells : ∀ k p, lookup2 acc k p = expectedHour calls k p
  keyed : ∀ c ∈ calls, ∃ k, hourKey? c = some k

/-- The number `parseInt(key, 10)` that a row gets from its bucket key. -/
def keyHour (k : String) : JSNum := parseInt k 10

/-- The values of `parseInt`: `NaN`, the infinities and the doubles whose value
is an integer. -/
def IsIntegral (x : JSNum) : Prop := ∀ neg u, x = .fin neg u → JSNum.one ∣ u

/-- A number that is `NaN` or of magnitude below `10^21`; `ToString` prints
these integers without an exponent. -/
def HourBelow : JSNum → Prop
  | .nan => True
  | .inf _ => False
  | .fin _ u => u < 10 ^ 21 * JSNum.one

instance (x : JSNum) : Decidable (HourBelow x) := by
  cases x <;> unfold HourBelow <;> infer_instance

/-- The hour key of the record, if it has one, is `NaN` or of magnitude below
`10^21`. -/
def HourKeyBelow (call : Record) : Prop :=
  match hourOf call with
  | .ok x => HourBelow x
  | _ => True

instance (call : Record) : Decidable (HourKeyBelow call) := by
  unfold HourKeyBelow
  split <;> infer_instance

/-- The hours that are read back from their bucket key as they were: `NaN`
and the integer-valued doubles of magnitude below `10^21`. -/
def InRange (x : JSNum) : Prop :=
  x = .nan ∨ ∃ neg n, n < 10 ^ 21 ∧ JSNum.roundUnits (n * JSNum.one) 1 = n * JSNum.one ∧
    x = .fin neg (n * JSNum.one)

/-- The date key of the record, if it has one, is not the name of a property
inherited from `Object.prototype`. -/
def OwnDateKey (call : Record) : Prop :=
  ∀ d ∈ dateKey call, d ∉ objectPrototypeKeys

instance (call : Record) : Decidable (OwnDateKey call) := by
  unfold OwnDateKey
  infer_instance

/-- A finite number that is not `-0`. -/
def IsHour (x : JSNum) : Prop := ∃ neg u, x = .fin neg u ∧ (neg = true → u ≠ 0)

/-- Position of the first occurrence of `x` in `xs`. -/
def firstIndex {α : Type} [DecidableEq α] (x : α) (xs : List α) : Nat := List.indexOf x xs

/-- A sample host collation: comparison by code points. -/
def ordinalCollation (a b : String) : Int :=
  if a.data < b.data then -1 else if a = b then 0 else 1

/-- A sample host collation that ignores letter case, as locale-aware
collations do at their first level: comparison of the lower-cased strings by
code points. -/
def caseInsensitiveCollation (a b : String) : Int :=
  ordinalCollation ⟨a.data.map Char.toLower⟩ ⟨b.data.map Char.toLower⟩

/-- A sample host with the given collation, whose sort is an insertion sort:
an element stays before the elements it is not greater than. -/
def insertionHost (collate : String → String → Int) : Host where
  collate := collate
  sort := fun compare rows => rows.insertionSort (fun a b => compare a b ≤ 0)

/-- The sample host that compares strings by code points. -/
def ordinalHost : Host := insertionHost ordinalCollation

/-! ## Notions used in the statements about the parser -/

/-- A line that `row.trim()` empties: every character is white space. -/
def isBlankLine (line : String) : Bool := line.data.all isJSWhiteSpace

/-- Lines joined with line feeds. -/
def joinLines : List String → String
  | [] => ""
  | [l] => l
  | l :: m :: rest => l ++ "\n" ++ joinLines (m :: rest)

/-- The component state that the upload handler writes: `data` and `error`
(`none` is `null`). -/
structure UploadState where
  data : Option (List Record)
  error : Option String
  deriving DecidableEq, Repr

/-- The handler `reader.onload` on the state: `setData(parsedData)` and
`setError(null)` after a successful parse, `setError(err.message)` in the
`catch` block; `message` is the host's text for the `TypeError`. -/
def onload (message : String) (st : UploadState) (text : String) : UploadState :=
  match parse text with
  | .ok parsedData => { data := some parsedData, error := none }
  | _ => { st with error := some message }

/-- Characters with every line feed replaced by carriage return, line feed. -/
def crlfChars : List Char → List Char
  | [] => []
  | c :: cs => if c = '\n' then '\r' :: '\n' :: crlfChars cs else c :: crlfChars cs

/-- The text with every line feed replaced by carriage return, line feed. -/
def crlf (text : String) : String := ⟨crlfChars text.data⟩

/-- Pieces of a text split at line feeds, after `crlf`: every piece but the
last gets a carriage return at its end. -/
def addCR : List (List Char) → List (List Char)
  | [] => []
  | [l] => [l]
  | l :: m :: rest => (l ++ ['\r']) :: addCR (m :: rest)

/-- The header names with a carriage return appended to the last one. -/
def withCRHeader : List String → List String
  | [] => []
  | [last] => [last ++ "\r"]
  | h :: g :: rest => h :: withCRHeader (g :: rest)

/-- Pieces of a text with the character `x` appended to the last one. -/
def appendToLast (x : Char) : List (List Char) → List (List Char)
  | [] => []
  | [last] => [last ++ [x]]
  | p :: q :: rest => p :: appendToLast x (q :: rest)

end CallAnalytics

namespace CallAnalytics

/-! ## Lemmas on objects -/

namespace JSObj

variable {α : Type}

theorem get?_nil (k : String) : JSObj.get? ([] : JSObj α) k = none := rfl

theorem get?_cons (e : String × α) (o : JSObj α) (k : String) :
    JSObj.get? (e :: o) k = if e.1 = k then some e.2 else JSObj.get? o k := by
  unfold JSObj.get?
  by_cases h : e.1 = k
  · simp [List.find?_cons, h]
  · simp [List.find?_cons, h]

theorem get?_append (o₁ o₂ : JSObj α) (k : String) :
    JSObj.get? (o₁ ++ o₂) k = (JSObj.get? o₁ k).or (JSObj.get? o₂ k) := by
  induction o₁ with
  | nil => rw [List.nil_append, get?_nil]; rfl
  | cons e o ih =>
    rw [List.cons_append, get?_cons, get?_cons, ih]
    split <;> simp

theorem get?_eq_none_iff (o : JSObj α) (k : String) :
    JSObj.get? o k = none ↔ k ∉ JSObj.keys o := by
  induction o with
  | nil => simp [get?_nil, keys]
  | cons e o ih =>
    rw [get?_cons]
    by_cases h : e.1 = k
    · simp [h, keys]
    · simp only [h, if_false, ih, keys, List.map_cons, List.mem_cons, not_or]
      exact ⟨fun h2 => ⟨fun h3 => h h3.symm, h2⟩, fun h2 => h2.2⟩

theorem has_iff (o : JSObj α) (k : String) : JSObj.has o k = true ↔ k ∈ JSObj.keys o := by
  unfold has
  rw [Option.isSome_iff_ne_none, Ne, get?_eq_none_iff, not_not]

theorem has_eq_false_iff (o : JSObj α) (k : String) :
    JSObj.has o k = false ↔ k ∉ JSObj.keys o := by
  rw [← has_iff]; simp

theorem get?_some_mem {o : JSObj α} {k : String} {v : α} (h : JSObj.get? o k = some v) :
    (k, v) ∈ o := by
  induction o with
  | nil => simp [get?_nil] at h
  | cons e o ih =>
    rw [get?_cons] at h
    by_cases hk : e.1 = k
    · simp only [hk, if_true, Option.some.injEq] at h
      have : e = (k, v) := by cases e; simp_all
      simp [this]
    · simp only [hk, if_false] at h
      exact List.mem_cons_of_mem _ (ih h)

theorem mem_get? {o : JSObj α} (hnd : (JSObj.keys o).Nodup) {k : String} {v : α}
    (h : (k, v) ∈ o) : JSObj.get? o k = some v := by
  induction o with
  | nil => simp at h
  | cons e o ih =>
    rw [get?_cons]
    simp only [keys, List.map_cons, List.nodup_cons] at hnd
    rcases List.mem_cons.1 h with h1 | h1
    · subst h1; simp
    · have hne : e.1 ≠ k := by
        intro heq
        apply hnd.1
        rw [heq]
        exact List.mem_map.2 ⟨(k, v), h1, rfl⟩
      simp only [hne, if_false]
      exact ih hnd.2 h1

theorem get?_insertIndex (i : Nat) (k : String) (v : α) (o : JSObj α) (k' : String) :
    JSObj.get? (insertIndex i k v o) k' =
      if k' = k then (if JSObj.has o k then JSObj.get? (insertIndex i k v o) k' else some v)
      else JSObj.get? o k' := by
  induction o with
  | nil =>
    simp only [insertIndex, get?_cons, get?_nil, has]
    by_cases h : k' = k
    · simp [h]
    · simp [h, Ne.symm h]
  | cons e o ih =>
    by_cases h : k' = k
    · subst h
      simp only [if_true]
      by_cases hh : JSObj.has (e :: o) k' = true
      · simp [hh]
      · simp only [hh, if_false]
        have hh' : JSObj.has (e :: o) k' = false := by simpa using hh
        rw [has_eq_false_iff] at hh'
        simp only [keys, List.map_cons, List.mem_cons, not_or] at hh'
        have ho : JSObj.has o k' = false := by
          rw [has_eq_false_iff]; exact hh'.2
        have ih' := ih
        simp only [if_true, ho] at ih'
        unfold insertIndex
        split
        · split
          · rw [get?_cons, if_neg (Ne.symm hh'.1)]
            simpa using ih'
          · rw [get?_cons]; simp
        · rw [get?_cons]; simp
    · simp only [h, if_false] at ih ⊢
      unfold insertIndex
      split
      · split
        · rw [get?_cons, get?_cons, ih]
        · rw [get?_cons, if_neg (Ne.symm h)]
      · rw [get?_cons, if_neg (Ne.symm h)]

theorem get?_map_set (o : JSObj α) (k : String) (v : α) (k' : String) :
    JSObj.get? (o.map (fun e => if e.1 = k then (k, v) else e)) k' =
      if k' = k then (JSObj.get? o k).map (fun _ => v) else JSObj.get? o k' := by
  induction o with
  | nil => simp only [List.map_nil, get?_nil, Option.map_none', ite_self]
  | cons e o ih =>
    rw [List.map_cons, get?_cons, ih]
    by_cases h1 : e.1 = k
    · by_cases h2 : k' = k
      · simp [h1, h2, get?_cons]
      · simp [h1, h2, get?_cons, Ne.symm h2]
    · by_cases h2 : k' = k
      · subst h2
        simp [h1, get?_cons]
      · simp [h1, h2, get?_cons]

theorem get?_set (o : JSObj α) (k : String) (v : α) (k' : String) :
    JSObj.get? (JSObj.set o k v) k' = if k' = k then some v else JSObj.get? o k' := by
  unfold JSObj.set
  by_cases hh : JSObj.has o k = true
  · simp only [hh, if_true]
    rw [get?_map_set]
    by_cases h : k' = k
    · simp only [h, if_true]
      unfold has at hh
      obtain ⟨w, hw⟩ := Option.isSome_iff_exists.1 hh
      simp [hw]
    · simp [h]
  · rw [if_neg hh]
    have hh' : JSObj.has o k = false := by simpa using hh
    split
    · rw [get?_insertIndex]
      by_cases h : k' = k
      · simp [h, hh']
      · simp [h]
    · rw [get?_append, get?_cons, get?_nil]
      by_cases h : k' = k
      · subst h
        unfold has at hh'
        have : JSObj.get? o k' = none := by simpa using hh'
        simp [this]
      · simp [h, Ne.symm h]

theorem get?_set_self (o : JSObj α) (k : String) (v : α) :
    JSObj.get? (JSObj.set o k v) k = some v := by
  rw [get?_set]; simp

theorem get?_set_ne (o : JSObj α) (k : String) (v : α) {k' : String} (h : k' ≠ k) :
    JSObj.get? (JSObj.set o k v) k' = JSObj.get? o k' := by
  rw [get?_set]; simp [h]

theorem keys_insertIndex_perm (i : Nat) (k : String) (v : α) (o : JSObj α) :
    (JSObj.keys (insertIndex i k v o)).Perm (k :: JSObj.keys o) := by
  induction o with
  | nil => simp [insertIndex, keys]
  | cons e o ih =>
    unfold insertIndex
    split
    · split
      · simp only [keys, List.map_cons] at ih ⊢
        exact (List.Perm.cons _ ih).trans (List.Perm.swap _ _ _)
      · simp [keys]
    · simp [keys]

theorem keys_map_set (o : JSObj α) (k : String) (v : α) :
    JSObj.keys (o.map (fun e => if e.1 = k then (k, v) else e)) = JSObj.keys o := by
  induction o with
  | nil => rfl
  | cons e o ih =>
    simp only [keys, List.map_cons] at ih ⊢
    rw [ih]
    by_cases h : e.1 = k <;> simp [h]

theorem keys_set_perm (o : JSObj α) (k : String) (v : α) :
    (JSObj.keys (JSObj.set o k v)).Perm (if JSObj.has o k then JSObj.keys o else k :: JSObj.keys o) := by
  unfold JSObj.set
  by_cases hh : JSObj.has o k = true
  · simp only [hh, if_true]
    rw [keys_map_set]
  · rw [if_neg hh, if_neg hh]
    split
    · exact keys_insertIndex_perm _ _ _ _
    · simp only [keys, List.map_append, List.map_cons, List.map_nil]
      exact List.perm_append_singleton _ _

theorem nodup_keys_set {o : JSObj α} (h : (JSObj.keys o).Nodup) (k : String) (v : α) :
    (JSObj.keys (JSObj.set o k v)).Nodup := by
  rw [(keys_set_perm o k v).nodup_iff]
  by_cases hh : JSObj.has o k = true
  · simpa [hh] using h
  · simp only [hh]
    have hh' : JSObj.has o k = false := by simpa using hh
    rw [has_eq_false_iff] at hh'
    simpa [List.nodup_cons, hh'] using h

theorem mem_keys_set (o : JSObj α) (k : String) (v : α) (k' : String) :
    k' ∈ JSObj.keys (JSObj.set o k v) ↔ k' = k ∨ k' ∈ JSObj.keys o := by
  rw [(keys_set_perm o k v).mem_iff]
  by_cases hh : JSObj.has o k = true
  · simp only [hh, if_true]
    constructor
    · exact Or.inr
    · rintro (h | h)
      · rw [h]; exact (has_iff o k).1 hh
      · exact h
  · simp [hh]

end JSObj

end CallAnalytics

namespace CallAnalytics

/-! ## The 12-hour label -/

set_option exponentiation.threshold 4000 in
set_option maxRecDepth 100000 in
/-- C8: for every hour `h` from 0 to 23 the label is `12:00 AM` for 0,
`<h>:00 AM` for 1 to 11, `12:00 PM` for 12 and `<h-12>:00 PM` for 13 to 23;
in particular 0, 12 and 23 give `12:00 AM`, `12:00 PM` and `11:00 PM`. -/
theorem C8_formattedHour (h : Nat) (hh : h ≤ 23) :
    formattedHour (JSNum.ofNat h) =
        .ok (if h = 0 then "12:00 AM"
          else if h ≤ 11 then toString h ++ ":00 AM"
          else if h = 12 then "12:00 PM"
          else toString (h - 12) ++ ":00 PM") ∧
      formattedHour (JSNum.ofNat 0) = .ok "12:00 AM" ∧
      formattedHour (JSNum.ofNat 12) = .ok "12:00 PM" ∧
      formattedHour (JSNum.ofNat 23) = .ok "11:00 PM" := by
  refine ⟨?_, by decide, by decide, by decide⟩
  interval_cases h <;> decide

set_option exponentiation.threshold 4000 in
set_option maxRecDepth 100000 in
theorem C8_formattedHour_witness :
    (17 : Nat) ≤ 23 ∧ formattedHour (JSNum.ofNat 17) = .ok "5:00 PM" :=
  ⟨by decide, (C8_formattedHour 17 (by decide)).1.trans (by decide)⟩

/-! ## The tokenizer -/

theorem scan_plain (cs : List Char) (st : Scanner) (hq : '"' ∉ cs)
    (hc : ',' ∈ cs → st.withinQuotes = true) :
    cs.foldl scanChar st = { st with currentValue := st.currentValue ++ cs } := by
  induction cs generalizing st with
  | nil => simp
  | cons c cs ih =>
    have hc1 : c ≠ '"' := fun h => hq (by simp [h])
    have hq' : '"' ∉ cs := fun h => hq (List.mem_cons_of_mem _ h)
    have hstep : scanChar st c = { st with currentValue := st.currentValue ++ [c] } := by
      unfold scanChar
      rw [if_neg hc1]
      by_cases h2 : c = ','
      · have := hc (by simp [h2])
        simp [this]
      · simp [h2]
    rw [List.foldl_cons, hstep, ih _ hq']
    · simp
    · intro h
      exact hc (List.mem_cons_of_mem _ h)

theorem scan_field (f : String × Bool) (vals : List String) (hq : '"' ∉ f.1.data)
    (hc : ',' ∈ f.1.data → f.2 = true) :
    (writeField f).data.foldl scanChar ⟨vals, [], false⟩ = ⟨vals, f.1.data, false⟩ := by
  unfold writeField
  by_cases h : f.2 = true
  · rw [if_pos h]
    have e : ("\"" ++ f.1 ++ "\"").data = '"' :: (f.1.data ++ ['"']) := by
      simp [String.data_append]
    rw [e, List.foldl_cons, List.foldl_append]
    have h1 : scanChar ⟨vals, [], false⟩ '"' = ⟨vals, [], true⟩ := by
      simp [scanChar]
    rw [h1, scan_plain _ _ hq (fun _ => rfl)]
    simp [scanChar]
  · rw [if_neg h, scan_plain _ _ hq (fun hm => absurd (hc hm) h)]
    simp

theorem scan_line (fields : List (String × Bool)) (hne : fields ≠ [])
    (hq : ∀ f ∈ fields, '"' ∉ f.1.data ∧ (',' ∈ f.1.data → f.2 = true))
    (vals : List String) :
    (csvLine fields).data.foldl scanChar ⟨vals, [], false⟩ =
      ⟨vals ++ (fields.dropLast).map (fun f => jsTrim f.1),
        (fields.getLast hne).1.data, false⟩ := by
  induction fields generalizing vals with
  | nil => exact absurd rfl hne
  | cons f rest ih =>
    cases rest with
    | nil =>
      have := hq f (by simp)
      simp [csvLine, scan_field f vals this.1 this.2]
    | cons g rest =>
      have hf := hq f (by simp)
      have e : (csvLine (f :: g :: rest)).data =
          (writeField f).data ++ ',' :: (csvLine (g :: rest)).data := by
        simp [csvLine, String.data_append]
      rw [e, List.foldl_append, scan_field f vals hf.1 hf.2, List.foldl_cons]
      have h1 : scanChar ⟨vals, f.1.data, false⟩ ',' = ⟨vals ++ [jsTrim f.1], [], false⟩ := by
        simp [scanChar]
      rw [h1, ih (by simp) (fun x hx => hq x (List.mem_cons_of_mem _ hx))]
      simp

theorem tokenize_csvLine (fields : List (String × Bool)) (hne : fields ≠ [])
    (hq : ∀ f ∈ fields, '"' ∉ f.1.data ∧ (',' ∈ f.1.data → f.2 = true)) :
    tokenize (csvLine fields) = fields.map (fun f => jsTrim f.1) := by
  unfold tokenize
  simp only [scan_line fields hne hq []]
  conv_rhs => rw [← List.dropLast_append_getLast hne]
  simp

/-- C9: a data line made of fields without double quotes and line breaks,
joined with commas, where every field that contains a comma is enclosed in
double quotes, is tokenized into the trimmed fields; and the header `x,y,z`
with the row `a,"b,c",d` parses to the single record
`{x: "a", y: "b,c", z: "d"}`. -/
theorem C9_tokenize_quoted (fields : List (String × Bool)) (hne : fields ≠ [])
    (hq : ∀ f ∈ fields, '"' ∉ f.1.data ∧ '\n' ∉ f.1.data ∧ '\r' ∉ f.1.data ∧
      (',' ∈ f.1.data → f.2 = true)) :
    tokenize (csvLine fields) = fields.map (fun f => jsTrim f.1) ∧
      parse "x,y,z\na,\"b,c\",d" = .ok [[("x", "a"), ("y", "b,c"), ("z", "d")]] :=
  ⟨tokenize_csvLine fields hne (fun f hf => ⟨(hq f hf).1, (hq f hf).2.2.2⟩), by decide⟩

theorem C9_tokenize_quoted_witness :
    csvLine [("a", false), (" b,c ", true), ("d", false)] = "a,\" b,c \",d" ∧
      tokenize (csvLine [("a", false), (" b,c ", true), ("d", false)]) = ["a", "b,c", "d"] :=
  ⟨by decide, (C9_tokenize_quoted [("a", false), (" b,c ", true), ("d", false)]
    (by decide) (by decide)).1.trans (by decide)⟩

end CallAnalytics

namespace CallAnalytics

/-! ## Building a record -/

theorem get?_assignField_ne (obj : Record) (header value : String) {k : String}
    (h : k ≠ header) : JSObj.get? (assignField obj header value) k = JSObj.get? obj k := by
  unfold assignField
  split
  · rfl
  · exact JSObj.get?_set_ne _ _ _ h

theorem get?_buildFrom_absent (values : List String) (k : String) (hs : List String)
    (hk : ∀ x ∈ hs, x ≠ k) (n : Nat) (obj : Record) :
    JSObj.get? ((hs.enumFrom n).foldl
      (fun obj ih => assignField obj ih.2 (values.getD ih.1 "")) obj) k = JSObj.get? obj k := by
  induction hs generalizing n obj with
  | nil => rfl
  | cons a t ih =>
    rw [List.enumFrom_cons, List.foldl_cons, ih (fun x hx => hk x (List.mem_cons_of_mem _ hx))]
    exact get?_assignField_ne _ _ _ (Ne.symm (hk a (by simp)))

theorem get?_buildFrom (values : List String) (hs : List String) (n : Nat) (obj : Record)
    (i : Nat) (hi : i < hs.length) (hproto : hs.getD i "" ≠ "__proto__")
    (hlast : ∀ j, i < j → j < hs.length → hs.getD j "" ≠ hs.getD i "") :
    JSObj.get? ((hs.enumFrom n).foldl
      (fun obj ih => assignField obj ih.2 (values.getD ih.1 "")) obj) (hs.getD i "") =
      some (values.getD (n + i) "") := by
  induction hs generalizing n obj i with
  | nil => simp at hi
  | cons a t ih =>
    rw [List.enumFrom_cons, List.foldl_cons]
    cases i with
    | zero =>
      simp only [List.getD_cons_zero] at hproto hlast ⊢
      rw [get?_buildFrom_absent]
      · simp only [assignField, if_neg hproto, Nat.add_zero]
        exact JSObj.get?_set_self _ _ _
      · intro x hx
        obtain ⟨j, hj, rfl⟩ := List.getElem_of_mem hx
        have := hlast (j + 1) (Nat.succ_pos _) (by simpa using hj)
        simpa [List.getD_eq_getElem?_getD, List.getElem?_eq_getElem hj] using this
    | succ i =>
      simp only [List.getD_cons_succ] at hproto hlast ⊢
      have hi' : i < t.length := by simpa using hi
      rw [ih (n + 1) _ i hi' hproto]
      · rw [show n + 1 + i = n + (i + 1) by omega]
      · intro j hij hj
        have := hlast (j + 1) (by omega) (by simpa using hj)
        simpa using this

theorem keys_assignField (obj : Record) (header value k : String)
    (h : k ∈ JSObj.keys (assignField obj header value)) : k = header ∨ k ∈ JSObj.keys obj := by
  unfold assignField at h
  split at h
  · exact Or.inr h
  · exact (JSObj.mem_keys_set _ _ _ _).1 h

theorem keys_buildFrom (values : List String) (hs : List String) (n : Nat) (obj : Record)
    (k : String)
    (h : k ∈ JSObj.keys ((hs.enumFrom n).foldl
      (fun obj ih => assignField obj ih.2 (values.getD ih.1 "")) obj)) :
    k ∈ hs ∨ k ∈ JSObj.keys obj := by
  induction hs generalizing n obj with
  | nil => exact Or.inr h
  | cons a t ih =>
    rw [List.enumFrom_cons, List.foldl_cons] at h
    rcases ih _ _ h with h1 | h1
    · exact Or.inl (List.mem_cons_of_mem _ h1)
    · rcases keys_assignField _ _ _ _ h1 with h2 | h2
      · exact Or.inl (by simp [h2])
      · exact Or.inr h2

/-- C10, as amended: the record built for a line maps the header at position
`i` to the value at position `i` (the empty string when the line has no such
value) whenever that header name is not `__proto__` and does not occur again
at a later position; and every key of the record is a header name. -/
theorem C10_buildRecord_positions (headers values : List String) (i : Nat)
    (hi : i < headers.length) (hproto : headers.getD i "" ≠ "__proto__")
    (hlast : ∀ j, i < j → j < headers.length → headers.getD j "" ≠ headers.getD i "") :
    JSObj.get? (buildRecord headers values) (headers.getD i "") = some (values.getD i "") ∧
      (values.length ≤ i → values.getD i "" = "") ∧
      ∀ k, k ∈ JSObj.keys (buildRecord headers values) → k ∈ headers := by
  refine ⟨?_, ?_, ?_⟩
  · have := get?_buildFrom values headers 0 [] i hi hproto hlast
    simpa [buildRecord, List.enum] using this
  · intro h
    simp [List.getD_eq_getElem?_getD, List.getElem?_eq_none h]
  · intro k hk
    rcases keys_buildFrom values headers 0 [] k (by simpa [buildRecord, List.enum] using hk) with h | h
    · exact h
    · simp [JSObj.keys] at h

theorem C10_buildRecord_positions_witness :
    JSObj.get? (buildRecord ["x", "y", "z"] ["a", "b"]) "z" = some "" ∧
      JSObj.get? (buildRecord ["x", "y", "x"] ["a", "b", "c", "d"]) "x" = some "c" :=
  ⟨(C10_buildRecord_positions ["x", "y", "z"] ["a", "b"] 2 (by decide) (by decide)
      (by intro j h1 h2; simp at h2; omega)).1,
    (C10_buildRecord_positions ["x", "y", "x"] ["a", "b", "c", "d"] 2 (by decide) (by decide)
      (by intro j h1 h2; simp at h2; omega)).1⟩

/-- C10 as stated fails: with the header `a,a` and the values `1,2` the record
maps `a`, the header at position 0, to `2`, not to the value at position 0. -/
theorem C10_counterexample :
    ¬ (∀ (headers values : List String) (i : Nat), i < headers.length → i < values.length →
        JSObj.get? (buildRecord headers values) (headers.getD i "") = some (values.getD i "")) := by
  intro H
  have h := H ["a", "a"] ["1", "2"] 0 (by decide) (by decide)
  revert h
  decide

/-! ## The person list -/

theorem setElements_invariant {α : Type} [DecidableEq α] (xs : List α) :
    ∀ (seen pre : List α), (∀ x, x ∈ seen ↔ x ∈ pre) →
      List.Pairwise (· < ·) (seen.map (fun x => firstIndex x pre)) →
      (∀ x, x ∈ xs.foldl (fun seen x => if x ∈ seen then seen else seen ++ [x]) seen ↔
          x ∈ pre ++ xs) ∧
        List.Pairwise (· < ·)
          ((xs.foldl (fun seen x => if x ∈ seen then seen else seen ++ [x]) seen).map
            (fun x => firstIndex x (pre ++ xs))) := by
  induction xs with
  | nil => intro seen pre h1 h2; simpa using ⟨h1, h2⟩
  | cons a xs ih =>
    intro seen pre h1 h2
    rw [List.foldl_cons]
    have key : ∀ s : List α, (∀ x ∈ s, x ∈ pre) →
        s.map (fun x => firstIndex x (pre ++ [a])) = s.map (fun x => firstIndex x pre) := by
      intro s hs
      apply List.map_congr_left
      intro x hx
      exact List.indexOf_append_of_mem (hs x hx)
    have hres := ih (if a ∈ seen then seen else seen ++ [a]) (pre ++ [a]) ?_ ?_
    · simpa using hres
    · intro x
      by_cases ha : a ∈ seen
      · rw [if_pos ha, h1, List.mem_append, List.mem_singleton]
        constructor
        · exact Or.inl
        · rintro (h | h)
          · exact h
          · rw [h]; exact (h1 a).1 ha
      · rw [if_neg ha, List.mem_append, List.mem_append, h1]
    · by_cases ha : a ∈ seen
      · rw [if_pos ha, key seen (fun x hx => (h1 x).1 hx)]
        exact h2
      · rw [if_neg ha, List.map_append, List.pairwise_append]
        refine ⟨?_, by simp, ?_⟩
        · rw [key seen (fun x hx => (h1 x).1 hx)]
          exact h2
        · intro m hm n hn
          simp only [List.map_cons, List.map_nil, List.mem_singleton] at hn
          obtain ⟨x, hx, rfl⟩ := List.mem_map.1 hm
          have hxp : x ∈ pre := (h1 x).1 hx
          have hap : a ∉ pre := fun h => ha ((h1 a).2 h)
          rw [hn]
          unfold firstIndex
          rw [List.indexOf_append_of_mem hxp, List.indexOf_append_of_not_mem hap]
          have := List.indexOf_lt_length.2 hxp
          omega

/-- C4: the person list holds exactly the `name` values of the filtered
records, each once, ordered by the position of its first occurrence among the
filtered records. -/
theorem C4_users_first_occurrence (data : List Record) :
    (∀ x, x ∈ users data ↔ x ∈ (validCalls data).map (fun call => JSObj.get? call "name")) ∧
      (users data).Nodup ∧
      List.Pairwise (· < ·) ((users data).map
        (fun x => firstIndex x ((validCalls data).map (fun call => JSObj.get? call "name")))) := by
  have h := setElements_invariant ((validCalls data).map (fun call => JSObj.get? call "name"))
    [] [] (by simp) (by simp)
  simp only [List.nil_append] at h
  refine ⟨h.1, ?_, h.2⟩
  have h2 := List.pairwise_map.1 h.2
  exact h2.imp (fun hlt heq => by rw [heq] at hlt; exact Nat.lt_irrefl _ hlt)

/-! ## The filter -/

theorem validCalls_idem (data : List Record) : validCalls (validCalls data) = validCalls data := by
  simp [validCalls, List.filter_filter]

/-- C2: the aggregation of a record list is the aggregation of its filtered
sub-list, outcome included; so a record that does not match the filter,
wherever it stands, changes nothing. -/
theorem C2_aggregate_filter (host : Host) (data : List Record) :
    aggregate host data = aggregate host (validCalls data) ∧
      ∀ (before after : List Record) (call : Record),
        (JSObj.get? call "direction" ≠ some "outbound" ∨
          JSObj.get? call "category" ≠ some "outgoing") →
        aggregate host (before ++ call :: after) = aggregate host (before ++ after) := by
  have key : ∀ d₁ d₂ : List Record, validCalls d₁ = validCalls d₂ →
      aggregate host d₁ = aggregate host d₂ := by
    intro d₁ d₂ h
    simp only [aggregate, statistics, users, h]
  refine ⟨key _ _ (validCalls_idem data).symm, ?_⟩
  intro before after call hc
  apply key
  have : isValidCall call = false := by
    unfold isValidCall
    rcases hc with h | h
    · simp [h]
    · simp [h]
  simp [validCalls, List.filter_append, List.filter_cons, this]

end CallAnalytics

namespace CallAnalytics

/-! ## Outcomes and folds -/

theorem Outcome.bind_eq_ok {α β : Type} {x : Outcome α} {f : α → Outcome β} {b : β}
    (h : x.bind f = .ok b) : ∃ a, x = .ok a ∧ f a = .ok b := by
  cases x with
  | ok a => exact ⟨a, rfl, h⟩
  | typeError => simp [Outcome.bind] at h
  | unmodelled => simp [Outcome.bind] at h

theorem foldlO_append {α β : Type} (f : β → α → Outcome β) (b : β) (l₁ l₂ : List α) :
    foldlO f b (l₁ ++ l₂) = (foldlO f b l₁).bind (fun b1 => foldlO f b1 l₂) := by
  induction l₁ generalizing b with
  | nil => rfl
  | cons a l ih =>
    simp only [List.cons_append, foldlO]
    cases f b a with
    | ok v => simpa [Outcome.bind] using ih v
    | typeError => rfl
    | unmodelled => rfl

/-- An invariant of a fold that can end the run: it holds of the result when
it holds at the start and every successful step keeps it. -/
theorem foldlO_invariant {α β : Type} (f : β → α → Outcome β) (I : List α → β → Prop)
    (hstep : ∀ pre b a b1, I pre b → f b a = .ok b1 → I (pre ++ [a]) b1) :
    ∀ (l pre : List α) (b b1 : β), I pre b → foldlO f b l = .ok b1 → I (pre ++ l) b1 := by
  intro l
  induction l with
  | nil =>
    intro pre b b1 hI h
    simp only [foldlO, Outcome.ok.injEq] at h
    subst h
    simpa using hI
  | cons a l ih =>
    intro pre b b1 hI h
    simp only [foldlO] at h
    obtain ⟨b2, h1, h2⟩ := Outcome.bind_eq_ok h
    have := ih (pre ++ [a]) b2 b1 (hstep pre b a b2 hI h1) h2
    simpa using this

theorem mapO_eq_ok {α β : Type} (f : α → Outcome β) :
    ∀ (l : List α) (bs : List β), mapO f l = .ok bs → List.Forall₂ (fun a b => f a = .ok b) l bs := by
  intro l
  induction l with
  | nil =>
    intro bs h
    simp only [mapO, Outcome.ok.injEq] at h
    subst h
    exact List.Forall₂.nil
  | cons a l ih =>
    intro bs h
    simp only [mapO] at h
    obtain ⟨b, h1, h2⟩ := Outcome.bind_eq_ok h
    obtain ⟨bs', h3, h4⟩ := Outcome.bind_eq_ok h2
    simp only [Outcome.ok.injEq] at h4
    subst h4
    exact List.Forall₂.cons h1 (ih bs' h3)

/-! ## Nested buckets -/

theorem get?_ensure {α : Type} (acc : JSObj α) (k : String) (v : α) (k' : String) :
    JSObj.get? (if JSObj.has acc k then acc else JSObj.set acc k v) k' =
      if k' = k then some ((JSObj.get? acc k).getD v) else JSObj.get? acc k' := by
  by_cases hh : JSObj.has acc k = true
  · rw [if_pos hh]
    by_cases h : k' = k
    · subst h
      obtain ⟨w, hw⟩ := Option.isSome_iff_exists.1 hh
      simp [hw]
    · simp [h]
  · rw [if_neg hh, JSObj.get?_set]
    by_cases h : k' = k
    · subst h
      have : JSObj.get? acc k' = none := by
        unfold JSObj.has at hh
        simpa using hh
      simp [this]
    · simp [h]

theorem keys_ensure_nodup {α : Type} {acc : JSObj α} (h : (JSObj.keys acc).Nodup)
    (k : String) (v : α) :
    (JSObj.keys (if JSObj.has acc k then acc else JSObj.set acc k v)).Nodup := by
  split
  · exact h
  · exact JSObj.nodup_keys_set h _ _

theorem mem_keys_ensure {α : Type} (acc : JSObj α) (k : String) (v : α) (k' : String) :
    k' ∈ JSObj.keys (if JSObj.has acc k then acc else JSObj.set acc k v) ↔
      k' = k ∨ k' ∈ JSObj.keys acc := by
  by_cases hh : JSObj.has acc k = true
  · rw [if_pos hh]
    constructor
    · exact Or.inr
    · rintro (h | h)
      · rw [h]; exact (JSObj.has_iff _ _).1 hh
      · exact h
  · rw [if_neg hh, JSObj.mem_keys_set]

theorem lookup2_ensure {α : Type} (acc : JSObj (JSObj α)) (k d p : String) :
    lookup2 (if JSObj.has acc k then acc else JSObj.set acc k []) d p = lookup2 acc d p := by
  unfold lookup2
  rw [get?_ensure]
  by_cases h : d = k
  · subst h
    cases hg : JSObj.get? acc d with
    | none => simp [JSObj.get?_nil]
    | some b => simp
  · simp [h]

theorem get?_getD_nil {α : Type} (acc : JSObj (JSObj α)) (d p : String) :
    JSObj.get? ((JSObj.get? acc d).getD []) p = lookup2 acc d p := by
  unfold lookup2
  cases JSObj.get? acc d with
  | none => simp [JSObj.get?_nil]
  | some b => simp

theorem nodup_getD_nil {α : Type} (acc : JSObj (JSObj α)) (d : String)
    (h : ∀ b, JSObj.get? acc d = some b → (JSObj.keys b).Nodup) :
    (JSObj.keys ((JSObj.get? acc d).getD [])).Nodup := by
  cases hg : JSObj.get? acc d with
  | none => simp [JSObj.keys]
  | some b => simpa using h b hg

/-! ## The reducer of `callsByDay` -/

theorem addDuration_eq (m : JSNum) (call : Record) :
    addDuration m call = (match duration? call with
      | some x => m.add x
      | none => m) := by
  unfold addDuration duration?
  cases JSObj.get? call "talk_duration" with
  | none => rfl
  | some text =>
    simp only
    by_cases he : text = ""
    · simp [he]
    · by_cases hn : (parseFloat text).isNaN = true
      · simp [he, hn]
      · simp [he, hn]

theorem minutesOf_append_singleton (l : List Record) (c : Record) :
    minutesOf (l ++ [c]) = (match duration? c with
      | some x => (minutesOf l).add x
      | none => minutesOf l) := by
  unfold minutesOf
  rw [List.foldl_append]
  rfl

theorem expectedDay_getD (calls : List Record) (d p : String) (hp : p ∉ objectPrototypeKeys) :
    (expectedDay calls d p).getD ⟨0, JSNum.ofNat 0⟩ =
      ⟨calls.countP (sameDayPerson d p), minutesOf (calls.filter (sameDayPerson d p))⟩ := by
  unfold expectedDay
  by_cases h0 : calls.countP (sameDayPerson d p) = 0
  · have hf : calls.filter (sameDayPerson d p) = [] := by
      rw [List.countP_eq_length_filter, List.length_eq_zero] at h0
      exact h0
    simp [h0, hf, minutesOf]
  · simp [hp, h0]

theorem expectedDay_append (pre : List Record) (c : Record) (d p : String) :
    expectedDay (pre ++ [c]) d p =
      if sameDayPerson d p c = true then
        (if p ∈ objectPrototypeKeys then none
          else some ⟨pre.countP (sameDayPerson d p) + 1,
            (match duration? c with
              | some x => (minutesOf (pre.filter (sameDayPerson d p))).add x
              | none => minutesOf (pre.filter (sameDayPerson d p)))⟩)
      else expectedDay pre d p := by
  unfold expectedDay
  by_cases hs : sameDayPerson d p c = true
  · simp only [hs, if_true, List.countP_append, List.filter_append]
    by_cases hp : p ∈ objectPrototypeKeys
    · simp [hp]
    · simp [hp, hs, List.countP_cons, List.filter_cons, minutesOf_append_singleton]
  · simp [hs, List.countP_append, List.filter_append, List.countP_cons, List.filter_cons]

end CallAnalytics

namespace CallAnalytics

theorem sameDayPerson_iff (d p : String) (c : Record) :
    sameDayPerson d p c = true ↔ dateKey c = some d ∧ personKey c = p := by
  simp [sameDayPerson]

theorem dayStep_inv (pre : List Record) (acc : JSObj (JSObj DayStat)) (c : Record)
    (acc' : JSObj (JSObj DayStat)) (hI : DayInv pre acc) (hown : OwnDateKey c)
    (h : dayStep acc c = .ok acc') : DayInv (pre ++ [c]) acc' := by
  unfold dayStep at h
  cases hds : JSObj.get? c "date_started" with
  | none => simp [hds] at h
  | some started =>
    simp only [hds] at h
    have hdk : dateKey c = some (firstPiece ' ' started) := by simp [dateKey, hds]
    generalize firstPiece ' ' started = d0 at h hdk
    by_cases hd0 : d0 ∈ objectPrototypeKeys
    · exact absurd hd0 (hown d0 hdk)
    · rw [if_neg hd0] at h
      have hkeys : ∀ d, (d = d0 ∨ d ∈ JSObj.keys acc) ↔ ∃ c' ∈ pre ++ [c], dateKey c' = some d := by
        intro d
        rw [hI.keys]
        constructor
        · rintro (h1 | ⟨c', hc', h1⟩)
          · exact ⟨c, by simp, by rw [h1]; exact hdk⟩
          · exact ⟨c', by simp [hc'], h1⟩
        · rintro ⟨c', hc', h1⟩
          rcases List.mem_append.1 hc' with h2 | h2
          · exact Or.inr ⟨c', h2, h1⟩
          · simp only [List.mem_singleton] at h2
            subst h2
            rw [hdk] at h1
            exact Or.inl (Option.some.inj h1).symm
      by_cases hp : personKey c ∈ objectPrototypeKeys
      · simp only [hp, if_true, Outcome.ok.injEq] at h
        subst h
        refine ⟨keys_ensure_nodup hI.nodup _ _, ?_, ?_, ?_⟩
        · intro d
          rw [mem_keys_ensure]
          exact hkeys d
        · intro d b hb
          rw [get?_ensure] at hb
          by_cases hd : d = d0
          · simp only [hd, if_true, Option.some.injEq] at hb
            rw [← hb]
            exact nodup_getD_nil acc d0 (hI.buckets d0)
          · simp only [hd, if_false] at hb
            exact hI.buckets d b hb
        · intro d p
          rw [lookup2_ensure, hI.stats, expectedDay_append]
          by_cases hs : sameDayPerson d p c = true
          · have := (sameDayPerson_iff d p c).1 hs
            have hpp : p ∈ objectPrototypeKeys := this.2 ▸ hp
            simp [hs, hpp, expectedDay]
          · simp [hs]
      · rw [if_neg hp] at h
        simp only [Outcome.ok.injEq] at h
        subst h
        have hbucket : (JSObj.get? (if JSObj.has acc d0 then acc else JSObj.set acc d0 []) d0).getD []
            = (JSObj.get? acc d0).getD [] := by
          rw [get?_ensure]; simp
        rw [hbucket]
        have hstat : (JSObj.get? (if JSObj.has ((JSObj.get? acc d0).getD []) (personKey c)
              then (JSObj.get? acc d0).getD []
              else JSObj.set ((JSObj.get? acc d0).getD []) (personKey c) ⟨0, JSNum.ofNat 0⟩)
              (personKey c)).getD ⟨0, JSNum.ofNat 0⟩ =
            ⟨pre.countP (sameDayPerson d0 (personKey c)),
              minutesOf (pre.filter (sameDayPerson d0 (personKey c)))⟩ := by
          rw [get?_ensure]
          simp only [if_true, Option.getD_some]
          rw [get?_getD_nil, hI.stats, expectedDay_getD _ _ _ hp]
        rw [hstat, addDuration_eq]
        simp only
        refine ⟨JSObj.nodup_keys_set (keys_ensure_nodup hI.nodup _ _) _ _, ?_, ?_, ?_⟩
        · intro d
          rw [JSObj.mem_keys_set, mem_keys_ensure, ← hkeys d]
          tauto
        · intro d b hb
          rw [JSObj.get?_set] at hb
          by_cases hd : d = d0
          · simp only [hd, if_true, Option.some.injEq] at hb
            rw [← hb]
            exact JSObj.nodup_keys_set
              (keys_ensure_nodup (nodup_getD_nil acc d0 (hI.buckets d0)) _ _) _ _
          · simp only [hd, if_false] at hb
            rw [get?_ensure] at hb
            simp only [hd, if_false] at hb
            exact hI.buckets d b hb
        · intro d p
          rw [expectedDay_append]
          unfold lookup2
          rw [JSObj.get?_set]
          by_cases hd : d = d0
          · subst hd
            simp only [↓reduceIte, Option.some_bind, JSObj.get?_set]
            by_cases hpp : p = personKey c
            · subst hpp
              have hs : sameDayPerson d (personKey c) c = true :=
                (sameDayPerson_iff _ _ _).2 ⟨hdk, rfl⟩
              simp only [hs, ↓reduceIte, hp]
            · have hs : ¬ sameDayPerson d p c = true := by
                rw [sameDayPerson_iff]
                exact fun h => hpp h.2.symm
              simp only [hpp, ↓reduceIte, hs]
              rw [get?_ensure]
              simp only [hpp, ↓reduceIte]
              rw [get?_getD_nil, hI.stats]
              simp
          · have hs : ¬ sameDayPerson d p c = true := by
              rw [sameDayPerson_iff, hdk]
              exact fun h => hd (Option.some.inj h.1).symm
            simp only [hd, ↓reduceIte, hs]
            rw [get?_ensure]
            simp only [hd, ↓reduceIte]
            have := hI.stats d p
            unfold lookup2 at this
            rw [this]
            simp

theorem dayInv_nil : DayInv [] [] := by
  refine ⟨by simp [JSObj.keys], by simp [JSObj.keys], ?_, ?_⟩
  · intro d b h
    simp [JSObj.get?_nil] at h
  · intro d p
    simp [lookup2, JSObj.get?_nil, expectedDay]

theorem callsByDay_inv (calls : List Record) (acc : JSObj (JSObj DayStat))
    (hown : ∀ c ∈ calls, OwnDateKey c) (h : callsByDay calls = .ok acc) : DayInv calls acc := by
  have := foldlO_invariant dayStep (fun pre acc => (∀ c ∈ pre, OwnDateKey c) → DayInv pre acc)
    (fun pre b a b1 hI hstep hall => dayStep_inv pre b a b1
      (hI (fun c hc => hall c (List.mem_append_left _ hc)))
      (hall a (List.mem_append_right _ (List.mem_singleton_self a))) hstep)
    calls [] [] acc (fun _ => dayInv_nil) h
  exact this (by simpa using hown)

end CallAnalytics

namespace CallAnalytics

/-! ## Rows of the daily tables -/

theorem get?_foldl_set {α β : Type} (g : String × α → β) (l : JSObj α)
    (hnd : (JSObj.keys l).Nodup) (init : JSObj β) (k : String) :
    JSObj.get? (l.foldl (fun acc e => JSObj.set acc e.1 (g e)) init) k =
      ((JSObj.get? l k).map (fun v => g (k, v))).or (JSObj.get? init k) := by
  induction l generalizing init with
  | nil => simp [JSObj.get?_nil]
  | cons e t ih =>
    simp only [JSObj.keys, List.map_cons, List.nodup_cons] at hnd
    rw [List.foldl_cons, ih hnd.2, JSObj.get?_cons, JSObj.get?_set]
    by_cases h : e.1 = k
    · have hk : JSObj.get? t k = none := by
        rw [JSObj.get?_eq_none_iff]
        rw [← h]
        exact hnd.1
      subst h
      simp [hk]
    · simp [h, Ne.symm h]

theorem nodup_keys_foldl_set {α β : Type} (g : String × α → β) (l : JSObj α) (init : JSObj β)
    (h : (JSObj.keys init).Nodup) :
    (JSObj.keys (l.foldl (fun acc e => JSObj.set acc e.1 (g e)) init)).Nodup := by
  induction l generalizing init with
  | nil => exact h
  | cons e t ih =>
    rw [List.foldl_cons]
    exact ih _ (JSObj.nodup_keys_set h _ _)

theorem get?_spreadInto (first : Row) (rest : JSObj JSVal) (hnd : (JSObj.keys rest).Nodup)
    (k : String) :
    JSObj.get? (spreadInto first rest) k = (JSObj.get? rest k).or (JSObj.get? first k) := by
  have := get?_foldl_set (fun e : String × JSVal => e.2) rest hnd first k
  simpa [spreadInto] using this

theorem get?_dateCell (d k : String) :
    JSObj.get? ([("date", JSVal.str d)] : Row) k = if k = "date" then some (.str d) else none := by
  rw [JSObj.get?_cons, JSObj.get?_nil]
  by_cases h : k = "date"
  · simp [h]
  · simp [h, Ne.symm h]

theorem get?_dailyCallsRow (d : String) (b : JSObj DayStat) (hnd : (JSObj.keys b).Nodup)
    (k : String) :
    JSObj.get? (dailyCallsRow (d, b)) k =
      ((JSObj.get? b k).map (fun v => JSVal.num (JSNum.ofNat v.calls))).or
        (if k = "date" then some (.str d) else none) := by
  unfold dailyCallsRow
  rw [get?_spreadInto _ _ (nodup_keys_foldl_set _ _ _ (by simp [JSObj.keys])), get?_dateCell]
  have := get?_foldl_set (fun e : String × DayStat => JSVal.num (JSNum.ofNat e.2.calls)) b hnd [] k
  rw [this]
  simp [JSObj.get?_nil]

theorem dateOf_dailyCallsRow (d : String) (b : JSObj DayStat) (hnd : (JSObj.keys b).Nodup) :
    dateOf (dailyCallsRow (d, b)) = if JSObj.get? b "date" = none then some d else none := by
  unfold dateOf
  rw [get?_dailyCallsRow d b hnd]
  cases JSObj.get? b "date" with
  | none => simp
  | some v => simp

theorem sortByDate_perm (host : Host) (hhost : host.Lawful) (rows rows' : List Row)
    (h : sortByDate host rows = .ok rows') : rows'.Perm rows := by
  unfold sortByDate at h
  split at h
  · simp only [Outcome.ok.injEq] at h
    rw [h]
  · split at h
    · simp only [Outcome.ok.injEq] at h
      rw [← h]
      exact hhost.perm _ _
    · split at h <;> simp at h

theorem JSNum.ofNat_injective {m n : Nat} (h : JSNum.ofNat m = JSNum.ofNat n) : m = n := by
  unfold JSNum.ofNat at h
  simp only [JSNum.fin.injEq, true_and] at h
  exact Nat.eq_of_mul_eq_mul_right (by unfold JSNum.one; positivity) h

theorem aggregate_ok {host : Host} {data : List Record}
    {res : AggregationResult} (h : aggregate host data = .ok res) :
    ∃ byDay byHour hourRows,
      callsByDay (validCalls data) = .ok byDay ∧
      callsByHour (validCalls data) = .ok byHour ∧
      sortByDate host (byDay.map dailyCallsRow) = .ok res.dailyCalls ∧
      sortByDate host (byDay.map dailyMinutesRow) = .ok res.dailyMinutes ∧
      mapO hourlyRow byHour = .ok hourRows ∧
      res.hourlyCalls = sortByHour24 host hourRows ∧
      res.persons = users data := by
  unfold aggregate at h
  obtain ⟨s, hs, h1⟩ := Outcome.bind_eq_ok h
  simp only [Outcome.ok.injEq] at h1
  subst h1
  unfold statistics at hs
  obtain ⟨byDay, h2, hs⟩ := Outcome.bind_eq_ok hs
  obtain ⟨byHour, h3, hs⟩ := Outcome.bind_eq_ok hs
  obtain ⟨dc, h4, hs⟩ := Outcome.bind_eq_ok hs
  obtain ⟨dm, h5, hs⟩ := Outcome.bind_eq_ok hs
  obtain ⟨hr, h6, hs⟩ := Outcome.bind_eq_ok hs
  simp only [Outcome.ok.injEq] at hs
  subst hs
  exact ⟨byDay, byHour, hr, h2, h3, h4, h5, h6, rfl, rfl⟩

theorem expectedDay_date_of_no_person (calls : List Record) (d : String)
    (hdate : ∀ c ∈ calls, personKey c ≠ "date") : expectedDay calls d "date" = none := by
  unfold expectedDay
  have : calls.countP (sameDayPerson d "date") = 0 := by
    rw [List.countP_eq_zero]
    intro c hc hs
    exact hdate c hc ((sameDayPerson_iff _ _ _).1 hs).2
  simp [this]

end CallAnalytics

namespace CallAnalytics

/-! ## The minutes table -/

theorem get?_dailyMinutesRow (d : String) (b : JSObj DayStat) (hnd : (JSObj.keys b).Nodup)
    (k : String) :
    JSObj.get? (dailyMinutesRow (d, b)) k =
      ((JSObj.get? b k).map (fun v => JSVal.num (toFixed2Parsed v.minutes))).or
        (if k = "date" then some (.str d) else none) := by
  unfold dailyMinutesRow
  rw [get?_spreadInto _ _ (nodup_keys_foldl_set _ _ _ (by simp [JSObj.keys])), get?_dateCell]
  have := get?_foldl_set (fun e : String × DayStat => JSVal.num (toFixed2Parsed e.2.minutes))
    b hnd [] k
  rw [this]
  simp [JSObj.get?_nil]

theorem dateOf_dailyMinutesRow (d : String) (b : JSObj DayStat) (hnd : (JSObj.keys b).Nodup) :
    dateOf (dailyMinutesRow (d, b)) = if JSObj.get? b "date" = none then some d else none := by
  unfold dateOf
  rw [get?_dailyMinutesRow d b hnd]
  cases JSObj.get? b "date" with
  | none => simp
  | some v => simp

theorem mem_of_forall₂ {α β : Type} {R : α → β → Prop} {l : List α} {bs : List β}
    (h : List.Forall₂ R l bs) {b : β} (hb : b ∈ bs) : ∃ a ∈ l, R a b := by
  induction h with
  | nil => simp at hb
  | cons hab _ ih =>
    rcases List.mem_cons.1 hb with h1 | h1
    · subst h1
      exact ⟨_, by simp, hab⟩
    · obtain ⟨a, ha, hr⟩ := ih h1
      exact ⟨a, List.mem_cons_of_mem _ ha, hr⟩

end CallAnalytics

namespace CallAnalytics

/-! ## Number and order of the daily rows -/

theorem setElements_mem {α : Type} [DecidableEq α] (xs : List α) (x : α) :
    x ∈ setElements xs ↔ x ∈ xs := by
  have h := (setElements_invariant xs [] [] (by simp) (by simp)).1 x
  simpa [setElements] using h

theorem setElements_nodup {α : Type} [DecidableEq α] (xs : List α) : (setElements xs).Nodup := by
  have h := (setElements_invariant xs [] [] (by simp) (by simp)).2
  have h2 := List.pairwise_map.1 h
  exact h2.imp (fun hlt heq => by rw [heq] at hlt; exact Nat.lt_irrefl _ hlt)

theorem keys_perm_dateKeys (data : List Record) (byDay : JSObj (JSObj DayStat))
    (hI : DayInv (validCalls data) byDay) : (JSObj.keys byDay).Perm (dateKeys data) := by
  unfold dateKeys
  rw [List.perm_ext_iff_of_nodup hI.nodup (setElements_nodup _)]
  intro d
  rw [hI.keys, setElements_mem, List.mem_filterMap]

theorem dailyCallsRow_dates (calls : List Record) (byDay : JSObj (JSObj DayStat))
    (hI : DayInv calls byDay) (hdate : ∀ c ∈ calls, personKey c ≠ "date") :
    (byDay.map dailyCallsRow).map dateOf = (JSObj.keys byDay).map some := by
  simp only [JSObj.keys, List.map_map]
  apply List.map_congr_left
  intro e he
  obtain ⟨d, b⟩ := e
  have hb := JSObj.mem_get? hI.nodup he
  have hnd := hI.buckets d b hb
  have hst := hI.stats d "date"
  unfold lookup2 at hst
  rw [hb, Option.some_bind, expectedDay_date_of_no_person _ _ hdate] at hst
  simp [dateOf_dailyCallsRow d b hnd, hst]

theorem dailyMinutesRow_dates (calls : List Record) (byDay : JSObj (JSObj DayStat))
    (hI : DayInv calls byDay) (hdate : ∀ c ∈ calls, personKey c ≠ "date") :
    (byDay.map dailyMinutesRow).map dateOf = (JSObj.keys byDay).map some := by
  simp only [JSObj.keys, List.map_map]
  apply List.map_congr_left
  intro e he
  obtain ⟨d, b⟩ := e
  have hb := JSObj.mem_get? hI.nodup he
  have hnd := hI.buckets d b hb
  have hst := hI.stats d "date"
  unfold lookup2 at hst
  rw [hb, Option.some_bind, expectedDay_date_of_no_person _ _ hdate] at hst
  simp [dateOf_dailyMinutesRow d b hnd, hst]

theorem consistentOn_compareDate (host : Host)
    (hanti : ∀ a b, host.collate a b < 0 ↔ 0 < host.collate b a)
    (htrans : ∀ a b c, host.collate a b ≤ 0 → host.collate b c ≤ 0 → host.collate a c ≤ 0)
    (rows : List Row) : ConsistentOn (compareDate host) rows :=
  ⟨fun _ _ _ _ => hanti _ _, fun _ _ _ _ _ _ => htrans _ _ _⟩

theorem sortByDate_sorted (host : Host) (hhost : host.Lawful)
    (hanti : ∀ a b, host.collate a b < 0 ↔ 0 < host.collate b a)
    (htrans : ∀ a b c, host.collate a b ≤ 0 → host.collate b c ≤ 0 → host.collate a c ≤ 0)
    (rows rows' : List Row) (h : sortByDate host rows = .ok rows') :
    List.Pairwise (fun a b => host.collate a b ≤ 0) (rows'.filterMap dateOf) := by
  have htotal : ∀ a b, host.collate a b ≤ 0 ∨ host.collate b a ≤ 0 := by
    intro a b
    by_cases h1 : host.collate a b ≤ 0
    · exact Or.inl h1
    · right
      have h2 : 0 < host.collate a b := by omega
      have := (hanti b a).2 h2
      omega
  unfold sortByDate at h
  split at h
  · rename_i hlen
    simp only [Outcome.ok.injEq] at h
    subst h
    match rows, hlen with
    | [], _ => simp
    | [x], _ =>
      cases hx : dateOf x <;> simp [List.filterMap_cons, hx]
    | _ :: _ :: _, hl => simp at hl
  · split at h
    · simp only [Outcome.ok.injEq] at h
      subst h
      rw [hhost.stable _ _ (consistentOn_compareDate host hanti htrans rows)]
      haveI : IsTotal Row (fun a b => compareDate host a b ≤ 0) :=
        ⟨fun a b => htotal _ _⟩
      haveI : IsTrans Row (fun a b => compareDate host a b ≤ 0) :=
        ⟨fun a b c => htrans _ _ _⟩
      have hs := List.sorted_insertionSort (fun a b : Row => compareDate host a b ≤ 0) rows
      rw [List.pairwise_filterMap]
      refine List.Pairwise.imp ?_ hs
      intro a b hab x hx y hy
      simp only [Option.mem_def] at hx hy
      simpa [compareDate, hx, hy] using hab
    · split at h <;> simp at h

theorem sorted_distinct_of_perm (collate : String → String → Int) (rows : List Row)
    (keys : List String) (hperm : (rows.map dateOf).Perm (keys.map some)) (hnd : keys.Nodup)
    (hs : List.Pairwise (fun a b => collate a b ≤ 0) (rows.filterMap dateOf)) :
    List.Pairwise (fun a b => collate a b ≤ 0 ∧ a ≠ b) (rows.filterMap dateOf) := by
  have hp : (rows.filterMap dateOf).Perm keys := by
    have := hperm.filterMap id
    simpa [List.filterMap_map] using this
  exact List.Pairwise.and hs (hp.nodup_iff.2 hnd)

theorem ordinalCollation_le (a b : String) : ordinalCollation a b ≤ 0 ↔ a ≤ b := by
  unfold ordinalCollation
  have hlt : a.data < b.data ↔ a < b := String.lt_iff_toList_lt.symm
  simp only [hlt]
  by_cases h1 : a < b
  · simp [h1, le_of_lt h1]
  · by_cases h2 : a = b
    · simp [h2]
    · simp only [h1, h2, if_false]
      constructor
      · intro h; omega
      · intro h
        exact absurd (lt_of_le_of_ne h h2) h1

theorem ordinalCollation_anti (a b : String) :
    ordinalCollation a b < 0 ↔ 0 < ordinalCollation b a := by
  unfold ordinalCollation
  have hab : a.data < b.data ↔ a < b := String.lt_iff_toList_lt.symm
  have hba : b.data < a.data ↔ b < a := String.lt_iff_toList_lt.symm
  simp only [hab, hba]
  rcases lt_trichotomy a b with h | h | h
  · have h1 : ¬ b < a := not_lt_of_lt h
    have h2 : b ≠ a := (ne_of_lt h).symm
    simp [h, h1, h2]
  · subst h
    simp
  · have h1 : ¬ a < b := not_lt_of_lt h
    have h2 : a ≠ b := (ne_of_lt h).symm
    simp [h, h1, h2]

theorem insertionHost_lawful (collate : String → String → Int) :
    (insertionHost collate).Lawful :=
  ⟨fun _ _ => List.perm_insertionSort _ _, fun _ _ _ => rfl⟩

theorem ordinalCollation_total (a b : String) :
    ordinalCollation a b ≤ 0 ∨ ordinalCollation b a ≤ 0 := by
  rw [ordinalCollation_le, ordinalCollation_le]
  exact le_total a b

theorem ordinalCollation_trans (a b c : String) (h1 : ordinalCollation a b ≤ 0)
    (h2 : ordinalCollation b c ≤ 0) : ordinalCollation a c ≤ 0 := by
  rw [ordinalCollation_le] at *
  exact le_trans h1 h2

end CallAnalytics

namespace CallAnalytics

/-! ## The reducer of `callsByHour` -/

theorem sameKeyPerson_iff (k p : String) (c : Record) :
    sameKeyPerson k p c = true ↔ hourKey? c = some k ∧ personKey c = p := by
  simp [sameKeyPerson]

theorem get?_bumpHour (b : JSObj HourCell) (p p' : String) :
    JSObj.get? (bumpHour b p) p' =
      if p' = p then
        (match JSObj.get? b p with
          | some (.count n) => some (.count (n + 1))
          | some (.nativeText k) => some (.nativeText (k + 1))
          | none =>
            if p = "__proto__" then none
            else if p ∈ objectPrototypeKeys then some (.nativeText 1)
            else some (.count 1))
      else JSObj.get? b p' := by
  unfold bumpHour
  by_cases h : p' = p
  · subst h
    simp only [if_true]
    cases hg : JSObj.get? b p' with
    | none =>
      simp only
      by_cases h1 : p' = "__proto__"
      · simp [h1] at hg ⊢; exact hg
      · simp only [h1, if_false]
        by_cases h2 : p' ∈ objectPrototypeKeys
        · simp [h2, JSObj.get?_set_self]
        · simp [h2, JSObj.get?_set_self]
    | some cell =>
      cases cell <;> simp [JSObj.get?_set_self]
  · simp only [h, if_false]
    cases hg : JSObj.get? b p with
    | none =>
      simp only
      split
      · rfl
      · split <;> exact JSObj.get?_set_ne _ _ _ h
    | some cell =>
      cases cell <;> exact JSObj.get?_set_ne _ _ _ h

theorem nodup_keys_bumpHour (b : JSObj HourCell) (p : String) (h : (JSObj.keys b).Nodup) :
    (JSObj.keys (bumpHour b p)).Nodup := by
  unfold bumpHour
  cases JSObj.get? b p with
  | none =>
    simp only
    split
    · exact h
    · split <;> exact JSObj.nodup_keys_set h _ _
  | some cell =>
    cases cell <;> exact JSObj.nodup_keys_set h _ _

theorem expectedHour_append (pre : List Record) (c : Record) (k p : String) :
    expectedHour (pre ++ [c]) k p =
      if sameKeyPerson k p c = true then
        (if p = "__proto__" then none
          else if p ∈ objectPrototypeKeys then
            some (.nativeText (pre.countP (sameKeyPerson k p) + 1))
          else some (.count (pre.countP (sameKeyPerson k p) + 1)))
      else expectedHour pre k p := by
  unfold expectedHour
  by_cases hs : sameKeyPerson k p c = true
  · simp [hs, List.countP_append, List.countP_cons]
  · simp [hs, List.countP_append, List.countP_cons]

theorem bump_expectedHour (pre : List Record) (k p : String) :
    (match expectedHour pre k p with
      | some (.count n) => some (HourCell.count (n + 1))
      | some (.nativeText m) => some (HourCell.nativeText (m + 1))
      | none =>
        if p = "__proto__" then none
        else if p ∈ objectPrototypeKeys then some (.nativeText 1)
        else some (.count 1)) =
      (if p = "__proto__" then none
        else if p ∈ objectPrototypeKeys then
          some (.nativeText (pre.countP (sameKeyPerson k p) + 1))
        else some (.count (pre.countP (sameKeyPerson k p) + 1))) := by
  unfold expectedHour
  by_cases h1 : p = "__proto__"
  · simp [h1]
  · by_cases h0 : pre.countP (sameKeyPerson k p) = 0
    · simp [h0, h1]
    · by_cases h2 : p ∈ objectPrototypeKeys
      · simp [h0, h1, h2]
      · simp [h0, h1, h2]

theorem hourStep_inv (pre : List Record) (acc : JSObj (JSObj HourCell)) (c : Record)
    (acc' : JSObj (JSObj HourCell)) (hI : HourInv pre acc) (h : hourStep acc c = .ok acc') :
    HourInv (pre ++ [c]) acc' := by
  unfold hourStep at h
  obtain ⟨hour, hh, h2⟩ := Outcome.bind_eq_ok h
  cases hk : numberToString hour with
  | none => simp [hk] at h2
  | some key =>
    simp only [hk, Outcome.ok.injEq] at h2
    subst h2
    have hkey : hourKey? c = some key := by simp [hourKey?, hh, hk]
    have hbucket : (JSObj.get? (if JSObj.has acc key then acc else JSObj.set acc key []) key).getD []
        = (JSObj.get? acc key).getD [] := by
      rw [get?_ensure]; simp
    rw [hbucket]
    refine ⟨JSObj.nodup_keys_set (keys_ensure_nodup hI.nodup _ _) _ _, ?_, ?_, ?_, ?_⟩
    · intro k
      rw [JSObj.mem_keys_set, mem_keys_ensure, hI.keys]
      constructor
      · rintro (h1 | h1 | ⟨c', hc', h1⟩)
        · exact ⟨c, by simp, by rw [h1]; exact hkey⟩
        · exact ⟨c, by simp, by rw [h1]; exact hkey⟩
        · exact ⟨c', by simp [hc'], h1⟩
      · rintro ⟨c', hc', h1⟩
        rcases List.mem_append.1 hc' with h3 | h3
        · exact Or.inr (Or.inr ⟨c', h3, h1⟩)
        · simp only [List.mem_singleton] at h3
          subst h3
          rw [hkey] at h1
          exact Or.inl (Option.some.inj h1).symm
    · intro k b hb
      rw [JSObj.get?_set] at hb
      by_cases hd : k = key
      · simp only [hd, if_true, Option.some.injEq] at hb
        rw [← hb]
        exact nodup_keys_bumpHour _ _ (nodup_getD_nil acc key (hI.buckets key))
      · simp only [hd, if_false] at hb
        rw [get?_ensure] at hb
        simp only [hd, if_false] at hb
        exact hI.buckets k b hb
    · intro k p
      rw [expectedHour_append]
      unfold lookup2
      rw [JSObj.get?_set]
      by_cases hd : k = key
      · subst hd
        simp only [↓reduceIte, Option.some_bind]
        rw [get?_bumpHour]
        by_cases hpp : p = personKey c
        · subst hpp
          have hs : sameKeyPerson k (personKey c) c = true :=
            (sameKeyPerson_iff _ _ _).2 ⟨hkey, rfl⟩
          simp only [hs, ↓reduceIte]
          rw [get?_getD_nil, hI.cells]
          exact bump_expectedHour pre k (personKey c)
        · have hs : ¬ sameKeyPerson k p c = true := by
            rw [sameKeyPerson_iff]
            exact fun h => hpp h.2.symm
          simp only [hpp, ↓reduceIte, hs]
          rw [get?_getD_nil, hI.cells]
          simp
      · have hs : ¬ sameKeyPerson k p c = true := by
          rw [sameKeyPerson_iff, hkey]
          exact fun h => hd (Option.some.inj h.1).symm
        simp only [hd, ↓reduceIte, hs]
        rw [get?_ensure]
        simp only [hd, ↓reduceIte]
        have := hI.cells k p
        unfold lookup2 at this
        rw [this]
        simp
    · intro c' hc'
      rcases List.mem_append.1 hc' with h3 | h3
      · exact hI.keyed c' h3
      · simp only [List.mem_singleton] at h3
        subst h3
        exact ⟨key, hkey⟩

theorem hourInv_nil : HourInv [] [] := by
  refine ⟨by simp [JSObj.keys], by simp [JSObj.keys], ?_, ?_, by simp⟩
  · intro k b h
    simp [JSObj.get?_nil] at h
  · intro k p
    simp [lookup2, JSObj.get?_nil, expectedHour]

theorem callsByHour_inv (calls : List Record) (acc : JSObj (JSObj HourCell))
    (h : callsByHour calls = .ok acc) : HourInv calls acc := by
  have := foldlO_invariant hourStep HourInv hourStep_inv calls [] [] acc hourInv_nil h
  simpa using this

end CallAnalytics

namespace CallAnalytics

/-! ## Rounding to a double -/

theorem one_pos : 0 < JSNum.one := by
  unfold JSNum.one
  positivity

theorem size_half (n : Nat) (h : n ≠ 0) : (n / 2).size + 1 = n.size := by
  apply le_antisymm
  · rw [Nat.succ_le, Nat.lt_size]
    by_cases h2 : n / 2 = 0
    · rw [h2, Nat.size_zero]
      simp only [pow_zero]
      omega
    · have hs : 0 < (n / 2).size := Nat.size_pos.2 (Nat.pos_of_ne_zero h2)
      have h3 : 2 ^ ((n / 2).size - 1) ≤ n / 2 := Nat.lt_size.1 (by omega)
      have h4 : 2 ^ (n / 2).size = 2 * 2 ^ ((n / 2).size - 1) := by
        rw [← pow_succ']
        congr 1
        omega
      omega
  · rw [Nat.size_le, pow_succ]
    have := Nat.lt_size_self (n / 2)
    omega

theorem bitLengthAux_eq : ∀ (fuel n acc : Nat), n.size ≤ fuel →
    JSNum.bitLengthAux fuel n acc = acc + n.size := by
  intro fuel
  induction fuel with
  | zero =>
    intro n acc h
    have : n.size = 0 := by omega
    simp [JSNum.bitLengthAux, this]
  | succ fuel ih =>
    intro n acc h
    unfold JSNum.bitLengthAux
    by_cases h0 : n = 0
    · simp [h0, Nat.size_zero]
    · rw [if_neg h0]
      have hs := size_half n h0
      rw [ih (n / 2) (acc + 1) (by omega)]
      omega

theorem bitLength_eq_size (n : Nat) : JSNum.bitLength n = n.size := by
  unfold JSNum.bitLength
  rw [bitLengthAux_eq n n 0 (Nat.size_le.2 (Nat.lt_two_pow n))]
  simp

theorem roundUnits_eq (p : Nat) :
    JSNum.roundUnits p 1 =
      (if 2 ^ (p.size - 53) < 2 * (p % 2 ^ (p.size - 53)) ∨
          (2 * (p % 2 ^ (p.size - 53)) = 2 ^ (p.size - 53) ∧ p / 2 ^ (p.size - 53) % 2 = 1)
        then p / 2 ^ (p.size - 53) + 1 else p / 2 ^ (p.size - 53)) * 2 ^ (p.size - 53) := by
  simp only [JSNum.roundUnits, Nat.div_one, one_mul, bitLength_eq_size]

theorem roundUnits_of_dvd {p : Nat} (h : 2 ^ (p.size - 53) ∣ p) : JSNum.roundUnits p 1 = p := by
  rw [roundUnits_eq]
  have hr : p % 2 ^ (p.size - 53) = 0 := Nat.mod_eq_zero_of_dvd h
  have hd : 0 < 2 ^ (p.size - 53) := by positivity
  rw [hr]
  have hc : ¬ (2 ^ (p.size - 53) < 2 * 0 ∨
      (2 * 0 = 2 ^ (p.size - 53) ∧ p / 2 ^ (p.size - 53) % 2 = 1)) := by
    rintro (h1 | ⟨h1, _⟩) <;> omega
  rw [if_neg hc]
  exact Nat.div_mul_cancel h

theorem size_mul_one (n : Nat) (h : n ≠ 0) : (n * JSNum.one).size = n.size + 1074 := by
  unfold JSNum.one
  rw [← Nat.shiftLeft_eq]
  exact Nat.size_shiftLeft h 1074

set_option exponentiation.threshold 4000 in
theorem roundUnits_small (n : Nat) (hn : n < 2 ^ 53) :
    JSNum.roundUnits (n * JSNum.one) 1 = n * JSNum.one := by
  by_cases h0 : n = 0
  · subst h0
    apply roundUnits_of_dvd
    simp
  · apply roundUnits_of_dvd
    rw [size_mul_one n h0]
    have hs : n.size ≤ 53 := Nat.size_le.2 hn
    refine Dvd.dvd.mul_left ?_ n
    unfold JSNum.one
    exact Nat.pow_dvd_pow 2 (by omega)

set_option exponentiation.threshold 4000 in
theorem one_dvd_roundUnits {p : Nat} (h : JSNum.one ∣ p) : JSNum.one ∣ JSNum.roundUnits p 1 := by
  by_cases hs : p.size - 53 ≤ 1074
  · rw [roundUnits_of_dvd]
    · exact h
    · refine Dvd.dvd.trans ?_ h
      unfold JSNum.one
      exact Nat.pow_dvd_pow 2 hs
  · rw [roundUnits_eq]
    refine Dvd.dvd.mul_left ?_ _
    unfold JSNum.one
    exact Nat.pow_dvd_pow 2 (by omega)

theorem two_pow_shift_le {p : Nat} (h : p ≠ 0) : 2 ^ (p.size - 53) ≤ p := by
  have hs : 0 < p.size := Nat.size_pos.2 (Nat.pos_of_ne_zero h)
  have h1 : 2 ^ (p.size - 1) ≤ p := Nat.lt_size.1 (by omega)
  exact le_trans (Nat.pow_le_pow_right (by norm_num) (by omega)) h1

theorem roundUnits_eq_zero_iff (p : Nat) : JSNum.roundUnits p 1 = 0 ↔ p = 0 := by
  constructor
  · intro h
    by_contra h0
    rw [roundUnits_eq] at h
    have hd : 0 < 2 ^ (p.size - 53) := by positivity
    have hm : 0 < p / 2 ^ (p.size - 53) := Nat.div_pos (two_pow_shift_le h0) hd
    rcases Nat.mul_eq_zero.1 h with h1 | h1
    · split at h1 <;> omega
    · omega
  · intro h
    subst h
    exact roundUnits_of_dvd (by simp)

theorem quotient_lt (p : Nat) : p / 2 ^ (p.size - 53) < 2 ^ 53 := by
  rw [Nat.div_lt_iff_lt_mul (by positivity), ← pow_add]
  exact lt_of_lt_of_le (Nat.lt_size_self p) (Nat.pow_le_pow_right (by norm_num) (by omega))

theorem roundUnits_idem (p : Nat) :
    JSNum.roundUnits (JSNum.roundUnits p 1) 1 = JSNum.roundUnits p 1 := by
  apply roundUnits_of_dvd
  rw [roundUnits_eq]
  generalize hm1 : (if 2 ^ (p.size - 53) < 2 * (p % 2 ^ (p.size - 53)) ∨
          (2 * (p % 2 ^ (p.size - 53)) = 2 ^ (p.size - 53) ∧ p / 2 ^ (p.size - 53) % 2 = 1)
        then p / 2 ^ (p.size - 53) + 1 else p / 2 ^ (p.size - 53)) = m1
  have hle : m1 ≤ 2 ^ 53 := by
    have := quotient_lt p
    rw [← hm1]
    split <;> omega
  by_cases h0 : m1 = 0
  · simp [h0]
  · have hsz : (m1 * 2 ^ (p.size - 53)).size = m1.size + (p.size - 53) := by
      rw [← Nat.shiftLeft_eq]
      exact Nat.size_shiftLeft h0 _
    rw [hsz]
    rcases Nat.lt_or_eq_of_le hle with hlt | heq
    · have : m1.size ≤ 53 := Nat.size_le.2 hlt
      refine Dvd.dvd.mul_left ?_ m1
      exact Nat.pow_dvd_pow 2 (by omega)
    · rw [heq, Nat.size_pow, ← pow_add]
      exact Nat.pow_dvd_pow 2 (by omega)

end CallAnalytics

namespace CallAnalytics

theorem roundUnits_le (p : Nat) : JSNum.roundUnits p 1 ≤ 2 ^ 53 * 2 ^ (p.size - 53) := by
  rw [roundUnits_eq]
  apply Nat.mul_le_mul_right
  have := quotient_lt p
  split <;> omega

theorem quotient_mul_le (q : Nat) : q / 2 ^ (q.size - 53) * 2 ^ (q.size - 53) ≤ JSNum.roundUnits q 1 := by
  rw [roundUnits_eq]
  apply Nat.mul_le_mul_right
  split <;> omega

theorem roundUnits_mono {p q : Nat} (h : p ≤ q) : JSNum.roundUnits p 1 ≤ JSNum.roundUnits q 1 := by
  have hsz : p.size ≤ q.size := Nat.size_le_size h
  rcases Nat.lt_or_ge (p.size - 53) (q.size - 53) with hlt | hge
  · have hq0 : q ≠ 0 := by
      intro e
      rw [e, Nat.size_zero] at hlt
      omega
    have h1 : 2 ^ (q.size - 1) ≤ q :=
      Nat.lt_size.1 (by have := Nat.size_pos.2 (Nat.pos_of_ne_zero hq0); omega)
    have h2 : 2 ^ 52 ≤ q / 2 ^ (q.size - 53) := by
      rw [Nat.le_div_iff_mul_le (by positivity), ← pow_add]
      exact le_trans (Nat.pow_le_pow_right (by norm_num) (by omega)) h1
    calc JSNum.roundUnits p 1 ≤ 2 ^ 53 * 2 ^ (p.size - 53) := roundUnits_le p
      _ = 2 ^ (53 + (p.size - 53)) := by rw [pow_add]
      _ ≤ 2 ^ (52 + (q.size - 53)) := Nat.pow_le_pow_right (by norm_num) (by omega)
      _ = 2 ^ 52 * 2 ^ (q.size - 53) := by rw [pow_add]
      _ ≤ q / 2 ^ (q.size - 53) * 2 ^ (q.size - 53) := Nat.mul_le_mul_right _ h2
      _ ≤ JSNum.roundUnits q 1 := quotient_mul_le q
  · have hs : p.size - 53 = q.size - 53 := by omega
    rw [roundUnits_eq p, roundUnits_eq q, hs]
    apply Nat.mul_le_mul_right
    generalize q.size - 53 = s
    have hd : 0 < 2 ^ s := by positivity
    have hm : p / 2 ^ s ≤ q / 2 ^ s := Nat.div_le_div_right h
    have hp := Nat.div_add_mod p (2 ^ s)
    have hq := Nat.div_add_mod q (2 ^ s)
    rcases Nat.lt_or_eq_of_le hm with hml | hme
    · split <;> split <;> omega
    · have hr : p % 2 ^ s ≤ q % 2 ^ s := by
        rw [hme] at hp
        omega
      rw [hme]
      generalize 2 ^ s = d at *
      generalize p % d = rp at *
      generalize q % d = rq at *
      split <;> split <;> omega

theorem sign_round (neg : Bool) (p : Nat) :
    (JSNum.round neg p 1).sign = if p = 0 then 0 else if neg then -1 else 1 := by
  unfold JSNum.round
  have hz := roundUnits_eq_zero_iff p
  by_cases hov : 2 ^ 2098 ≤ JSNum.roundUnits p 1
  · rw [if_pos hov]
    have hp : p ≠ 0 := by
      intro e
      have := hz.2 e
      rw [this] at hov
      exact absurd hov (Nat.not_le.2 (by positivity))
    simp [JSNum.sign, hp]
  · rw [if_neg hov]
    by_cases hp : p = 0
    · subst hp
      simp [JSNum.sign, hz.2 rfl]
    · have : JSNum.roundUnits p 1 ≠ 0 := fun e => hp (hz.1 e)
      simp [JSNum.sign, this, hp]

theorem sign_sub_pos (x y : JSNum) : 0 < (x.sub y).sign ↔ y.lt x = true := by
  unfold JSNum.sub
  cases x with
  | nan => cases y <;> simp [JSNum.add, JSNum.negate, JSNum.sign, JSNum.lt]
  | inf a =>
    cases y with
    | nan => simp [JSNum.add, JSNum.negate, JSNum.sign, JSNum.lt]
    | inf b => cases a <;> cases b <;> simp [JSNum.add, JSNum.negate, JSNum.sign, JSNum.lt]
    | fin b v => cases a <;> simp [JSNum.add, JSNum.negate, JSNum.sign, JSNum.lt]
  | fin a u =>
    cases y with
    | nan => simp [JSNum.add, JSNum.negate, JSNum.sign, JSNum.lt]
    | inf b => cases b <;> simp [JSNum.add, JSNum.negate, JSNum.sign, JSNum.lt]
    | fin b v =>
      simp only [JSNum.negate, JSNum.add, JSNum.lt, decide_eq_true_eq]
      cases a <;> cases b <;> simp only [Bool.not_true, Bool.not_false, if_true, if_false,
        Bool.false_eq_true, reduceCtorEq]
      · by_cases h1 : u = v
        · simp [h1, JSNum.sign]
        · by_cases h2 : v < u
          · simp only [h1, h2, if_true, if_false, sign_round]
            have : u - v ≠ 0 := by omega
            simp [this]
            omega
          · simp only [h1, h2, if_false, sign_round]
            have : v - u ≠ 0 := by omega
            simp [this]
            omega
      · simp only [sign_round]
        by_cases h0 : u + v = 0
        · simp [h0]; omega
        · simp [h0]; omega
      · simp only [sign_round]
        by_cases h0 : u + v = 0
        · simp [h0]; omega
        · simp [h0]; omega
      · by_cases h1 : u = v
        · simp [h1, JSNum.sign]
        · by_cases h2 : v < u
          · simp only [h1, h2, if_true, if_false, sign_round]
            have : u - v ≠ 0 := by omega
            simp [this]
            omega
          · simp only [h1, h2, if_false, sign_round]
            have : v - u ≠ 0 := by omega
            simp [this]
            omega

theorem sign_sub_neg (x y : JSNum) : (x.sub y).sign < 0 ↔ x.lt y = true := by
  unfold JSNum.sub
  cases x with
  | nan => cases y <;> simp [JSNum.add, JSNum.negate, JSNum.sign, JSNum.lt]
  | inf a =>
    cases y with
    | nan => simp [JSNum.add, JSNum.negate, JSNum.sign, JSNum.lt]
    | inf b => cases a <;> cases b <;> simp [JSNum.add, JSNum.negate, JSNum.sign, JSNum.lt]
    | fin b v => cases a <;> simp [JSNum.add, JSNum.negate, JSNum.sign, JSNum.lt]
  | fin a u =>
    cases y with
    | nan => simp [JSNum.add, JSNum.negate, JSNum.sign, JSNum.lt]
    | inf b => cases b <;> simp [JSNum.add, JSNum.negate, JSNum.sign, JSNum.lt]
    | fin b v =>
      simp only [JSNum.negate, JSNum.add, JSNum.lt, decide_eq_true_eq]
      cases a <;> cases b <;> simp only [Bool.not_true, Bool.not_false, if_true, if_false,
        Bool.false_eq_true, reduceCtorEq]
      · by_cases h1 : u = v
        · simp [h1, JSNum.sign]
        · by_cases h2 : v < u
          · simp only [h1, h2, if_true, if_false, sign_round]
            have : u - v ≠ 0 := by omega
            simp [this]
            omega
          · simp only [h1, h2, if_false, sign_round]
            have : v - u ≠ 0 := by omega
            simp [this]
            omega
      · simp only [sign_round]
        by_cases h0 : u + v = 0
        · simp [h0]; omega
        · simp [h0]; omega
      · simp only [sign_round]
        by_cases h0 : u + v = 0
        · simp [h0]; omega
        · simp [h0]; omega
      · by_cases h1 : u = v
        · simp [h1, JSNum.sign]
        · by_cases h2 : v < u
          · simp only [h1, h2, if_true, if_false, sign_round]
            have : u - v ≠ 0 := by omega
            simp [this]
            omega
          · simp only [h1, h2, if_false, sign_round]
            have : v - u ≠ 0 := by omega
            simp [this]
            omega

theorem compareHour24_le (a b : Row) :
    compareHour24 a b ≤ 0 ↔ (hour24Of b).lt (hour24Of a) = false := by
  unfold compareHour24
  have := sign_sub_pos (hour24Of a) (hour24Of b)
  constructor
  · intro h
    cases hl : (hour24Of b).lt (hour24Of a) with
    | false => rfl
    | true => have := this.2 hl; omega
  · intro h
    by_contra hn
    have h1 := this.1 (by omega)
    rw [h] at h1
    exact absurd h1 (by decide)

theorem compareHour24_anti (a b : Row) : compareHour24 a b < 0 ↔ 0 < compareHour24 b a := by
  unfold compareHour24
  rw [sign_sub_neg, sign_sub_pos]

end CallAnalytics

namespace CallAnalytics

/-! ## Bucket keys read back as numbers -/

theorem digitChar_facts : ∀ d, d < 10 →
    isJSWhiteSpace (digitChar d) = false ∧ digitChar d ≠ '-' ∧ digitChar d ≠ '+' ∧
      digitOfChar (digitChar d) = some d := by
  decide

theorem decimalDigitsAux_spec : ∀ (fuel n : Nat) (acc : List Char), n < fuel →
    ∃ vs : List Nat, decimalDigitsAux fuel n acc = vs.map digitChar ++ acc ∧ vs ≠ [] ∧
      (∀ v ∈ vs, v < 10) ∧ radixValue 10 vs = n := by
  intro fuel
  induction fuel with
  | zero => intro n acc h; omega
  | succ fuel ih =>
    intro n acc h
    unfold decimalDigitsAux
    by_cases h10 : n < 10
    · rw [if_pos h10]
      exact ⟨[n], by simp, by simp, by simpa using h10, by simp [radixValue]⟩
    · rw [if_neg h10]
      obtain ⟨vs, h1, h2, h3, h4⟩ := ih (n / 10) (digitChar (n % 10) :: acc) (by omega)
      refine ⟨vs ++ [n % 10], ?_, by simp, ?_, ?_⟩
      · rw [h1]; simp
      · intro v hv
        rcases List.mem_append.1 hv with h5 | h5
        · exact h3 v h5
        · simp only [List.mem_singleton] at h5
          omega
      · unfold radixValue at h4 ⊢
        rw [List.foldl_append, h4]
        simp only [List.foldl_cons, List.foldl_nil]
        omega

theorem decimalDigits_spec (n : Nat) :
    ∃ vs : List Nat, decimalDigits n = vs.map digitChar ∧ vs ≠ [] ∧
      (∀ v ∈ vs, v < 10) ∧ radixValue 10 vs = n := by
  obtain ⟨vs, h1, h2, h3, h4⟩ := decimalDigitsAux_spec (n + 1) n [] (by omega)
  exact ⟨vs, by simpa [decimalDigits] using h1, h2, h3, h4⟩

theorem radixDigits_digitChars (vs : List Nat) (hlt : ∀ v ∈ vs, v < 10) :
    radixDigits 10 (vs.map digitChar) = vs := by
  induction vs with
  | nil => rfl
  | cons v t ih =>
    have hv := hlt v (by simp)
    simp only [List.map_cons, radixDigits, (digitChar_facts v hv).2.2.2, hv, if_true]
    rw [ih (fun x hx => hlt x (List.mem_cons_of_mem _ hx))]

theorem parseInt_digits (neg : Bool) (vs : List Nat) (hne : vs ≠ [])
    (hlt : ∀ v ∈ vs, v < 10) :
    parseInt ⟨(if neg = true then ['-'] else []) ++ vs.map digitChar⟩ 10 =
      JSNum.round neg (radixValue 10 vs * JSNum.one) 1 := by
  obtain ⟨v, t, rfl⟩ := List.exists_cons_of_ne_nil hne
  have hv := hlt v (by simp)
  have hf := digitChar_facts v hv
  have hrd := radixDigits_digitChars (v :: t) hlt
  simp only [List.map_cons] at hrd
  cases neg with
  | true =>
    have hcs : trimStartChars ('-' :: digitChar v :: t.map digitChar) =
        '-' :: digitChar v :: t.map digitChar := by
      unfold trimStartChars
      rw [List.dropWhile_cons_of_neg (by decide)]
    unfold parseInt
    simp only [if_true, List.map_cons, List.singleton_append, hcs]
    simp [hrd]
  | false =>
    have hcs : trimStartChars (digitChar v :: t.map digitChar) =
        digitChar v :: t.map digitChar := by
      unfold trimStartChars
      rw [List.dropWhile_cons_of_neg (by simp [hf.1])]
    unfold parseInt
    simp only [Bool.false_eq_true, if_false, List.map_cons, List.nil_append, hcs]
    simp [hrd, hf.2.1, hf.2.2.1]

theorem parseInt_cases (s : String) (r : Nat) :
    parseInt s r = .nan ∨ ∃ neg v, parseInt s r = JSNum.round neg (v * JSNum.one) 1 := by
  unfold parseInt
  simp only
  split_ifs
  all_goals
    first
      | exact Or.inl (by with_reducible rfl)
      | exact Or.inr ⟨_, _, by with_reducible rfl⟩

theorem round_cases (neg : Bool) (p : Nat) :
    JSNum.round neg p 1 = .inf neg ∨
      (JSNum.round neg p 1 = .fin neg (JSNum.roundUnits p 1) ∧ JSNum.roundUnits p 1 < 2 ^ 2098) := by
  unfold JSNum.round
  split_ifs with h
  · exact Or.inl rfl
  · exact Or.inr ⟨rfl, Nat.lt_of_not_le h⟩

theorem round_integral (neg : Bool) {p : Nat} (h : JSNum.one ∣ p) :
    IsIntegral (JSNum.round neg p 1) := by
  intro n u hu
  rcases round_cases neg p with h1 | ⟨h1, _⟩
  · rw [h1] at hu
    exact absurd hu (by simp)
  · rw [h1] at hu
    simp only [JSNum.fin.injEq] at hu
    rw [← hu.2]
    exact one_dvd_roundUnits h

theorem parseInt_integral (s : String) (r : Nat) : IsIntegral (parseInt s r) := by
  rcases parseInt_cases s r with h | ⟨neg, v, h⟩
  · rw [h]
    intro n u hu
    exact absurd hu (by simp)
  · rw [h]
    exact round_integral neg (Dvd.intro_left v rfl)

theorem parseInt_double {s : String} {r : Nat} {neg : Bool} {u : Nat}
    (h : parseInt s r = .fin neg u) : JSNum.roundUnits u 1 = u := by
  rcases parseInt_cases s r with h1 | ⟨n, v, h1⟩
  · rw [h1] at h
    exact absurd h (by simp)
  · rw [h1] at h
    rcases round_cases n (v * JSNum.one) with h2 | ⟨h2, _⟩
    · rw [h2] at h
      exact absurd h (by simp)
    · rw [h2] at h
      simp only [JSNum.fin.injEq] at h
      rw [← h.2]
      exact roundUnits_idem _

theorem numberToString_fin (neg : Bool) (n : Nat) (hn : n < 2 ^ 53) :
    numberToString (.fin neg (n * JSNum.one)) =
      some ⟨(if neg = true ∧ n ≠ 0 then ['-'] else []) ++ decimalDigits n⟩ := by
  unfold numberToString
  have h1 : n * JSNum.one % JSNum.one = 0 := Nat.mul_mod_left _ _
  have h2 : n * JSNum.one / JSNum.one = n := Nat.mul_div_cancel _ one_pos
  have h3 : n * JSNum.one ≠ 0 ↔ n ≠ 0 := by
    simp [Nat.mul_eq_zero, Nat.ne_of_gt one_pos]
  simp only [h1, h2, hn, h3, if_true]

theorem shortestDecimal_spec {N : Nat} (hN : JSNum.roundUnits (N * JSNum.one) 1 = N * JSNum.one) :
    JSNum.roundUnits (shortestDecimal N * JSNum.one) 1 = N * JSNum.one := by
  unfold shortestDecimal
  simp only
  generalize ((List.range (decimalDigits N).length).map
    (fun i => digitCandidates N (decimalDigits N).length (i + 1))).flatten = candidates
  cases hf : candidates.find?
      (fun V => decide (JSNum.roundUnits (V * JSNum.one) 1 = N * JSNum.one)) with
  | none => simpa using hN
  | some V =>
    have := List.find?_some hf
    simpa using this

set_option exponentiation.threshold 4000 in
set_option maxRecDepth 100000 in
theorem ten_pow_double : JSNum.roundUnits (10 ^ 21 * JSNum.one) 1 = 10 ^ 21 * JSNum.one := by
  decide

theorem shortestDecimal_lt {N : Nat} (hN : JSNum.roundUnits (N * JSNum.one) 1 = N * JSNum.one)
    (h : N < 10 ^ 21) : shortestDecimal N < 10 ^ 21 := by
  by_contra hge
  have h1 : 10 ^ 21 * JSNum.one ≤ shortestDecimal N * JSNum.one :=
    Nat.mul_le_mul_right _ (by omega)
  have h2 := roundUnits_mono h1
  rw [ten_pow_double, shortestDecimal_spec hN] at h2
  have := Nat.le_of_mul_le_mul_right h2 one_pos
  omega

theorem numberToString_big (neg : Bool) (N : Nat) (h53 : ¬ N < 2 ^ 53) (h21 : N < 10 ^ 21)
    (hN : JSNum.roundUnits (N * JSNum.one) 1 = N * JSNum.one) :
    numberToString (.fin neg (N * JSNum.one)) =
      some ⟨(if neg = true then ['-'] else []) ++ decimalDigits (shortestDecimal N)⟩ := by
  unfold numberToString
  have h1 : N * JSNum.one % JSNum.one = 0 := Nat.mul_mod_left _ _
  have h2 : N * JSNum.one / JSNum.one = N := Nat.mul_div_cancel _ one_pos
  simp only [h1, h2, h53, if_true, if_false, integerText, shortestDecimal_lt hN h21]

set_option exponentiation.threshold 4000 in
set_option maxRecDepth 100000 in
theorem units_lt : 2 ^ 53 * JSNum.one < 2 ^ 2098 := by
  decide

set_option exponentiation.threshold 4000 in
set_option maxRecDepth 100000 in
theorem units_lt70 : 2 ^ 70 * JSNum.one < 2 ^ 2098 := by
  decide

theorem keyHour_numberToString {x : JSNum} {k : String} (hx : InRange x)
    (hk : numberToString x = some k) : parseInt k 10 = x.normalize := by
  rcases hx with rfl | ⟨neg, n, hn, hrep, rfl⟩
  · simp only [numberToString, Option.some.injEq] at hk
    subst hk
    decide
  · by_cases h53 : n < 2 ^ 53
    · rw [numberToString_fin neg n h53, Option.some.injEq] at hk
      subst hk
      obtain ⟨vs, h1, h2, h3, h4⟩ := decimalDigits_spec n
      have := parseInt_digits (neg && decide (n ≠ 0)) vs h2 h3
      rw [h4] at this
      rw [h1]
      have h3' : n * JSNum.one ≠ 0 ↔ n ≠ 0 := by
        simp [Nat.mul_eq_zero, Nat.ne_of_gt one_pos]
      unfold JSNum.normalize
      simp only [Bool.and_eq_true, decide_eq_true_eq] at this
      simp only [h3']
      rw [this]
      unfold JSNum.round
      have hlt : ¬ 2 ^ 2098 ≤ n * JSNum.one := by
        have h5 : n * JSNum.one < 2 ^ 53 * JSNum.one := Nat.mul_lt_mul_of_pos_right h53 one_pos
        exact Nat.not_le.2 (lt_of_lt_of_le h5 (le_of_lt units_lt))
      rw [roundUnits_small n h53, if_neg hlt]
    · rw [numberToString_big neg n h53 hn hrep, Option.some.injEq] at hk
      subst hk
      obtain ⟨vs, h1, h2, h3, h4⟩ := decimalDigits_spec (shortestDecimal n)
      have := parseInt_digits neg vs h2 h3
      rw [h4] at this
      rw [h1, this]
      unfold JSNum.round
      rw [shortestDecimal_spec hrep]
      have hlt : ¬ 2 ^ 2098 ≤ n * JSNum.one := by
        have h5 : n * JSNum.one < 10 ^ 21 * JSNum.one := Nat.mul_lt_mul_of_pos_right hn one_pos
        exact Nat.not_le.2 (lt_trans h5 (lt_of_le_of_lt
          (Nat.mul_le_mul_right _ (by norm_num : (10 : Nat) ^ 21 ≤ 2 ^ 70)) units_lt70))
      rw [if_neg hlt]
      have hn0 : n * JSNum.one ≠ 0 := by
        have h6 : 0 < n := lt_of_lt_of_le (by positivity) (Nat.le_of_not_lt h53)
        exact Nat.ne_of_gt (Nat.mul_pos h6 one_pos)
      simp [JSNum.normalize, hn0]

end CallAnalytics

namespace CallAnalytics

/-! ## Rows of the hourly table -/

theorem get?_map_cells {α β : Type} (f : String → α → β) (b : JSObj α) (p : String) :
    JSObj.get? (b.map (fun e => (e.1, f e.1 e.2))) p = (JSObj.get? b p).map (f p) := by
  induction b with
  | nil => simp [JSObj.get?_nil]
  | cons e t ih =>
    rw [List.map_cons, JSObj.get?_cons, JSObj.get?_cons, ih]
    by_cases h : e.1 = p
    · simp [h]
    · simp [h]

theorem keys_map_cells {α β : Type} (f : String → α → β) (b : JSObj α) :
    JSObj.keys (b.map (fun e => (e.1, f e.1 e.2))) = JSObj.keys b := by
  simp [JSObj.keys, List.map_map, Function.comp_def]

theorem hourlyRow_ok (k : String) (b : JSObj HourCell) (hnd : (JSObj.keys b).Nodup) (row : Row)
    (h : hourlyRow (k, b) = .ok row) :
    ∃ label, ∀ p, JSObj.get? row p =
      ((JSObj.get? b p).map (hourCellValue p)).or
        (if p = "hour" then some (.str label)
          else if p = "hour24" then some (.num (keyHour k)) else none) := by
  unfold hourlyRow at h
  obtain ⟨label, _, h4⟩ := Outcome.bind_eq_ok h
  simp only [Outcome.ok.injEq] at h4
  subst h4
  refine ⟨label, fun p => ?_⟩
  rw [get?_spreadInto _ _ (by rw [keys_map_cells]; exact hnd), get?_map_cells,
    JSObj.get?_cons, JSObj.get?_cons, JSObj.get?_nil]
  unfold keyHour
  by_cases hp1 : p = "hour"
  · simp [hp1]
  · by_cases hp2 : p = "hour24"
    · simp [hp2]
    · simp [hp1, hp2, Ne.symm hp1, Ne.symm hp2]

theorem hour24Of_of_get? {row : Row} {x : JSNum}
    (h : JSObj.get? row "hour24" = some (.num x)) : hour24Of row = x := by
  simp [hour24Of, h]

theorem sortByHour24_perm (host : Host) (hhost : host.Lawful) (rows : List Row) :
    (sortByHour24 host rows).Perm rows :=
  hhost.perm _ _

theorem mem_of_forall₂_left {α β : Type} {R : α → β → Prop} {l : List α} {bs : List β}
    (h : List.Forall₂ R l bs) {a : α} (ha : a ∈ l) : ∃ b ∈ bs, R a b := by
  induction h with
  | nil => simp at ha
  | cons hab _ ih =>
    rcases List.mem_cons.1 ha with h1 | h1
    · subst h1
      exact ⟨_, by simp, hab⟩
    · obtain ⟨b, hb, hr⟩ := ih h1
      exact ⟨b, List.mem_cons_of_mem _ hb, hr⟩

/-! ## Hour keys and integer hours -/

end CallAnalytics

namespace CallAnalytics

theorem hourOf_integral {c : Record} {x : JSNum} (h : hourOf c = .ok x) : IsIntegral x := by
  unfold hourOf at h
  split at h
  · simp at h
  · split at h
    · simp at h
    · simp only [Outcome.ok.injEq] at h
      rw [← h]
      exact parseInt_integral _ _

theorem hourOf_double {c : Record} {neg : Bool} {u : Nat} (h : hourOf c = .ok (.fin neg u)) :
    JSNum.roundUnits u 1 = u := by
  unfold hourOf at h
  split at h
  · simp at h
  · split at h
    · simp at h
    · simp only [Outcome.ok.injEq] at h
      exact parseInt_double h

theorem hourOf_inRange {c : Record} {x : JSNum} (h : hourOf c = .ok x) (hb : HourBelow x) :
    InRange x := by
  cases x with
  | nan => exact Or.inl rfl
  | inf neg => exact absurd hb (by simp [HourBelow])
  | fin neg u =>
    have hu : u < 10 ^ 21 * JSNum.one := hb
    obtain ⟨n, hn⟩ := hourOf_integral h neg u rfl
    have hrep := hourOf_double h
    rw [hn, Nat.mul_comm] at hrep hu
    refine Or.inr ⟨neg, n, Nat.lt_of_mul_lt_mul_right hu, hrep, ?_⟩
    rw [hn, Nat.mul_comm]

theorem hourBelow_of {calls : List Record} (hbelow : ∀ c ∈ calls, HourKeyBelow c) :
    ∀ c ∈ calls, ∀ x, hourOf c = .ok x → HourBelow x := by
  intro c hc x hx
  have := hbelow c hc
  unfold HourKeyBelow at this
  rw [hx] at this
  exact this

theorem numberToString_integral {x : JSNum} (hx : IsIntegral x) :
    ∃ k, numberToString x = some k := by
  cases x with
  | nan => exact ⟨_, rfl⟩
  | inf neg => cases neg <;> exact ⟨_, rfl⟩
  | fin neg u =>
    have h1 : u % JSNum.one = 0 := Nat.mod_eq_zero_of_dvd (hx neg u rfl)
    unfold numberToString
    simp only [h1, if_true]
    split <;> exact ⟨_, rfl⟩

theorem hourKey?_some {c : Record} {k : String} (h : hourKey? c = some k)
    (hb : ∀ x, hourOf c = .ok x → HourBelow x) :
    ∃ x, hourOf c = .ok x ∧ numberToString x = some k ∧ InRange x ∧
      keyHour k = x.normalize := by
  unfold hourKey? at h
  cases hx : hourOf c with
  | ok x =>
    rw [hx] at h
    have hr := hourOf_inRange hx (hb x hx)
    exact ⟨x, rfl, h, hr, by simp [keyHour, keyHour_numberToString hr h]⟩
  | typeError => simp [hx] at h
  | unmodelled => simp [hx] at h

theorem numberToString_normalize {x : JSNum} (hx : InRange x) :
    numberToString x.normalize = numberToString x := by
  rcases hx with rfl | ⟨neg, n, hn, hrep, rfl⟩
  · rfl
  · have h3 : n * JSNum.one ≠ 0 ↔ n ≠ 0 := by
      simp [Nat.mul_eq_zero, Nat.ne_of_gt one_pos]
    unfold JSNum.normalize
    by_cases h53 : n < 2 ^ 53
    · rw [numberToString_fin _ n h53, numberToString_fin _ n h53]
      by_cases h0 : n = 0
      · simp [h0]
      · simp [h0, h3]
    · have h0 : n ≠ 0 := by
        intro e
        rw [e] at h53
        exact h53 (by positivity)
      simp [h0, h3]

theorem key_eq_iff {x y : JSNum} {k : String} (hx : InRange x) (hy : InRange y)
    (hk : numberToString x = some k) :
    numberToString y = some k ↔ y.normalize = x.normalize := by
  constructor
  · intro h
    have h1 := keyHour_numberToString hx hk
    have h2 := keyHour_numberToString hy h
    rw [h1] at h2
    exact h2.symm
  · intro h
    rw [← numberToString_normalize hy, h, numberToString_normalize hx, hk]

theorem strictEq_ofInt_iff {x : JSNum} (hx : InRange x) (h : Int) :
    x.strictEq (JSNum.ofInt h) = true ↔ x.normalize = JSNum.ofInt h := by
  rcases hx with rfl | ⟨neg, n, hn, _, rfl⟩
  · simp [JSNum.strictEq, JSNum.normalize, JSNum.ofInt]
  · have hone := one_pos
    have h3 : n * JSNum.one = 0 ↔ n = 0 := by
      simp [Nat.mul_eq_zero, Nat.ne_of_gt one_pos]
    have h4 : h.natAbs * JSNum.one = 0 ↔ h = 0 := by
      simp [Nat.mul_eq_zero, Nat.ne_of_gt one_pos]
    simp only [JSNum.strictEq, JSNum.normalize, JSNum.ofInt, Bool.and_eq_true, beq_iff_eq,
      Bool.or_eq_true, JSNum.fin.injEq, decide_eq_true_eq, ne_eq]
    constructor
    · rintro ⟨h1, h2⟩
      refine ⟨?_, h1⟩
      rcases h2 with h2 | h2
      · rw [h2]
        by_cases hneg : h < 0
        · have : h ≠ 0 := by omega
          have h5 : ¬ (n * JSNum.one = 0) := by
            rw [h1, h4]; exact this
          simp [hneg, h5]
        · simp [hneg]
      · have h0 : h = 0 := by rw [← h4, ← h1]; exact h2
        simp [h2, h0]
    · rintro ⟨h1, h2⟩
      refine ⟨h2, ?_⟩
      by_cases h0 : n * JSNum.one = 0
      · exact Or.inr h0
      · left
        simpa [h0] using h1

theorem hourIs_iff {c : Record} {y : JSNum} (hy : hourOf c = .ok y) (hb : HourBelow y)
    (h : Int) : hourIs h c = true ↔ y.normalize = JSNum.ofInt h := by
  unfold hourIs
  rw [hy]
  exact strictEq_ofInt_iff (hourOf_inRange hy hb) h

theorem sameKey_eq_sameHour {calls : List Record} (hkeyed : ∀ c ∈ calls, ∃ k, hourKey? c = some k)
    (hbelow : ∀ c ∈ calls, ∀ x, hourOf c = .ok x → HourBelow x) {x : JSNum} {k : String} (hx : InRange x) (hk : numberToString x = some k) {h : Int}
    (hh : x.normalize = JSNum.ofInt h) (p : String) :
    calls.countP (sameKeyPerson k p) = calls.countP (sameHourPerson h p) := by
  apply List.countP_congr
  intro c hc
  obtain ⟨k', hk'⟩ := hkeyed c hc
  obtain ⟨y, hy, hky, hry, _⟩ := hourKey?_some hk' (hbelow c hc)
  have e1 : hourKey? c = some k ↔ hourIs h c = true := by
    rw [hourIs_iff hy (hbelow c hc y hy), ← hh, ← key_eq_iff hx hry hk]
    simp [hourKey?, hy]
  simp only [sameKeyPerson, sameHourPerson, Bool.and_eq_true, beq_iff_eq]
  rw [e1]

theorem expectedHour_hour24_of_no_person (calls : List Record) (k : String)
    (h24 : ∀ c ∈ calls, personKey c ≠ "hour24") : expectedHour calls k "hour24" = none := by
  unfold expectedHour
  have : calls.countP (sameKeyPerson k "hour24") = 0 := by
    rw [List.countP_eq_zero]
    intro c hc hs
    exact h24 c hc ((sameKeyPerson_iff _ _ _).1 hs).2
  simp [this]

theorem hourlyRow_hour24 {calls : List Record} {byHour : JSObj (JSObj HourCell)}
    (hI : HourInv calls byHour) (h24 : ∀ c ∈ calls, personKey c ≠ "hour24")
    {k : String} {b : JSObj HourCell} (hmem : (k, b) ∈ byHour) {row : Row}
    (hr : hourlyRow (k, b) = .ok row) : hour24Of row = keyHour k := by
  have hb := JSObj.mem_get? hI.nodup hmem
  obtain ⟨label, hget⟩ := hourlyRow_ok k b (hI.buckets k b hb) row hr
  have hc := hI.cells k "hour24"
  unfold lookup2 at hc
  rw [hb, Option.some_bind, expectedHour_hour24_of_no_person _ _ h24] at hc
  apply hour24Of_of_get?
  rw [hget, hc]
  simp

end CallAnalytics

namespace CallAnalytics

/-! ## Number and order of the hourly rows -/

theorem pairwise_orderedInsert_on {α : Type} (r : α → α → Prop) [DecidableRel r]
    (P : α → Prop) (htot : ∀ a b, P a → P b → r a b ∨ r b a)
    (htr : ∀ a b c, P a → P b → P c → r a b → r b c → r a c)
    (a : α) (l : List α) (ha : P a) (hl : ∀ x ∈ l, P x) (hs : l.Pairwise r) :
    (l.orderedInsert r a).Pairwise r := by
  induction l with
  | nil => simp
  | cons b t ih =>
    have hb := hl b (by simp)
    have ht : ∀ x ∈ t, P x := fun x hx => hl x (List.mem_cons_of_mem _ hx)
    rw [List.pairwise_cons] at hs
    rw [List.orderedInsert]
    by_cases hab : r a b
    · rw [if_pos hab, List.pairwise_cons, List.pairwise_cons]
      refine ⟨?_, hs⟩
      intro x hx
      rcases List.mem_cons.1 hx with h1 | h1
      · rw [h1]; exact hab
      · exact htr a b x ha hb (ht x h1) hab (hs.1 x h1)
    · rw [if_neg hab, List.pairwise_cons]
      refine ⟨?_, ih ht hs.2⟩
      intro x hx
      rcases List.mem_cons.1 (((List.perm_orderedInsert r a t).mem_iff).1 hx) with h1 | h1
      · rw [h1]
        exact (htot a b ha hb).resolve_left hab
      · exact hs.1 x h1

theorem pairwise_insertionSort_on {α : Type} (r : α → α → Prop) [DecidableRel r]
    (P : α → Prop) (htot : ∀ a b, P a → P b → r a b ∨ r b a)
    (htr : ∀ a b c, P a → P b → P c → r a b → r b c → r a c)
    (l : List α) (hl : ∀ x ∈ l, P x) : (l.insertionSort r).Pairwise r := by
  induction l with
  | nil => simp
  | cons a t ih =>
    rw [List.insertionSort]
    have ht : ∀ x ∈ t, P x := fun x hx => hl x (List.mem_cons_of_mem _ hx)
    exact pairwise_orderedInsert_on r P htot htr a _ (hl a (by simp))
      (fun x hx => ht x (((List.perm_insertionSort r t).mem_iff).1 hx)) (ih ht)

end CallAnalytics

namespace CallAnalytics

theorem lt_total_on (a b : JSNum) (ha : IsHour a) (hb : IsHour b) :
    b.lt a = false ∨ a.lt b = false := by
  obtain ⟨na, ua, rfl, _⟩ := ha
  obtain ⟨nb, ub, rfl, _⟩ := hb
  simp only [JSNum.lt, decide_eq_false_iff_not]
  cases na <;> cases nb <;> simp <;> omega

theorem lt_trans_on (a b c : JSNum) (ha : IsHour a) (hb : IsHour b) (hc : IsHour c)
    (h1 : b.lt a = false) (h2 : c.lt b = false) : c.lt a = false := by
  obtain ⟨na, ua, rfl, _⟩ := ha
  obtain ⟨nb, ub, rfl, _⟩ := hb
  obtain ⟨nc, uc, rfl, _⟩ := hc
  simp only [JSNum.lt, decide_eq_false_iff_not] at *
  cases na <;> cases nb <;> cases nc <;> simp at * <;> omega

theorem lt_of_not_lt_of_ne (a b : JSNum) (ha : IsHour a) (hb : IsHour b)
    (h1 : b.lt a = false) (hne : a ≠ b) : a.lt b = true := by
  obtain ⟨na, ua, rfl, hza⟩ := ha
  obtain ⟨nb, ub, rfl, hzb⟩ := hb
  simp only [JSNum.lt, decide_eq_false_iff_not, decide_eq_true_eq] at *
  simp only [ne_eq, JSNum.fin.injEq, not_and] at hne
  cases na <;> cases nb <;> simp at * <;> omega

theorem isHour_normalize {x : JSNum} (hx : InRange x) (hn : x ≠ .nan) : IsHour x.normalize := by
  rcases hx with rfl | ⟨neg, n, _, _, rfl⟩
  · exact absurd rfl hn
  · refine ⟨_, _, rfl, ?_⟩
    intro h
    simp only [Bool.and_eq_true, decide_eq_true_eq] at h
    exact h.2

theorem normalize_eq_ofInt {x : JSNum} (hx : InRange x) (hn : x ≠ .nan) :
    ∃ h : Int, x.normalize = JSNum.ofInt h := by
  rcases hx with rfl | ⟨neg, n, _, _, rfl⟩
  · exact absurd rfl hn
  · have h3 : n * JSNum.one = 0 ↔ n = 0 := by
      simp [Nat.mul_eq_zero, Nat.ne_of_gt one_pos]
    cases neg with
    | false => exact ⟨(n : Int), by simp [JSNum.normalize, JSNum.ofInt]⟩
    | true =>
      refine ⟨-(n : Int), ?_⟩
      by_cases h0 : n = 0
      · simp [JSNum.normalize, JSNum.ofInt, h0]
      · have : (0 : Int) < n := by omega
        simp [JSNum.normalize, JSNum.ofInt, h0, h3, this]

theorem hourRows_hour24 {calls : List Record} {byHour : JSObj (JSObj HourCell)}
    (hI : HourInv calls byHour) (h24 : ∀ c ∈ calls, personKey c ≠ "hour24")
    (rows : List Row) (h : mapO hourlyRow byHour = .ok rows) :
    rows.map hour24Of = (JSObj.keys byHour).map keyHour := by
  have hall : ∀ e ∈ byHour, ∀ row, hourlyRow e = .ok row → hour24Of row = keyHour e.1 := by
    intro e he row hr
    exact hourlyRow_hour24 hI h24 (k := e.1) (b := e.2) he hr
  have hf := mapO_eq_ok _ _ _ h
  clear h hI
  induction hf with
  | nil => rfl
  | cons hab _ ih =>
    simp only [List.map_cons, JSObj.keys]
    rw [hall _ (by simp) _ hab]
    congr 1
    exact ih (fun e he => hall e (List.mem_cons_of_mem _ he))

theorem keyHour_injOn {calls : List Record} {byHour : JSObj (JSObj HourCell)}
    (hI : HourInv calls byHour) (hbelow : ∀ c ∈ calls, ∀ x, hourOf c = .ok x → HourBelow x) :
    ∀ k ∈ JSObj.keys byHour, ∀ k' ∈ JSObj.keys byHour, keyHour k = keyHour k' → k = k' := by
  intro k hk k' hk' he
  obtain ⟨c, hcm, hc⟩ := (hI.keys k).1 hk
  obtain ⟨c', hcm', hc'⟩ := (hI.keys k').1 hk'
  obtain ⟨x, _, hkx, hrx, hkh⟩ := hourKey?_some hc (hbelow c hcm)
  obtain ⟨x', _, hkx', hrx', hkh'⟩ := hourKey?_some hc' (hbelow c' hcm')
  rw [hkh, hkh'] at he
  have := (key_eq_iff hrx hrx' hkx).2 he.symm
  rw [hkx'] at this
  exact (Option.some.inj this).symm

end CallAnalytics

namespace CallAnalytics

/-! ## How a run of the aggregation ends -/

theorem foldlO_ok {α β : Type} (f : β → α → Outcome β) (l : List α)
    (hf : ∀ b, ∀ a ∈ l, ∃ b1, f b a = .ok b1) : ∀ b, ∃ b1, foldlO f b l = .ok b1 := by
  induction l with
  | nil => exact fun b => ⟨b, rfl⟩
  | cons a l ih =>
    intro b
    obtain ⟨b1, h1⟩ := hf b a (by simp)
    obtain ⟨b2, h2⟩ := ih (fun b a ha => hf b a (List.mem_cons_of_mem _ ha)) b1
    exact ⟨b2, by simp [foldlO, h1, Outcome.bind, h2]⟩

theorem foldlO_decided {α β : Type} (f : β → α → Outcome β) (l : List α)
    (hf : ∀ b, ∀ a ∈ l, f b a ≠ .unmodelled) : ∀ b, foldlO f b l ≠ .unmodelled := by
  induction l with
  | nil => intro b h; simp [foldlO] at h
  | cons a l ih =>
    intro b h
    simp only [foldlO] at h
    cases h1 : f b a with
    | ok b1 =>
      rw [h1] at h
      exact ih (fun b a ha => hf b a (List.mem_cons_of_mem _ ha)) b1 h
    | typeError => rw [h1] at h; simp [Outcome.bind] at h
    | unmodelled => exact hf b a (by simp) h1

theorem foldlO_typeError {α β : Type} (f : β → α → Outcome β) (l : List α)
    (hf : ∀ b, ∀ a ∈ l, f b a ≠ .unmodelled) (hex : ∃ a ∈ l, ∀ b, f b a = .typeError) :
    ∀ b, foldlO f b l = .typeError := by
  induction l with
  | nil =>
    obtain ⟨a, ha, _⟩ := hex
    simp at ha
  | cons a l ih =>
    intro b
    simp only [foldlO]
    cases h1 : f b a with
    | ok b1 =>
      simp only [Outcome.bind]
      obtain ⟨a', ha', hthrow⟩ := hex
      rcases List.mem_cons.1 ha' with e | hmem
      · have h2 := hthrow b
        rw [e, h1] at h2
        exact absurd h2 (by simp)
      · exact ih (fun b a ha => hf b a (List.mem_cons_of_mem _ ha)) ⟨a', hmem, hthrow⟩ b1
    | typeError => rfl
    | unmodelled => exact absurd h1 (hf b a (by simp))

theorem mapO_ok {α β : Type} (f : α → Outcome β) (l : List α)
    (hf : ∀ a ∈ l, ∃ b, f a = .ok b) : ∃ bs, mapO f l = .ok bs := by
  induction l with
  | nil => exact ⟨[], rfl⟩
  | cons a l ih =>
    obtain ⟨b, hb⟩ := hf a (by simp)
    obtain ⟨bs, hbs⟩ := ih (fun a ha => hf a (List.mem_cons_of_mem _ ha))
    exact ⟨b :: bs, by simp [mapO, hb, hbs, Outcome.bind]⟩

theorem hourOf_decided (c : Record) : hourOf c ≠ .unmodelled := by
  unfold hourOf
  split
  · simp
  · split <;> simp

theorem started_of_hourOf {c : Record} {x : JSNum} (h : hourOf c = .ok x) :
    ∃ started, JSObj.get? c "date_started" = some started := by
  unfold hourOf at h
  split at h
  · simp at h
  · exact ⟨_, by assumption⟩

theorem dayStep_ok (acc : JSObj (JSObj DayStat)) {c : Record} (hown : OwnDateKey c)
    {started : String} (hs : JSObj.get? c "date_started" = some started) :
    ∃ acc1, dayStep acc c = .ok acc1 := by
  have hd : firstPiece ' ' started ∉ objectPrototypeKeys := hown _ (by simp [dateKey, hs])
  unfold dayStep
  simp only [hs, hd, if_false]
  split <;> exact ⟨_, rfl⟩

theorem dayStep_decided (acc : JSObj (JSObj DayStat)) {c : Record} (hown : OwnDateKey c) :
    dayStep acc c ≠ .unmodelled := by
  cases hs : JSObj.get? c "date_started" with
  | none => simp [dayStep, hs]
  | some started =>
    obtain ⟨acc1, h⟩ := dayStep_ok acc hown hs
    rw [h]
    simp

theorem callsByDay_decided (calls : List Record) (hown : ∀ c ∈ calls, OwnDateKey c) :
    callsByDay calls ≠ .unmodelled :=
  foldlO_decided dayStep calls (fun b a ha => dayStep_decided b (hown a ha)) []

theorem callsByDay_ok (calls : List Record) (hown : ∀ c ∈ calls, OwnDateKey c)
    (hgood : ∀ c ∈ calls, ∃ x, hourOf c = .ok x) : ∃ acc, callsByDay calls = .ok acc :=
  foldlO_ok dayStep calls (fun b a ha => by
    obtain ⟨x, hx⟩ := hgood a ha
    obtain ⟨started, hs⟩ := started_of_hourOf hx
    exact dayStep_ok b (hown a ha) hs) []

theorem hourStep_ok (acc : JSObj (JSObj HourCell)) {c : Record} {x : JSNum}
    (h : hourOf c = .ok x) : ∃ acc1, hourStep acc c = .ok acc1 := by
  obtain ⟨k, hk⟩ := numberToString_integral (hourOf_integral h)
  unfold hourStep
  simp only [h, Outcome.bind, hk]
  exact ⟨_, rfl⟩

theorem hourStep_decided (acc : JSObj (JSObj HourCell)) (c : Record) :
    hourStep acc c ≠ .unmodelled := by
  cases h : hourOf c with
  | ok x =>
    obtain ⟨acc1, h1⟩ := hourStep_ok acc h
    rw [h1]
    simp
  | typeError => simp [hourStep, h, Outcome.bind]
  | unmodelled => exact absurd h (hourOf_decided c)

theorem hourStep_typeError (acc : JSObj (JSObj HourCell)) {c : Record}
    (h : hourOf c = .typeError) : hourStep acc c = .typeError := by
  simp [hourStep, h, Outcome.bind]

theorem negate_integral {x : JSNum} (hx : IsIntegral x) : IsIntegral x.negate := by
  cases x with
  | nan => exact hx
  | inf a => intro n u hu; simp [JSNum.negate] at hu
  | fin a v =>
    intro n u hu
    simp only [JSNum.negate, JSNum.fin.injEq] at hu
    rw [← hu.2]
    exact hx a v rfl

theorem add_integral {x y : JSNum} (hx : IsIntegral x) (hy : IsIntegral y) :
    IsIntegral (x.add y) := by
  cases x with
  | nan => intro n u hu; simp [JSNum.add] at hu
  | inf a =>
    cases y with
    | nan => intro n u hu; simp [JSNum.add] at hu
    | inf b =>
      intro n u hu
      simp only [JSNum.add] at hu
      split at hu <;> simp at hu
    | fin b v => intro n u hu; simp [JSNum.add] at hu
  | fin a u =>
    cases y with
    | nan => intro n u hu; simp [JSNum.add] at hu
    | inf b => intro n u hu; simp [JSNum.add] at hu
    | fin b v =>
      have h1 := hx a u rfl
      have h2 := hy b v rfl
      simp only [JSNum.add]
      split
      · exact round_integral _ (Nat.dvd_add h1 h2)
      · split
        · intro n w hw
          simp only [JSNum.fin.injEq] at hw
          rw [← hw.2]
          exact dvd_zero _
        · split
          · exact round_integral _ (Nat.dvd_sub' h1 h2)
          · exact round_integral _ (Nat.dvd_sub' h2 h1)

theorem formattedHour_ok {x : JSNum} (hx : IsIntegral x) : ∃ label, formattedHour x = .ok label := by
  have h12 : IsIntegral (JSNum.ofNat 12) := by
    intro n u hu
    simp only [JSNum.ofNat, JSNum.fin.injEq] at hu
    rw [← hu.2]
    exact Dvd.intro_left 12 rfl
  obtain ⟨k1, hk1⟩ := numberToString_integral hx
  obtain ⟨k2, hk2⟩ := numberToString_integral (add_integral hx (negate_integral h12))
  unfold formattedHour
  simp only [JSNum.sub, hk1, hk2]
  split
  · exact ⟨_, rfl⟩
  · split
    · exact ⟨_, rfl⟩
    · split <;> exact ⟨_, rfl⟩

theorem hourlyRow_total (entry : String × JSObj HourCell) : ∃ row, hourlyRow entry = .ok row := by
  obtain ⟨label, hl⟩ := formattedHour_ok (parseInt_integral entry.1 10)
  unfold hourlyRow
  simp only [hl, Outcome.bind]
  exact ⟨_, rfl⟩

theorem sortByDate_ok (host : Host) (rows : List Row)
    (h : ∀ r ∈ rows, (dateOf r).isSome = true) : ∃ sorted, sortByDate host rows = .ok sorted := by
  unfold sortByDate
  split
  · exact ⟨_, rfl⟩
  · have : rows.all (fun r => (dateOf r).isSome) = true := List.all_eq_true.2 h
    simp only [this, if_true]
    exact ⟨_, rfl⟩

theorem isSome_of_dates {rows : List Row} {keys : List String}
    (h : rows.map dateOf = keys.map some) : ∀ r ∈ rows, (dateOf r).isSome = true := by
  intro r hr
  have hm : dateOf r ∈ keys.map some := by
    rw [← h]
    exact List.mem_map_of_mem _ hr
  obtain ⟨k, _, hk⟩ := List.mem_map.1 hm
  rw [← hk]
  rfl

theorem aggregate_ok_of (host : Host) (data : List Record)
    (hown : ∀ c ∈ validCalls data, OwnDateKey c)
    (hdate : ∀ c ∈ validCalls data, personKey c ≠ "date")
    (hgood : ∀ c ∈ validCalls data, ∃ x, hourOf c = .ok x) :
    ∃ res, aggregate host data = .ok res := by
  obtain ⟨byDay, h1⟩ := callsByDay_ok _ hown hgood
  obtain ⟨byHour, h2⟩ := foldlO_ok hourStep (validCalls data)
    (fun b a ha => by
      obtain ⟨x, hx⟩ := hgood a ha
      exact hourStep_ok b hx) []
  have hI := callsByDay_inv _ _ hown h1
  obtain ⟨dc, h3⟩ := sortByDate_ok host (byDay.map dailyCallsRow)
    (isSome_of_dates (dailyCallsRow_dates _ _ hI hdate))
  obtain ⟨dm, h4⟩ := sortByDate_ok host (byDay.map dailyMinutesRow)
    (isSome_of_dates (dailyMinutesRow_dates _ _ hI hdate))
  obtain ⟨hr, h5⟩ := mapO_ok hourlyRow byHour (fun e _ => hourlyRow_total e)
  refine ⟨⟨dc, dm, sortByHour24 host hr, users data⟩, ?_⟩
  simp only [aggregate, statistics, callsByHour, h1, h2, h3, h4, h5, Outcome.bind]

theorem aggregate_typeError (host : Host) (data : List Record)
    (hown : ∀ c ∈ validCalls data, OwnDateKey c)
    (hbad : ∃ c ∈ validCalls data, hourOf c = .typeError) :
    aggregate host data = .typeError := by
  obtain ⟨c, hc, hthrow⟩ := hbad
  have h2 : callsByHour (validCalls data) = .typeError :=
    foldlO_typeError hourStep _ (fun b a _ => hourStep_decided b a)
      ⟨c, hc, fun b => hourStep_typeError b hthrow⟩ []
  cases h1 : callsByDay (validCalls data) with
  | ok byDay => simp only [aggregate, statistics, h1, h2, Outcome.bind]
  | typeError => simp only [aggregate, statistics, h1, Outcome.bind]
  | unmodelled => exact absurd h1 (callsByDay_decided _ hown)

theorem aggregate_decided (host : Host) (data : List Record)
    (hown : ∀ c ∈ validCalls data, OwnDateKey c)
    (hdate : ∀ c ∈ validCalls data, personKey c ≠ "date") :
    aggregate host data ≠ .unmodelled := by
  by_cases hgood : ∀ c ∈ validCalls data, ∃ x, hourOf c = .ok x
  · obtain ⟨res, h⟩ := aggregate_ok_of host data hown hdate hgood
    rw [h]
    simp
  · have hbad : ∃ c ∈ validCalls data, hourOf c = .typeError := by
      by_contra hn
      apply hgood
      intro c hc
      cases h : hourOf c with
      | ok x => exact ⟨x, rfl⟩
      | typeError => exact absurd ⟨c, hc, h⟩ hn
      | unmodelled => exact absurd h (hourOf_decided c)
    rw [aggregate_typeError host data hown hbad]
    simp

end CallAnalytics

namespace CallAnalytics

/-! ## The daily call counts -/

/-- C1, as amended: take a record list in which no filtered record is named
`date` and no filtered record has a date key that names a property inherited
from `Object.prototype`.  The run is then one this development follows, and
when the aggregation succeeds, for every date key `d` and every person `p`
that is not the name of an inherited property, the `dailyCalls` row of `d` has
the number `n` under `p` exactly when `n` is the number of filtered records
with date key `d` and name `p` and that number is not zero. -/
theorem C1_dailyCalls_counts (host : Host) (hhost : host.Lawful) (data : List Record)
    (hown : ∀ c ∈ validCalls data, OwnDateKey c)
    (hdate : ∀ c ∈ validCalls data, personKey c ≠ "date") :
    aggregate host data ≠ .unmodelled ∧
      ∀ res, aggregate host data = .ok res →
        ∀ (d p : String) (n : Nat), p ∉ objectPrototypeKeys →
          ((∃ row ∈ res.dailyCalls, dateOf row = some d ∧
              JSObj.get? row p = some (.num (JSNum.ofNat n))) ↔
            (n = dayCount data d p ∧ 0 < n)) := by
  refine ⟨aggregate_decided host data hown hdate, ?_⟩
  intro res hok d p n hp
  obtain ⟨byDay, _, _, hday, _, hsort, _⟩ := aggregate_ok hok
  have hI := callsByDay_inv _ _ hown hday
  have hperm := sortByDate_perm _ hhost _ _ hsort
  constructor
  · rintro ⟨row, hrow, hd, hn⟩
    obtain ⟨⟨d', b⟩, hmem, rfl⟩ := List.mem_map.1 ((hperm.mem_iff).1 hrow)
    have hb := JSObj.mem_get? hI.nodup hmem
    have hnd := hI.buckets d' b hb
    rw [dateOf_dailyCallsRow d' b hnd] at hd
    rw [get?_dailyCallsRow d' b hnd] at hn
    have hdd : d' = d := by
      split at hd
      · exact Option.some.inj hd
      · simp at hd
    subst hdd
    have hst := hI.stats d' p
    unfold lookup2 at hst
    rw [hb, Option.some_bind] at hst
    cases hg : JSObj.get? b p with
    | none =>
      rw [hg] at hn
      by_cases hpd : p = "date" <;> simp [hpd] at hn
    | some st =>
      rw [hg] at hn hst
      simp only [Option.map_some', Option.or_some, Option.some.injEq, JSVal.num.injEq] at hn
      have hcalls := JSNum.ofNat_injective hn
      unfold expectedDay at hst
      split at hst
      · simp at hst
      · simp only [Option.some.injEq] at hst
        rename_i hcond
        simp only [not_or] at hcond
        unfold dayCount
        rw [← hcalls, hst]
        exact ⟨rfl, Nat.pos_of_ne_zero hcond.2⟩
  · rintro ⟨hn, hpos⟩
    unfold dayCount at hn
    have hst := hI.stats d p
    have hex : expectedDay (validCalls data) d p =
        some ⟨n, minutesOf ((validCalls data).filter (sameDayPerson d p))⟩ := by
      unfold expectedDay
      rw [← hn]
      simp [hp, Nat.ne_of_gt hpos]
    rw [hex] at hst
    unfold lookup2 at hst
    cases hb : JSObj.get? byDay d with
    | none => simp [hb] at hst
    | some b =>
      rw [hb, Option.some_bind] at hst
      have hnd := hI.buckets d b hb
      have hdate' : JSObj.get? b "date" = none := by
        have := hI.stats d "date"
        unfold lookup2 at this
        rw [hb, Option.some_bind, expectedDay_date_of_no_person _ _ hdate] at this
        exact this
      refine ⟨dailyCallsRow (d, b), ?_, ?_, ?_⟩
      · exact (hperm.mem_iff).2 (List.mem_map.2 ⟨(d, b), JSObj.get?_some_mem hb, rfl⟩)
      · rw [dateOf_dailyCallsRow d b hnd, if_pos hdate']
      · rw [get?_dailyCallsRow d b hnd, hst]
        simp

set_option exponentiation.threshold 4000 in
set_option maxRecDepth 100000 in
theorem C1_dailyCalls_counts_witness :
    (∀ c ∈ validCalls exampleData, OwnDateKey c) ∧
      (∀ c ∈ validCalls exampleData, personKey c ≠ "date") ∧
      ∃ row ∈ exampleResult.dailyCalls, dateOf row = some "2024-01-02" ∧
        JSObj.get? row "Alice" = some (.num (JSNum.ofNat 2)) :=
  ⟨by decide, by decide,
    ((C1_dailyCalls_counts ordinalHost (insertionHost_lawful _) exampleData (by decide)
      (by decide)).2 exampleResult (by decide) "2024-01-02" "Alice" 2 (by decide)).2
      ⟨by decide, by decide⟩⟩

set_option exponentiation.threshold 4000 in
set_option maxRecDepth 100000 in
/-- C1 as stated fails.  A filtered record named `constructor` on 2024-01-02
leaves the row of that date without an entry for `constructor`, because
`acc[date]["constructor"]` reads the inherited `Object` function.  And a
filtered record of Alice whose date key is `constructor` produces no daily row
at all, because `acc["constructor"]` reads that same function. -/
theorem C1_counterexample :
    ¬ (∀ (host : Host) (data : List Record) (res : AggregationResult), host.Lawful →
        aggregate host data = .ok res → ∀ (d p : String) (n : Nat),
          ((∃ row ∈ res.dailyCalls, dateOf row = some d ∧
              JSObj.get? row p = some (.num (JSNum.ofNat n))) ↔
            (n = dayCount data d p ∧ 0 < n))) ∧
      aggregate ordinalHost [outboundCall "Alice" "constructor 09:15:00" "3.5"] =
        .ok ⟨[], [], [[("hour", .str "9:00 AM"), ("hour24", .num (JSNum.ofNat 9)),
          ("Alice", .num (JSNum.ofNat 1))]], [some "Alice"]⟩ ∧
      dayCount [outboundCall "Alice" "constructor 09:15:00" "3.5"] "constructor" "Alice" = 1 := by
  refine ⟨?_, by decide, by decide⟩
  intro H
  have h := (H ordinalHost [outboundCall "constructor" "2024-01-02 09:15:00" "3.5"]
    ⟨[[("date", .str "2024-01-02")]], [[("date", .str "2024-01-02")]],
      [[("hour", .str "9:00 AM"), ("hour24", .num (JSNum.ofNat 9)),
        ("constructor", .nativeText "constructor" 1)]], [some "constructor"]⟩
    (insertionHost_lawful _) (by decide) "2024-01-02" "constructor" 1).2 ⟨by decide, by decide⟩
  revert h
  decide

end CallAnalytics

namespace CallAnalytics

/-! ## The daily minutes -/

set_option exponentiation.threshold 4000 in
set_option maxRecDepth 100000 in
/-- C3, as amended: take a record list in which no filtered record is named
`date` and no filtered record has a date key that names a property inherited
from `Object.prototype`.  The run is then one this development follows.  When
the aggregation succeeds, a number found under `p` in the `dailyMinutes` row of
date `d` is `parseFloat(sum.toFixed(2))`, where `sum` adds, in record order and
as doubles starting from `0`, the `talk_duration` of every filtered record with
date key `d` and name `p` whose `talk_duration` is present, not empty and
parses to a number other than `NaN` (`Infinity` included).  Whether the
aggregation succeeds depends on the `date_started` fields alone (each must
have a piece after its first space), so no `talk_duration` makes it fail; a
`talk_duration` of `abc` adds nothing, and the durations `3.5` and `2` of the
example give `5.5`. -/
theorem C3_dailyMinutes_sum (host : Host) (hhost : host.Lawful) (data : List Record)
    (hown : ∀ c ∈ validCalls data, OwnDateKey c)
    (hdate : ∀ c ∈ validCalls data, personKey c ≠ "date") :
    aggregate host data ≠ .unmodelled ∧
      (∀ res, aggregate host data = .ok res →
        ∀ row ∈ res.dailyMinutes, ∀ (d p : String) (x : JSNum),
          dateOf row = some d → JSObj.get? row p = some (.num x) →
            x = toFixed2Parsed (dayMinutes data d p)) ∧
      ((∃ res, aggregate host data = .ok res) ↔
        ∀ c ∈ validCalls data, ∃ x, hourOf c = .ok x) ∧
      (∀ (m : JSNum) (call : Record), JSObj.get? call "talk_duration" = some "abc" →
        addDuration m call = m ∧ duration? call = none) ∧
      aggregate ordinalHost exampleData = .ok exampleResult := by
  refine ⟨aggregate_decided host data hown hdate, ?_, ?_, ?_, by decide⟩
  · intro res hok row hrow d p x hd hx
    obtain ⟨byDay, _, _, hday, _, _, hsort, _⟩ := aggregate_ok hok
    have hI := callsByDay_inv _ _ hown hday
    have hperm := sortByDate_perm _ hhost _ _ hsort
    obtain ⟨⟨d', b⟩, hmem, rfl⟩ := List.mem_map.1 ((hperm.mem_iff).1 hrow)
    have hb := JSObj.mem_get? hI.nodup hmem
    have hnd := hI.buckets d' b hb
    rw [dateOf_dailyMinutesRow d' b hnd] at hd
    rw [get?_dailyMinutesRow d' b hnd] at hx
    have hdd : d' = d := by
      split at hd
      · exact Option.some.inj hd
      · simp at hd
    subst hdd
    have hst := hI.stats d' p
    unfold lookup2 at hst
    rw [hb, Option.some_bind] at hst
    cases hg : JSObj.get? b p with
    | none =>
      rw [hg] at hx
      by_cases hpd : p = "date" <;> simp [hpd] at hx
    | some st =>
      rw [hg] at hx hst
      simp only [Option.map_some', Option.or_some, Option.some.injEq, JSVal.num.injEq] at hx
      unfold expectedDay at hst
      split at hst
      · simp at hst
      · simp only [Option.some.injEq] at hst
        unfold dayMinutes
        rw [← hx, hst]
  · constructor
    · rintro ⟨res, hok⟩ c hc
      cases h : hourOf c with
      | ok x => exact ⟨x, rfl⟩
      | typeError =>
        rw [aggregate_typeError host data hown ⟨c, hc, h⟩] at hok
        exact absurd hok (by simp)
      | unmodelled => exact absurd h (hourOf_decided c)
    · exact aggregate_ok_of host data hown hdate
  · intro m call h
    have hp : (parseFloat "abc").isNaN = true := by decide
    constructor
    · unfold addDuration
      rw [h]
      simp [hp]
    · unfold duration?
      rw [h]
      simp [hp]

set_option exponentiation.threshold 4000 in
set_option maxRecDepth 100000 in
theorem C3_dailyMinutes_sum_witness :
    (∀ c ∈ validCalls exampleData, OwnDateKey c) ∧
      (∀ c ∈ validCalls exampleData, personKey c ≠ "date") ∧
      JSNum.fin false (11 * 2 ^ 1073) =
        toFixed2Parsed (dayMinutes exampleData "2024-01-02" "Alice") :=
  ⟨by decide, by decide,
    (C3_dailyMinutes_sum ordinalHost (insertionHost_lawful _) exampleData (by decide)
      (by decide)).2.1 exampleResult (by decide)
      [("date", .str "2024-01-02"), ("Alice", .num (.fin false (11 * 2 ^ 1073)))] (by decide)
      "2024-01-02" "Alice" (.fin false (11 * 2 ^ 1073)) (by decide) (by decide)⟩

set_option exponentiation.threshold 4000 in
set_option maxRecDepth 100000 in
/-- C3 as stated fails: the duration `Infinity` is not a finite number, so the
claim's sum for Alice on 2024-01-02 is `0`, but the code checks only `isNaN`
and the row holds `Infinity`. -/
theorem C3_counterexample :
    ∃ res row,
      aggregate ordinalHost [outboundCall "Alice" "2024-01-02 09:15:00" "Infinity"] = .ok res ∧
      row ∈ res.dailyMinutes ∧ dateOf row = some "2024-01-02" ∧
      JSObj.get? row "Alice" = some (.num (.inf false)) ∧
      toFixed2Parsed (finiteDayMinutes
        [outboundCall "Alice" "2024-01-02 09:15:00" "Infinity"] "2024-01-02" "Alice") =
          JSNum.ofNat 0 :=
  ⟨⟨[[("date", .str "2024-01-02"), ("Alice", .num (JSNum.ofNat 1))]],
      [[("date", .str "2024-01-02"), ("Alice", .num (.inf false))]],
      [[("hour", .str "9:00 AM"), ("hour24", .num (JSNum.ofNat 9)),
        ("Alice", .num (JSNum.ofNat 1))]], [some "Alice"]⟩,
    [("date", .str "2024-01-02"), ("Alice", .num (.inf false))],
    by decide, by decide, by decide, by decide, by decide⟩

end CallAnalytics

namespace CallAnalytics

/-! ## The daily rows -/

/-- C5, as amended: take a record list in which no filtered record is named
`date` and no filtered record has a date key that names a property inherited
from `Object.prototype`, on a host whose `localeCompare` is a consistent
comparator.  The run is then one this development follows, and when the
aggregation succeeds, `dailyCalls` and `dailyMinutes` each have exactly one
row per distinct date key of the filtered records (so `N` rows for `N` date
keys), and their rows are in ascending order of `localeCompare`, with no date
repeated. -/
theorem C5_daily_rows (host : Host) (hhost : host.Lawful)
    (hanti : ∀ a b, host.collate a b < 0 ↔ 0 < host.collate b a)
    (htrans : ∀ a b c, host.collate a b ≤ 0 → host.collate b c ≤ 0 → host.collate a c ≤ 0)
    (data : List Record) (hown : ∀ c ∈ validCalls data, OwnDateKey c)
    (hdate : ∀ c ∈ validCalls data, personKey c ≠ "date") :
    aggregate host data ≠ .unmodelled ∧
      ∀ res, aggregate host data = .ok res →
        res.dailyCalls.length = (dateKeys data).length ∧
        res.dailyMinutes.length = (dateKeys data).length ∧
        (res.dailyCalls.map dateOf).Perm ((dateKeys data).map some) ∧
        (res.dailyMinutes.map dateOf).Perm ((dateKeys data).map some) ∧
        List.Pairwise (fun a b => host.collate a b ≤ 0 ∧ a ≠ b)
          (res.dailyCalls.filterMap dateOf) ∧
        List.Pairwise (fun a b => host.collate a b ≤ 0 ∧ a ≠ b)
          (res.dailyMinutes.filterMap dateOf) := by
  refine ⟨aggregate_decided host data hown hdate, ?_⟩
  intro res hok
  obtain ⟨byDay, _, _, hday, _, hsortC, hsortM, _⟩ := aggregate_ok hok
  have hI := callsByDay_inv _ _ hown hday
  have hkeys := keys_perm_dateKeys data byDay hI
  have hC : (res.dailyCalls.map dateOf).Perm ((dateKeys data).map some) := by
    refine ((sortByDate_perm _ hhost _ _ hsortC).map dateOf).trans ?_
    rw [dailyCallsRow_dates _ _ hI hdate]
    exact hkeys.map some
  have hM : (res.dailyMinutes.map dateOf).Perm ((dateKeys data).map some) := by
    refine ((sortByDate_perm _ hhost _ _ hsortM).map dateOf).trans ?_
    rw [dailyMinutesRow_dates _ _ hI hdate]
    exact hkeys.map some
  refine ⟨?_, ?_, hC, hM, ?_, ?_⟩
  · simpa using hC.length_eq
  · simpa using hM.length_eq
  · exact sorted_distinct_of_perm host.collate _ _ hC (setElements_nodup _)
      (sortByDate_sorted host hhost hanti htrans _ _ hsortC)
  · exact sorted_distinct_of_perm host.collate _ _ hM (setElements_nodup _)
      (sortByDate_sorted host hhost hanti htrans _ _ hsortM)

set_option exponentiation.threshold 4000 in
set_option maxRecDepth 100000 in
theorem C5_daily_rows_witness :
    (∀ c ∈ validCalls exampleData, OwnDateKey c) ∧
      (∀ c ∈ validCalls exampleData, personKey c ≠ "date") ∧
      exampleResult.dailyCalls.length = (dateKeys exampleData).length ∧
      (dateKeys exampleData).length = 1 :=
  ⟨by decide, by decide,
    ((C5_daily_rows ordinalHost (insertionHost_lawful _) ordinalCollation_anti
      ordinalCollation_trans exampleData (by decide) (by decide)).2 exampleResult
      (by decide)).1, by decide⟩

set_option exponentiation.threshold 4000 in
set_option maxRecDepth 100000 in
/-- C5 as stated fails.  Under a collation that ignores letter case, a
consistent comparator, the date keys `2024-Jan-02` and `2024-feb-01` come out
as `2024-feb-01`, `2024-Jan-02`, which is not ascending lexicographic order
(`J` is below `f`).  And a filtered record whose date key is `constructor`
gives no row, although there is one date key. -/
theorem C5_counterexample :
    (insertionHost caseInsensitiveCollation).Lawful ∧
      (∀ a b, caseInsensitiveCollation a b < 0 ↔ 0 < caseInsensitiveCollation b a) ∧
      (∀ a b c, caseInsensitiveCollation a b ≤ 0 → caseInsensitiveCollation b c ≤ 0 →
        caseInsensitiveCollation a c ≤ 0) ∧
      (∃ res, aggregate (insertionHost caseInsensitiveCollation)
          [outboundCall "Alice" "2024-Jan-02 09:00:00" "1",
           outboundCall "Alice" "2024-feb-01 10:00:00" "1"] = .ok res ∧
        res.dailyCalls.map dateOf = [some "2024-feb-01", some "2024-Jan-02"] ∧
        ¬ ("2024-feb-01" < "2024-Jan-02")) ∧
      ∃ res, aggregate ordinalHost [outboundCall "Alice" "constructor 09:15:00" "3.5"] = .ok res ∧
        res.dailyCalls = [] ∧ res.dailyMinutes = [] ∧
        dateKeys [outboundCall "Alice" "constructor 09:15:00" "3.5"] = ["constructor"] := by
  refine ⟨insertionHost_lawful _, fun a b => ordinalCollation_anti _ _,
    fun a b c => ordinalCollation_trans _ _ _,
    ⟨⟨[[("date", .str "2024-feb-01"), ("Alice", .num (JSNum.ofNat 1))],
       [("date", .str "2024-Jan-02"), ("Alice", .num (JSNum.ofNat 1))]],
      [[("date", .str "2024-feb-01"), ("Alice", .num (JSNum.ofNat 1))],
       [("date", .str "2024-Jan-02"), ("Alice", .num (JSNum.ofNat 1))]],
      [[("hour", .str "9:00 AM"), ("hour24", .num (JSNum.ofNat 9)),
        ("Alice", .num (JSNum.ofNat 1))],
       [("hour", .str "10:00 AM"), ("hour24", .num (JSNum.ofNat 10)),
        ("Alice", .num (JSNum.ofNat 1))]], [some "Alice"]⟩,
    by decide, by decide, ?_⟩,
    ⟨⟨[], [], [[("hour", .str "9:00 AM"), ("hour24", .num (JSNum.ofNat 9)),
        ("Alice", .num (JSNum.ofNat 1))]], [some "Alice"]⟩, by decide, rfl, rfl, by decide⟩⟩
  rw [String.lt_iff_toList_lt]
  decide

end CallAnalytics

namespace CallAnalytics

/-! ## The hourly call counts -/

/-- C6, as amended: take a record list in which no filtered record is named
`date` or `hour24`, no filtered record has a date key that names a property
inherited from `Object.prototype`, and every filtered record's hour key is
`NaN` or of magnitude below `10^21`.  The run is then one this development
follows, and when the aggregation succeeds, for every integer hour `h` and
every person `p` other than `hour24` and the names of the inherited
properties, the `hourlyCalls` row with `hour24 = h` has the number `n` under
`p` exactly when `n` is the number of filtered records with hour key `h` and
name `p` and that number is not zero. -/
theorem C6_hourlyCalls_counts (host : Host) (hhost : host.Lawful) (data : List Record)
    (hown : ∀ c ∈ validCalls data, OwnDateKey c)
    (hdate : ∀ c ∈ validCalls data, personKey c ≠ "date")
    (h24 : ∀ c ∈ validCalls data, personKey c ≠ "hour24")
    (hkeys : ∀ c ∈ validCalls data, HourKeyBelow c) :
    aggregate host data ≠ .unmodelled ∧
      ∀ res, aggregate host data = .ok res →
        ∀ (h : Int) (p : String) (n : Nat), p ∉ objectPrototypeKeys → p ≠ "hour24" →
          ((∃ row ∈ res.hourlyCalls, hour24Of row = JSNum.ofInt h ∧
              JSObj.get? row p = some (.num (JSNum.ofNat n))) ↔
            (n = hourCount data h p ∧ 0 < n)) := by
  refine ⟨aggregate_decided host data hown hdate, ?_⟩
  intro res hok h p n hp hp24
  obtain ⟨_, byHour, hourRows, _, hhour, _, _, hmap, hres, _⟩ := aggregate_ok hok
  have hI := callsByHour_inv _ _ hhour
  have hperm : res.hourlyCalls.Perm hourRows := by
    rw [hres]
    exact sortByHour24_perm host hhost hourRows
  have hbelow := hourBelow_of hkeys
  have hf := mapO_eq_ok _ _ _ hmap
  have hproto : p ≠ "__proto__" := fun e => hp (by rw [e]; decide)
  constructor
  · rintro ⟨row, hrow, hh, hn⟩
    obtain ⟨⟨k, b⟩, hmem, hr⟩ := mem_of_forall₂ hf ((hperm.mem_iff).1 hrow)
    have hb := JSObj.mem_get? hI.nodup hmem
    obtain ⟨label, hget⟩ := hourlyRow_ok k b (hI.buckets k b hb) row hr
    rw [hourlyRow_hour24 hI h24 hmem hr] at hh
    obtain ⟨c0, hc0, hk0⟩ := (hI.keys k).1 ((JSObj.has_iff _ _).1 (by simp [JSObj.has, hb]))
    obtain ⟨x0, _, hkx, hrx, hkh⟩ := hourKey?_some hk0 (hbelow c0 hc0)
    rw [hkh] at hh
    have hcnt := sameKey_eq_sameHour hI.keyed hbelow hrx hkx hh p
    have hc := hI.cells k p
    unfold lookup2 at hc
    rw [hb, Option.some_bind] at hc
    rw [hget] at hn
    cases hg : JSObj.get? b p with
    | none =>
      rw [hg] at hn
      by_cases hp1 : p = "hour" <;> simp [hp1, hp24] at hn
    | some cell =>
      rw [hg] at hn hc
      unfold expectedHour at hc
      simp only [hproto, or_false, hp, if_false] at hc
      split at hc
      · simp at hc
      · rename_i hne
        simp only [Option.some.injEq] at hc
        subst hc
        simp only [Option.map_some', Option.or_some, hourCellValue, Option.some.injEq,
          JSVal.num.injEq] at hn
        have := JSNum.ofNat_injective hn
        unfold hourCount
        rw [← hcnt, this]
        exact ⟨rfl, by omega⟩
  · rintro ⟨hn, hpos⟩
    unfold hourCount at hn
    have hex : ∃ c ∈ validCalls data, sameHourPerson h p c = true := by
      rw [← List.countP_pos_iff]
      omega
    obtain ⟨c0, hc0, hs0⟩ := hex
    simp only [sameHourPerson, Bool.and_eq_true, beq_iff_eq] at hs0
    obtain ⟨k, hk0⟩ := hI.keyed c0 hc0
    obtain ⟨x0, hx0, hkx, hrx, hkh⟩ := hourKey?_some hk0 (hbelow c0 hc0)
    have hh := (hourIs_iff hx0 (hbelow c0 hc0 x0 hx0) h).1 hs0.1
    have hcnt := sameKey_eq_sameHour hI.keyed hbelow hrx hkx hh p
    have hkmem : k ∈ JSObj.keys byHour := (hI.keys k).2 ⟨c0, hc0, hk0⟩
    cases hb : JSObj.get? byHour k with
    | none => exact absurd hkmem ((JSObj.get?_eq_none_iff _ _).1 hb)
    | some b =>
      have hmem := JSObj.get?_some_mem hb
      obtain ⟨row, hrow, hr⟩ := mem_of_forall₂_left hf hmem
      obtain ⟨label, hget⟩ := hourlyRow_ok k b (hI.buckets k b hb) row hr
      refine ⟨row, (hperm.mem_iff).2 hrow, ?_, ?_⟩
      · rw [hourlyRow_hour24 hI h24 hmem hr, hkh, hh]
      · have hc := hI.cells k p
        unfold lookup2 at hc
        rw [hb, Option.some_bind] at hc
        unfold expectedHour at hc
        rw [hcnt, ← hn] at hc
        simp only [hproto, or_false, hp, if_false, Nat.ne_of_gt hpos] at hc
        rw [hget, hc]
        simp [hourCellValue]

set_option exponentiation.threshold 4000 in
set_option maxRecDepth 100000 in
theorem C6_hourlyCalls_counts_witness :
    (∀ c ∈ validCalls exampleData, OwnDateKey c) ∧
      (∀ c ∈ validCalls exampleData, personKey c ≠ "date") ∧
      (∀ c ∈ validCalls exampleData, personKey c ≠ "hour24") ∧
      (∀ c ∈ validCalls exampleData, HourKeyBelow c) ∧
      ∃ row ∈ exampleResult.hourlyCalls, hour24Of row = JSNum.ofInt 14 ∧
        JSObj.get? row "Alice" = some (.num (JSNum.ofNat 1)) :=
  ⟨by decide, by decide, by decide, by decide,
    ((C6_hourlyCalls_counts ordinalHost (insertionHost_lawful _) exampleData (by decide)
      (by decide) (by decide) (by decide)).2 exampleResult (by decide) 14 "Alice" 1 (by decide)
      (by decide)).2 ⟨by decide, by decide⟩⟩

set_option exponentiation.threshold 4000 in
set_option maxRecDepth 100000 in
/-- C6 as stated fails.  The hour text `1000000000000000000000` parses to
`10^21`, whose bucket key is the text `1e+21`, which `parseInt(key, 10)` reads
back as `1`: the row with `hour24 = 1` counts Bob, who has no record at hour
`1`.  And a filtered record named `constructor` at 09:15 has the text of the
inherited function followed by `1` as its entry, not the count `1`. -/
theorem C6_counterexample :
    ¬ (∀ (host : Host) (data : List Record) (res : AggregationResult), host.Lawful →
        aggregate host data = .ok res → ∀ (h : Int) (p : String) (n : Nat),
          ((∃ row ∈ res.hourlyCalls, hour24Of row = JSNum.ofInt h ∧
              JSObj.get? row p = some (.num (JSNum.ofNat n))) ↔
            (n = hourCount data h p ∧ 0 < n))) ∧
      aggregate ordinalHost [outboundCall "constructor" "2024-01-02 09:15:00" "3.5"] =
        .ok ⟨[[("date", .str "2024-01-02")]], [[("date", .str "2024-01-02")]],
          [[("hour", .str "9:00 AM"), ("hour24", .num (JSNum.ofNat 9)),
            ("constructor", .nativeText "constructor" 1)]], [some "constructor"]⟩ ∧
      hourCount [outboundCall "constructor" "2024-01-02 09:15:00" "3.5"] 9 "constructor" = 1 := by
  refine ⟨?_, by decide, by decide⟩
  intro H
  have h := (H ordinalHost [outboundCall "Bob" "2024-01-02 1000000000000000000000:00" "2"]
    ⟨[[("date", .str "2024-01-02"), ("Bob", .num (JSNum.ofNat 1))]],
      [[("date", .str "2024-01-02"), ("Bob", .num (JSNum.ofNat 2))]],
      [[("hour", .str "1:00 AM"), ("hour24", .num (JSNum.ofNat 1)),
        ("Bob", .num (JSNum.ofNat 1))]], [some "Bob"]⟩
    (insertionHost_lawful _) (by decide) 1 "Bob" 1).1
    ⟨[("hour", .str "1:00 AM"), ("hour24", .num (JSNum.ofNat 1)),
      ("Bob", .num (JSNum.ofNat 1))], by decide, by decide, by decide⟩
  revert h
  decide

end CallAnalytics

namespace CallAnalytics

/-! ## The hourly rows -/

/-- C7, as amended: take a record list in which no filtered record is named
`date` or `hour24`, no filtered record has a date key that names a property
inherited from `Object.prototype`, and every filtered record's hour key is a
number (not `NaN`) of magnitude below `10^21`.  The run is then one this
development follows, and when the aggregation succeeds, the `hourlyCalls` rows
are in strictly ascending order of `hour24`, every row's `hour24` is the hour
key of some filtered record, and every hour key of a filtered record has its
row; in the example the row labelled `9:00 AM` comes before the row labelled
`2:00 PM`. -/
theorem C7_hourly_rows (host : Host) (hhost : host.Lawful) (data : List Record)
    (hown : ∀ c ∈ validCalls data, OwnDateKey c)
    (hdate : ∀ c ∈ validCalls data, personKey c ≠ "date")
    (h24 : ∀ c ∈ validCalls data, personKey c ≠ "hour24")
    (hkeys : ∀ c ∈ validCalls data, HourKeyBelow c)
    (hint : ∀ c ∈ validCalls data, hourOf c ≠ .ok .nan) :
    aggregate host data ≠ .unmodelled ∧
      (∀ res, aggregate host data = .ok res →
        List.Pairwise (fun a b => (hour24Of a).lt (hour24Of b) = true) res.hourlyCalls ∧
        (∀ row ∈ res.hourlyCalls, ∃ h : Int, hour24Of row = JSNum.ofInt h ∧
          ∃ c ∈ validCalls data, hourIs h c = true) ∧
        (∀ (h : Int), (∃ c ∈ validCalls data, hourIs h c = true) →
          ∃ row ∈ res.hourlyCalls, hour24Of row = JSNum.ofInt h)) ∧
      exampleResult.hourlyCalls.map (fun row => JSObj.get? row "hour") =
        [some (.str "9:00 AM"), some (.str "2:00 PM")] := by
  refine ⟨aggregate_decided host data hown hdate, ?_, by decide⟩
  intro res hok
  obtain ⟨_, byHour, hourRows, _, hhour, _, _, hmap, hres, _⟩ := aggregate_ok hok
  have hI := callsByHour_inv _ _ hhour
  have hperm : res.hourlyCalls.Perm hourRows := by
    rw [hres]
    exact sortByHour24_perm host hhost hourRows
  have hbelow := hourBelow_of hkeys
  have hf := mapO_eq_ok _ _ _ hmap
  have hvals := hourRows_hour24 hI h24 hourRows hmap
  have hrow : ∀ row ∈ hourRows, ∃ c ∈ validCalls data, ∃ x, hourOf c = .ok x ∧ InRange x ∧
      x ≠ .nan ∧ hour24Of row = x.normalize := by
    intro row hr
    obtain ⟨⟨k, b⟩, hmem, hrk⟩ := mem_of_forall₂ hf hr
    have hb := JSObj.mem_get? hI.nodup hmem
    obtain ⟨c0, hc0, hk0⟩ := (hI.keys k).1 ((JSObj.has_iff _ _).1 (by simp [JSObj.has, hb]))
    obtain ⟨x0, hx0, _, hrx, hkh⟩ := hourKey?_some hk0 (hbelow c0 hc0)
    refine ⟨c0, hc0, x0, hx0, hrx, ?_, ?_⟩
    · intro e
      exact hint c0 hc0 (by rw [hx0, e])
    · rw [hourlyRow_hour24 hI h24 hmem hrk, hkh]
  have hP : ∀ row ∈ hourRows, IsHour (hour24Of row) := by
    intro row hr
    obtain ⟨_, _, x, _, hrx, hnx, he⟩ := hrow row hr
    rw [he]
    exact isHour_normalize hrx hnx
  refine ⟨?_, ?_, ?_⟩
  · have hcons : ConsistentOn compareHour24 hourRows :=
      ⟨fun a _ b _ => compareHour24_anti a b, fun a ha b hb c hc h1 h2 =>
        (compareHour24_le a c).2 (lt_trans_on _ _ _ (hP a ha) (hP b hb) (hP c hc)
          ((compareHour24_le a b).1 h1) ((compareHour24_le b c).1 h2))⟩
    have hsorted : res.hourlyCalls.Pairwise
        (fun a b => (hour24Of b).lt (hour24Of a) = false) := by
      rw [hres]
      unfold sortByHour24
      rw [hhost.stable _ _ hcons]
      refine List.Pairwise.imp (fun {a b} h => (compareHour24_le a b).1 h) ?_
      exact pairwise_insertionSort_on _ (fun row => IsHour (hour24Of row))
        (fun a b ha hb => by
          rw [compareHour24_le, compareHour24_le]
          exact lt_total_on _ _ ha hb)
        (fun a b c ha hb hc h1 h2 =>
          (compareHour24_le a c).2 (lt_trans_on _ _ _ ha hb hc
            ((compareHour24_le a b).1 h1) ((compareHour24_le b c).1 h2))) hourRows hP
    have hnodup : (res.hourlyCalls.map hour24Of).Nodup := by
      rw [(hperm.map hour24Of).nodup_iff, hvals]
      exact List.Nodup.map_on (keyHour_injOn hI hbelow) hI.nodup
    have hne := List.pairwise_map.1 hnodup
    have hboth := List.Pairwise.and hsorted hne
    refine List.Pairwise.imp_of_mem ?_ hboth
    intro a b ha hb hab
    exact lt_of_not_lt_of_ne _ _ (hP a ((hperm.mem_iff).1 ha)) (hP b ((hperm.mem_iff).1 hb))
      hab.1 hab.2
  · intro row hr
    obtain ⟨c, hc, x, hx, hrx, hnx, he⟩ := hrow row ((hperm.mem_iff).1 hr)
    obtain ⟨h, hh⟩ := normalize_eq_ofInt hrx hnx
    exact ⟨h, by rw [he, hh], c, hc, (hourIs_iff hx (hbelow c hc x hx) h).2 hh⟩
  · rintro h ⟨c0, hc0, hs0⟩
    obtain ⟨k, hk0⟩ := hI.keyed c0 hc0
    obtain ⟨x0, hx0, hkx, hrx, hkh⟩ := hourKey?_some hk0 (hbelow c0 hc0)
    have hh := (hourIs_iff hx0 (hbelow c0 hc0 x0 hx0) h).1 hs0
    have hkmem : k ∈ JSObj.keys byHour := (hI.keys k).2 ⟨c0, hc0, hk0⟩
    cases hb : JSObj.get? byHour k with
    | none => exact absurd hkmem ((JSObj.get?_eq_none_iff _ _).1 hb)
    | some b =>
      have hmem := JSObj.get?_some_mem hb
      obtain ⟨row, hrow', hr⟩ := mem_of_forall₂_left hf hmem
      exact ⟨row, (hperm.mem_iff).2 hrow', by rw [hourlyRow_hour24 hI h24 hmem hr, hkh, hh]⟩

set_option exponentiation.threshold 4000 in
set_option maxRecDepth 100000 in
theorem C7_hourly_rows_witness :
    (∀ c ∈ validCalls exampleData, OwnDateKey c) ∧
      (∀ c ∈ validCalls exampleData, personKey c ≠ "date") ∧
      (∀ c ∈ validCalls exampleData, personKey c ≠ "hour24") ∧
      (∀ c ∈ validCalls exampleData, HourKeyBelow c) ∧
      (∀ c ∈ validCalls exampleData, hourOf c ≠ .ok .nan) ∧
      List.Pairwise (fun a b => (hour24Of a).lt (hour24Of b) = true)
        exampleResult.hourlyCalls :=
  ⟨by decide, by decide, by decide, by decide, by decide,
    ((C7_hourly_rows ordinalHost (insertionHost_lawful _) exampleData (by decide) (by decide)
      (by decide) (by decide) (by decide)).2.1 exampleResult (by decide)).1⟩

set_option exponentiation.threshold 4000 in
set_option maxRecDepth 100000 in
/-- C7 as stated fails.  With the hour text `xx` the row's `hour24` is `NaN`,
which is in no order with the `9` of the other row.  And the hour texts `01`
and `1000000000000000000000` are two hour keys, `1` and `10^21`, but both rows
carry `hour24 = 1`, because the bucket key `1e+21` is read back as `1`. -/
theorem C7_counterexample :
    (∃ res,
      aggregate ordinalHost
        [outboundCall "Alice" "2024-01-02 09:15:00" "",
         outboundCall "Alice" "2024-01-02 xx:00" ""] = .ok res ∧
      res.hourlyCalls.map hour24Of = [JSNum.ofNat 9, .nan] ∧
      ¬ List.Pairwise (fun a b => (hour24Of a).lt (hour24Of b) = true) res.hourlyCalls) ∧
    ∃ res,
      aggregate ordinalHost
        [outboundCall "Alice" "2024-01-02 01:30:00" "",
         outboundCall "Alice" "2024-01-02 1000000000000000000000:00" ""] = .ok res ∧
      res.hourlyCalls.map hour24Of = [JSNum.ofNat 1, JSNum.ofNat 1] ∧
      ¬ List.Pairwise (fun a b => (hour24Of a).lt (hour24Of b) = true) res.hourlyCalls ∧
      hourIs (10 ^ 21) (outboundCall "Alice" "2024-01-02 1000000000000000000000:00" "") = true ∧
      ¬ ∃ row ∈ res.hourlyCalls, hour24Of row = JSNum.ofInt (10 ^ 21) :=
  ⟨⟨⟨[[("date", .str "2024-01-02"), ("Alice", .num (JSNum.ofNat 2))]],
      [[("date", .str "2024-01-02"), ("Alice", .num (JSNum.ofNat 0))]],
      [[("hour", .str "9:00 AM"), ("hour24", .num (JSNum.ofNat 9)),
        ("Alice", .num (JSNum.ofNat 1))],
       [("hour", .str "NaN:00 PM"), ("hour24", .num .nan),
        ("Alice", .num (JSNum.ofNat 1))]], [some "Alice"]⟩,
    by decide, by decide, by decide⟩,
   ⟨⟨[[("date", .str "2024-01-02"), ("Alice", .num (JSNum.ofNat 2))]],
      [[("date", .str "2024-01-02"), ("Alice", .num (JSNum.ofNat 0))]],
      [[("hour", .str "1:00 AM"), ("hour24", .num (JSNum.ofNat 1)),
        ("Alice", .num (JSNum.ofNat 1))],
       [("hour", .str "1:00 AM"), ("hour24", .num (JSNum.ofNat 1)),
        ("Alice", .num (JSNum.ofNat 1))]], [some "Alice"]⟩,
    by decide, by decide, by decide, by decide, by decide⟩⟩

end CallAnalytics

namespace CallAnalytics

/-! ## Blank lines -/

theorem trimChars_eq_nil_iff (cs : List Char) :
    trimChars cs = [] ↔ cs.all isJSWhiteSpace = true := by
  unfold trimChars trimStartChars
  rw [List.reverse_eq_nil_iff, List.dropWhile_eq_nil_iff, List.all_eq_true]
  constructor
  · intro h
    have h1 : ∀ x ∈ cs.dropWhile isJSWhiteSpace, isJSWhiteSpace x = true := by
      intro x hx
      exact h x (List.mem_reverse.2 hx)
    have h2 : (cs.dropWhile isJSWhiteSpace).dropWhile isJSWhiteSpace = [] :=
      List.dropWhile_eq_nil_iff.2 h1
    rw [List.dropWhile_idempotent] at h2
    exact List.dropWhile_eq_nil_iff.1 h2
  · intro h x hx
    have hx' : x ∈ cs.dropWhile isJSWhiteSpace := List.mem_reverse.1 hx
    exact h x ((List.dropWhile_sublist _).subset hx')

theorem jsTrim_ne_empty_iff (line : String) : jsTrim line ≠ "" ↔ isBlankLine line = false := by
  unfold jsTrim isBlankLine
  rw [← Bool.not_eq_true, ← trimChars_eq_nil_iff]
  constructor
  · intro h hn
    exact h (by rw [hn])
  · intro h hn
    exact h (congrArg String.data hn)

theorem nonBlankRows_eq (text : String) :
    nonBlankRows text = (jsSplit '\n' text).filter (fun l => !isBlankLine l) := by
  unfold nonBlankRows
  apply List.filter_congr
  intro l _
  by_cases h : isBlankLine l = true
  · have : ¬ jsTrim l ≠ "" := by rw [jsTrim_ne_empty_iff]; simp [h]
    simp [h, this]
  · have h' : isBlankLine l = false := by simpa using h
    have : jsTrim l ≠ "" := (jsTrim_ne_empty_iff l).2 h'
    simp [h', this]

theorem splitChars_ne_nil (sep : Char) (cs : List Char) : splitChars sep cs ≠ [] := by
  cases cs with
  | nil => simp [splitChars]
  | cons c t =>
    unfold splitChars
    by_cases h : c = sep
    · simp [h]
    · rw [if_neg h]
      cases splitChars sep t <;> simp

theorem splitChars_of_not_mem (sep : Char) (cs : List Char) (h : sep ∉ cs) :
    splitChars sep cs = [cs] := by
  induction cs with
  | nil => rfl
  | cons c t ih =>
    have hc : c ≠ sep := fun e => h (by simp [e])
    have ht : sep ∉ t := fun e => h (List.mem_cons_of_mem _ e)
    unfold splitChars
    rw [if_neg hc, ih ht]

theorem splitChars_append_sep (sep : Char) (cs rest : List Char) (h : sep ∉ cs) :
    splitChars sep (cs ++ sep :: rest) = cs :: splitChars sep rest := by
  induction cs with
  | nil => simp [splitChars]
  | cons c t ih =>
    have hc : c ≠ sep := fun e => h (by simp [e])
    have ht : sep ∉ t := fun e => h (List.mem_cons_of_mem _ e)
    rw [List.cons_append, splitChars, if_neg hc, ih ht]

theorem jsSplit_joinLines (lines : List String) (hne : lines ≠ [])
    (hl : ∀ l ∈ lines, '\n' ∉ l.data) : jsSplit '\n' (joinLines lines) = lines := by
  unfold jsSplit
  induction lines with
  | nil => exact absurd rfl hne
  | cons l rest ih =>
    cases rest with
    | nil =>
      simp [joinLines, splitChars_of_not_mem _ _ (hl l (by simp))]
    | cons m rest =>
      have e : (joinLines (l :: m :: rest)).data = l.data ++ '\n' :: (joinLines (m :: rest)).data := by
        simp [joinLines, String.data_append]
      rw [e, splitChars_append_sep _ _ _ (hl l (by simp)), List.map_cons,
        ih (by simp) (fun x hx => hl x (List.mem_cons_of_mem _ hx))]

theorem nonBlankRows_joinLines (lines : List String) (hl : ∀ l ∈ lines, '\n' ∉ l.data) :
    nonBlankRows (joinLines lines) = lines.filter (fun l => !isBlankLine l) := by
  rw [nonBlankRows_eq]
  cases lines with
  | nil => decide
  | cons l rest => rw [jsSplit_joinLines _ (by simp) hl]

theorem parse_eq_of_rows {t₁ t₂ : String} (h : nonBlankRows t₁ = nonBlankRows t₂) :
    parse t₁ = parse t₂ := by
  unfold parse
  rw [h]

/-- C11: a text whose non-blank lines are `header :: rest` parses to one
record per line of `rest`, in order; and a line that is empty or all white
space, put anywhere among the lines of a text, does not change the result of
`parse`. -/
theorem C11_parse_blank_lines (text header : String) (rest : List String)
    (hrows : (jsSplit '\n' text).filter (fun l => !isBlankLine l) = header :: rest)
    (before after : List String) (blank : String) (hblank : isBlankLine blank = true)
    (hlines : ∀ l ∈ before ++ blank :: after, '\n' ∉ l.data) :
    parse text =
        .ok (rest.map (fun row => buildRecord (jsSplit ',' header) (tokenize row))) ∧
      parse (joinLines (before ++ blank :: after)) = parse (joinLines (before ++ after)) := by
  constructor
  · unfold parse
    rw [nonBlankRows_eq, hrows]
  · apply parse_eq_of_rows
    rw [nonBlankRows_joinLines _ hlines, nonBlankRows_joinLines _ (fun l hl => hlines l (by
      rcases List.mem_append.1 hl with h | h
      · exact List.mem_append_left _ h
      · exact List.mem_append_right _ (List.mem_cons_of_mem _ h)))]
    simp [List.filter_append, List.filter_cons, hblank]

theorem C11_parse_blank_lines_witness :
    parse "\nx,y\n \n1,2\n\t\n3,4\n" =
        .ok [[("x", "1"), ("y", "2")], [("x", "3"), ("y", "4")]] ∧
      parse (joinLines (["x,y"] ++ " \r" :: ["1,2", "3,4"])) =
        parse (joinLines (["x,y"] ++ ["1,2", "3,4"])) :=
  ⟨(C11_parse_blank_lines "\nx,y\n \n1,2\n\t\n3,4\n" "x,y" ["1,2", "3,4"] (by decide)
      ["x,y"] ["1,2", "3,4"] " \r" (by decide) (by decide)).1.trans (by decide),
    (C11_parse_blank_lines "\nx,y\n \n1,2\n\t\n3,4\n" "x,y" ["1,2", "3,4"] (by decide)
      ["x,y"] ["1,2", "3,4"] " \r" (by decide) (by decide)).2⟩

/-- C12: `parse` fails exactly when every line of the text is blank; it then
leaves the stored data as it was; and a text with a header line parses, to the
empty list when no data row follows. -/
theorem C12_parse_failure (message : String) (st : UploadState) (text : String) :
    (parse text = .typeError ↔ ∀ l ∈ jsSplit '\n' text, isBlankLine l = true) ∧
      parse text ≠ .unmodelled ∧
      (parse text = .typeError → (onload message st text).data = st.data) ∧
      (∀ header rest, (jsSplit '\n' text).filter (fun l => !isBlankLine l) = header :: rest →
        ∃ records, parse text = .ok records ∧ records.length = rest.length ∧
          (onload message st text).data = some records ∧
          (onload message st text).error = none) := by
  have hrows := nonBlankRows_eq text
  refine ⟨?_, ?_, ?_, ?_⟩
  · unfold parse
    rw [hrows]
    cases hf : (jsSplit '\n' text).filter (fun l => !isBlankLine l) with
    | nil =>
      simp only [true_iff]
      intro l hl
      have := List.filter_eq_nil_iff.1 hf l hl
      simpa using this
    | cons header rest =>
      simp only [false_iff, reduceCtorEq]
      intro h
      have : header ∈ (jsSplit '\n' text).filter (fun l => !isBlankLine l) := by
        rw [hf]; simp
      rw [List.mem_filter] at this
      have := h header this.1
      simp_all
  · unfold parse
    split <;> simp
  · intro h
    unfold onload
    rw [h]
  · intro header rest hf
    refine ⟨rest.map (fun row => buildRecord (jsSplit ',' header) (tokenize row)), ?_, by simp, ?_, ?_⟩
    · unfold parse
      rw [hrows, hf]
    · unfold onload parse
      rw [hrows, hf]
    · unfold onload parse
      rw [hrows, hf]

end CallAnalytics

namespace CallAnalytics

/-! ## Timestamps without an hour -/

theorem hourOf_typeError_of_no_space (c : Record)
    (h : ∀ started, JSObj.get? c "date_started" = some started → ' ' ∉ started.data) :
    hourOf c = .typeError := by
  unfold hourOf
  cases hs : JSObj.get? c "date_started" with
  | none => rfl
  | some started =>
    simp only
    have : jsSplit ' ' started = [⟨started.data⟩] := by
      unfold jsSplit
      rw [splitChars_of_not_mem _ _ (h started hs)]
      rfl
    rw [this]
    rfl

theorem numberToString_nan_key {c : Record} (h : hourOf c = .ok .nan) :
    hourKey? c = some "NaN" := by
  simp [hourKey?, h, numberToString]

theorem splitChars_length_of_mem (sep : Char) (cs : List Char) (h : sep ∈ cs) :
    2 ≤ (splitChars sep cs).length := by
  induction cs with
  | nil => simp at h
  | cons c t ih =>
    unfold splitChars
    by_cases hc : c = sep
    · rw [if_pos hc]
      have := List.length_pos.2 (splitChars_ne_nil sep t)
      simp only [List.length_cons]
      omega
    · rw [if_neg hc]
      have ht : sep ∈ t := by
        rcases List.mem_cons.1 h with e | e
        · exact absurd e.symm hc
        · exact e
      have := ih ht
      cases hsp : splitChars sep t with
      | nil => rw [hsp] at this; simp at this
      | cons p ps =>
        rw [hsp] at this
        simpa using this

theorem hourOf_ok_of_space {c : Record} {started : String}
    (hs : JSObj.get? c "date_started" = some started) (h : ' ' ∈ started.data) :
    ∃ x, hourOf c = .ok x := by
  have hlen : 2 ≤ (jsSplit ' ' started).length := by
    unfold jsSplit
    rw [List.length_map]
    exact splitChars_length_of_mem ' ' started.data h
  unfold hourOf
  rw [hs]
  simp only
  cases hg : (jsSplit ' ' started).get? 1 with
  | none =>
    rw [List.get?_eq_none] at hg
    omega
  | some time => exact ⟨_, rfl⟩

/-- C13, as amended: take a record list in which no filtered record has a date
key that names a property inherited from `Object.prototype`.  If some filtered
record has no `date_started` or one without a space, the aggregation fails
with a `TypeError`.  If no filtered record is named `date` and every filtered
record has a `date_started` with a space, the aggregation succeeds, whatever
stands after the space: a filtered record whose hour text is not a number
(hour key `NaN`) is counted, under its name when that is not the name of an
inherited property and no filtered record is named `hour24`, in a row whose
`hour24` is `NaN`. -/
theorem C13_malformed_timestamp (host : Host) (hhost : host.Lawful) (data : List Record)
    (hown : ∀ c ∈ validCalls data, OwnDateKey c) :
    ((∃ c ∈ validCalls data, ∀ started,
          JSObj.get? c "date_started" = some started → ' ' ∉ started.data) →
        aggregate host data = .typeError) ∧
      ((∀ c ∈ validCalls data, personKey c ≠ "date") →
        (∀ c ∈ validCalls data, ∃ started,
          JSObj.get? c "date_started" = some started ∧ ' ' ∈ started.data) →
        ∃ res, aggregate host data = .ok res ∧
          ((∀ c ∈ validCalls data, personKey c ≠ "hour24") →
            ∀ c ∈ validCalls data, hourOf c = .ok .nan → personKey c ∉ objectPrototypeKeys →
              ∃ row ∈ res.hourlyCalls, hour24Of row = .nan ∧
                ∃ n, 0 < n ∧ JSObj.get? row (personKey c) = some (.num (JSNum.ofNat n)))) := by
  constructor
  · rintro ⟨c, hc, hshape⟩
    exact aggregate_typeError host data hown ⟨c, hc, hourOf_typeError_of_no_space c hshape⟩
  · intro hdate hspace
    obtain ⟨res, hok⟩ := aggregate_ok_of host data hown hdate (fun c hc => by
      obtain ⟨started, hs, hsp⟩ := hspace c hc
      exact hourOf_ok_of_space hs hsp)
    refine ⟨res, hok, ?_⟩
    intro h24 c hc hnan hp
    obtain ⟨_, byHour, hourRows, _, hhour, _, _, hmap, hres, _⟩ := aggregate_ok hok
    have hI := callsByHour_inv _ _ hhour
    have hperm : res.hourlyCalls.Perm hourRows := by
      rw [hres]
      exact sortByHour24_perm host hhost hourRows
    have hf := mapO_eq_ok _ _ _ hmap
    have hk := numberToString_nan_key hnan
    have hkmem : "NaN" ∈ JSObj.keys byHour := (hI.keys "NaN").2 ⟨c, hc, hk⟩
    cases hb : JSObj.get? byHour "NaN" with
    | none => exact absurd hkmem ((JSObj.get?_eq_none_iff _ _).1 hb)
    | some b =>
      have hmem := JSObj.get?_some_mem hb
      obtain ⟨row, hrow, hr⟩ := mem_of_forall₂_left hf hmem
      obtain ⟨label, hget⟩ := hourlyRow_ok "NaN" b (hI.buckets "NaN" b hb) row hr
      refine ⟨row, (hperm.mem_iff).2 hrow, ?_, ?_⟩
      · rw [hourlyRow_hour24 hI h24 hmem hr]
        decide
      · have hcell := hI.cells "NaN" (personKey c)
        unfold lookup2 at hcell
        rw [hb, Option.some_bind] at hcell
        have hpos : 0 < (validCalls data).countP (sameKeyPerson "NaN" (personKey c)) := by
          rw [List.countP_pos_iff]
          exact ⟨c, hc, (sameKeyPerson_iff _ _ _).2 ⟨hk, rfl⟩⟩
        have hproto : personKey c ≠ "__proto__" := fun e => hp (by rw [e]; decide)
        unfold expectedHour at hcell
        simp only [hproto, or_false, hp, if_false, Nat.ne_of_gt hpos] at hcell
        refine ⟨_, hpos, ?_⟩
        rw [hget, hcell]
        simp [hourCellValue]

set_option exponentiation.threshold 4000 in
set_option maxRecDepth 100000 in
theorem C13_malformed_timestamp_witness :
    (∀ c ∈ validCalls [outboundCall "Alice" "2024-01-02" "1"], OwnDateKey c) ∧
      aggregate ordinalHost [outboundCall "Alice" "2024-01-02" "1"] = .typeError :=
  ⟨by decide,
    (C13_malformed_timestamp ordinalHost (insertionHost_lawful _)
      [outboundCall "Alice" "2024-01-02" "1"] (by decide)).1
      ⟨outboundCall "Alice" "2024-01-02" "1", by decide, by
        intro started h
        have e : JSObj.get? (outboundCall "Alice" "2024-01-02" "1") "date_started" =
            some "2024-01-02" := by decide
        rw [e] at h
        cases h
        decide⟩⟩

set_option exponentiation.threshold 4000 in
set_option maxRecDepth 100000 in
/-- C13 as stated fails: with `2024-01-02 xx:00`, and with two spaces in
`2024-01-02  09:15:00`, the aggregation succeeds and counts the record in a
row labelled `NaN:00 PM` whose `hour24` is `NaN`. -/
theorem C13_counterexample :
    aggregate ordinalHost [outboundCall "Alice" "2024-01-02 xx:00" "1"] =
        .ok ⟨[[("date", .str "2024-01-02"), ("Alice", .num (JSNum.ofNat 1))]],
          [[("date", .str "2024-01-02"), ("Alice", .num (JSNum.ofNat 1))]],
          [[("hour", .str "NaN:00 PM"), ("hour24", .num .nan),
            ("Alice", .num (JSNum.ofNat 1))]], [some "Alice"]⟩ ∧
      aggregate ordinalHost [outboundCall "Alice" "2024-01-02  09:15:00" "1"] =
        .ok ⟨[[("date", .str "2024-01-02"), ("Alice", .num (JSNum.ofNat 1))]],
          [[("date", .str "2024-01-02"), ("Alice", .num (JSNum.ofNat 1))]],
          [[("hour", .str "NaN:00 PM"), ("hour24", .num .nan),
            ("Alice", .num (JSNum.ofNat 1))]], [some "Alice"]⟩ := by
  constructor <;> decide

/-! ## Key fields and person names -/

set_option exponentiation.threshold 4000 in
set_option maxRecDepth 100000 in
/-- C14 fails on the code: a person named `date` replaces the `date` field of
the daily rows by a count and by a number of minutes, a person named `hour`
replaces the label of the hourly row by a count, and with two dates the sort
of the daily rows throws because the `date` fields have no `localeCompare`. -/
theorem C14_key_fields_overwritten :
    aggregate ordinalHost [outboundCall "date" "2024-01-02 09:15:00" "3.5"] =
        .ok ⟨[[("date", .num (JSNum.ofNat 1))]],
          [[("date", .num (.fin false (7 * 2 ^ 1073)))]],
          [[("hour", .str "9:00 AM"), ("hour24", .num (JSNum.ofNat 9)),
            ("date", .num (JSNum.ofNat 1))]], [some "date"]⟩ ∧
      aggregate ordinalHost [outboundCall "hour" "2024-01-02 14:00:00" "2"] =
        .ok ⟨[[("date", .str "2024-01-02"), ("hour", .num (JSNum.ofNat 1))]],
          [[("date", .str "2024-01-02"), ("hour", .num (JSNum.ofNat 2))]],
          [[("hour", .num (JSNum.ofNat 1)), ("hour24", .num (JSNum.ofNat 14))]],
          [some "hour"]⟩ ∧
      aggregate ordinalHost
        [outboundCall "date" "2024-01-02 09:15:00" "3.5",
         outboundCall "date" "2024-01-03 10:00:00" "1"] = .typeError := by
  refine ⟨?_, ?_, ?_⟩ <;> decide

end CallAnalytics

namespace CallAnalytics

/-! ## Carriage returns -/

theorem splitChars_crlfChars (cs : List Char) :
    splitChars '\n' (crlfChars cs) = addCR (splitChars '\n' cs) := by
  induction cs with
  | nil => rfl
  | cons c t ih =>
    by_cases hc : c = '\n'
    · subst hc
      have hne := splitChars_ne_nil '\n' t
      obtain ⟨q, qs, hq⟩ := List.exists_cons_of_ne_nil hne
      have e1 : splitChars '\n' ('\n' :: t) = [] :: splitChars '\n' t := by
        simp [splitChars]
      have e2 : splitChars '\n' (crlfChars ('\n' :: t)) = ['\r'] :: splitChars '\n' (crlfChars t) := by
        simp [crlfChars, splitChars]
      rw [e1, e2, ih, hq]
      simp [addCR]
    · have hne := splitChars_ne_nil '\n' t
      obtain ⟨q, qs, hq⟩ := List.exists_cons_of_ne_nil hne
      have e1 : splitChars '\n' (c :: t) = (c :: q) :: qs := by
        rw [splitChars, if_neg hc, hq]
      have e2 : crlfChars (c :: t) = c :: crlfChars t := by
        simp [crlfChars, hc]
      rw [e1, e2, splitChars, if_neg hc, ih, hq]
      cases qs with
      | nil => simp [addCR]
      | cons m rest => simp [addCR]

theorem addCR_append_cons (A : List (List Char)) (h : List Char) (B : List (List Char))
    (hB : B ≠ []) :
    addCR (A ++ h :: B) = A.map (fun l => l ++ ['\r']) ++ (h ++ ['\r']) :: addCR B := by
  obtain ⟨b, bs, rfl⟩ := List.exists_cons_of_ne_nil hB
  induction A with
  | nil => simp [addCR]
  | cons a A ih =>
    cases A with
    | nil =>
      simp only [List.nil_append] at ih
      simp [addCR, ih]
    | cons a' A' =>
      simp only [List.cons_append] at ih ⊢
      simp only [addCR, List.map_cons, List.cons_append]
      rw [ih]
      simp

theorem trimChars_append_cr (cs : List Char) : trimChars (cs ++ ['\r']) = trimChars cs := by
  unfold trimChars trimStartChars
  by_cases hall : ∀ x ∈ cs, isJSWhiteSpace x = true
  · have h1 : cs.dropWhile isJSWhiteSpace = [] := List.dropWhile_eq_nil_iff.2 hall
    have h2 : (cs ++ ['\r']).dropWhile isJSWhiteSpace = [] := by
      rw [List.dropWhile_eq_nil_iff]
      intro x hx
      rcases List.mem_append.1 hx with h | h
      · exact hall x h
      · simp only [List.mem_singleton] at h
        rw [h]; decide
    rw [h1, h2]
  · have h1 : cs.dropWhile isJSWhiteSpace ≠ [] := fun h => hall (List.dropWhile_eq_nil_iff.1 h)
    have h2 : (cs ++ ['\r']).dropWhile isJSWhiteSpace = cs.dropWhile isJSWhiteSpace ++ ['\r'] := by
      rw [List.dropWhile_append]
      simp [h1]
    rw [h2, List.reverse_append, List.reverse_singleton, List.singleton_append,
      List.dropWhile_cons_of_pos (by decide)]

theorem jsTrim_append_cr (cs : List Char) : jsTrim ⟨cs ++ ['\r']⟩ = jsTrim ⟨cs⟩ := by
  unfold jsTrim
  rw [trimChars_append_cr]

theorem isBlankLine_append_cr (cs : List Char) :
    isBlankLine ⟨cs ++ ['\r']⟩ = isBlankLine ⟨cs⟩ := by
  unfold isBlankLine
  simp only [List.all_append, List.all_cons, List.all_nil, Bool.and_true]
  have : isJSWhiteSpace '\r' = true := by decide
  simp [this]

theorem tokenize_append_cr (cs : List Char) : tokenize ⟨cs ++ ['\r']⟩ = tokenize ⟨cs⟩ := by
  unfold tokenize
  simp only [List.foldl_append, List.foldl_cons, List.foldl_nil]
  have h : ∀ st : Scanner, scanChar st '\r' =
      { st with currentValue := st.currentValue ++ ['\r'] } := by
    intro st
    simp [scanChar]
  rw [h]
  simp only
  rw [jsTrim_append_cr]

theorem map_filter_addCR {β : Type} (P : List Char → Bool) (G : List Char → β)
    (hP : ∀ cs, P (cs ++ ['\r']) = P cs) (hG : ∀ cs, G (cs ++ ['\r']) = G cs)
    (L : List (List Char)) :
    ((addCR L).filter P).map G = (L.filter P).map G := by
  induction L with
  | nil => rfl
  | cons l rest ih =>
    cases rest with
    | nil => rfl
    | cons m rest =>
      have e1 : addCR (l :: m :: rest) = (l ++ ['\r']) :: addCR (m :: rest) := rfl
      have e2 : (l :: m :: rest).filter P =
          if P l = true then l :: (m :: rest).filter P else (m :: rest).filter P :=
        List.filter_cons
      rw [e1, e2, List.filter_cons, hP]
      by_cases h : P l = true
      · rw [if_pos h, if_pos h, List.map_cons, List.map_cons, hG, ih]
      · rw [if_neg h, if_neg h, ih]

theorem splitChars_append_char (sep x : Char) (hx : x ≠ sep) (cs : List Char) :
    splitChars sep (cs ++ [x]) = appendToLast x (splitChars sep cs) := by
  induction cs with
  | nil => simp [splitChars, hx, appendToLast]
  | cons c t ih =>
    have hne := splitChars_ne_nil sep t
    obtain ⟨q, qs, hq⟩ := List.exists_cons_of_ne_nil hne
    rw [List.cons_append, splitChars, ih, hq]
    by_cases hc : c = sep
    · rw [if_pos hc, splitChars, if_pos hc, hq]
      simp [appendToLast]
    · rw [if_neg hc, splitChars, if_neg hc, hq]
      cases qs with
      | nil => simp [appendToLast]
      | cons m rest => simp [appendToLast]

theorem map_mk_appendToLast (S : List (List Char)) :
    (appendToLast '\r' S).map String.mk = withCRHeader (S.map String.mk) := by
  induction S with
  | nil => rfl
  | cons p rest ih =>
    cases rest with
    | nil =>
      simp only [appendToLast, List.map_cons, List.map_nil, withCRHeader]
      congr 1
    | cons q rest =>
      simp only [appendToLast, List.map_cons, withCRHeader] at ih ⊢
      rw [ih]

theorem jsSplit_append_cr (header : String) :
    jsSplit ',' ⟨header.data ++ ['\r']⟩ = withCRHeader (jsSplit ',' header) := by
  unfold jsSplit
  rw [splitChars_append_char ',' '\r' (by decide), map_mk_appendToLast]

end CallAnalytics

namespace CallAnalytics

theorem mem_of_mem_splitChars (sep : Char) (cs : List Char) :
    ∀ p ∈ splitChars sep cs, ∀ c ∈ p, c ∈ cs := by
  induction cs with
  | nil => simp [splitChars]
  | cons a t ih =>
    intro p hp c hc
    rw [splitChars] at hp
    by_cases ha : a = sep
    · rw [if_pos ha] at hp
      rcases List.mem_cons.1 hp with h | h
      · subst h; simp at hc
      · exact List.mem_cons_of_mem _ (ih p h c hc)
    · rw [if_neg ha] at hp
      obtain ⟨q, qs, hq⟩ := List.exists_cons_of_ne_nil (splitChars_ne_nil sep t)
      rw [hq] at hp ih
      rcases List.mem_cons.1 hp with h | h
      · subst h
        rcases List.mem_cons.1 hc with h2 | h2
        · simp [h2]
        · exact List.mem_cons_of_mem _ (ih q (by simp) c h2)
      · exact List.mem_cons_of_mem _ (ih p (List.mem_cons_of_mem _ h) c hc)

theorem length_withCRHeader (H : List String) : (withCRHeader H).length = H.length := by
  induction H with
  | nil => rfl
  | cons h rest ih =>
    cases rest with
    | nil => rfl
    | cons g rest => simp only [withCRHeader, List.length_cons] at ih ⊢; omega

theorem getD_withCRHeader (H : List String) (i : Nat) (hi : i < H.length) :
    (withCRHeader H).getD i "" =
      if i + 1 = H.length then H.getD i "" ++ "\r" else H.getD i "" := by
  induction H generalizing i with
  | nil => simp at hi
  | cons h rest ih =>
    cases rest with
    | nil =>
      have : i = 0 := by simpa using hi
      subst this
      simp [withCRHeader]
    | cons g rest =>
      cases i with
      | zero => simp [withCRHeader]
      | succ i =>
        have hi' : i < (g :: rest).length := by simpa using hi
        simp only [withCRHeader, List.getD_cons_succ, List.length_cons] at ih ⊢
        rw [ih i (by simpa using hi')]
        by_cases he : i + 1 = rest.length + 1
        · simp [he]
        · have : ¬ (i + 1 + 1 = rest.length + 1 + 1) := by omega
          simp [he, this]

theorem getD_ne_of_nodup {H : List String} (hnd : H.Nodup) {i j : Nat} (hi : i < H.length)
    (hj : j < H.length) (hij : i ≠ j) : H.getD j "" ≠ H.getD i "" := by
  rw [List.getD_eq_getElem _ _ hi, List.getD_eq_getElem _ _ hj]
  intro h
  exact hij ((List.Nodup.getElem_inj_iff hnd).1 h).symm

theorem ne_append_cr {a b : String} (ha : '\r' ∉ a.data) : a ≠ b ++ "\r" := by
  intro h
  apply ha
  rw [h, String.data_append]
  simp

theorem get?_buildRecord_of_nodup (H values : List String) (hnd : H.Nodup) (i : Nat)
    (hi : i < H.length) (hp : H.getD i "" ≠ "__proto__") :
    JSObj.get? (buildRecord H values) (H.getD i "") = some (values.getD i "") := by
  have := get?_buildFrom values H 0 [] i hi hp
    (fun j hij hj => getD_ne_of_nodup hnd hi hj (Nat.ne_of_lt hij))
  simpa [buildRecord, List.enum] using this

theorem keys_assignField_ne_proto (obj : Record) (header value : String)
    (h : "__proto__" ∉ JSObj.keys obj) : "__proto__" ∉ JSObj.keys (assignField obj header value) := by
  unfold assignField
  split
  · exact h
  · rename_i hne
    rw [JSObj.mem_keys_set]
    rintro (h1 | h1)
    · exact hne h1.symm
    · exact h h1

theorem proto_not_key_buildFrom (values : List String) (H : List String) (n : Nat)
    (obj : Record) (h : "__proto__" ∉ JSObj.keys obj) :
    "__proto__" ∉ JSObj.keys ((H.enumFrom n).foldl
      (fun obj ih => assignField obj ih.2 (values.getD ih.1 "")) obj) := by
  induction H generalizing n obj with
  | nil => exact h
  | cons a t ih =>
    rw [List.enumFrom_cons, List.foldl_cons]
    exact ih _ _ (keys_assignField_ne_proto _ _ _ h)

theorem get?_proto_buildRecord (H values : List String) :
    JSObj.get? (buildRecord H values) "__proto__" = none := by
  rw [JSObj.get?_eq_none_iff]
  have := proto_not_key_buildFrom values H 0 [] (by simp [JSObj.keys])
  simpa [buildRecord, List.enum] using this

theorem get?_buildRecord_of_not_mem (H values : List String) (k : String) (hk : k ∉ H) :
    JSObj.get? (buildRecord H values) k = none := by
  rw [JSObj.get?_eq_none_iff]
  intro h
  rcases keys_buildFrom values H 0 [] k (by simpa [buildRecord, List.enum] using h) with h1 | h1
  · exact hk h1
  · simp [JSObj.keys] at h1

theorem mem_withCRHeader {H : List String} {x : String} (h : x ∈ withCRHeader H) :
    (x ∈ H.dropLast) ∨ ∃ last, H.getLast? = some last ∧ x = last ++ "\r" := by
  induction H with
  | nil => simp [withCRHeader] at h
  | cons a rest ih =>
    cases rest with
    | nil =>
      simp only [withCRHeader, List.mem_singleton] at h
      exact Or.inr ⟨a, rfl, h⟩
    | cons g rest =>
      simp only [withCRHeader, List.mem_cons] at h
      rcases h with h | h
      · exact Or.inl (by simp [h])
      · rcases ih (by simpa [withCRHeader] using h) with h1 | ⟨last, h1, h2⟩
        · exact Or.inl (by
            rw [List.dropLast_cons₂]
            exact List.mem_cons_of_mem _ h1)
        · exact Or.inr ⟨last, by simpa using h1, h2⟩

end CallAnalytics

namespace CallAnalytics

theorem nodup_withCRHeader {H : List String} (hnd : H.Nodup)
    (hcr : ∀ h ∈ H, '\r' ∉ h.data) : (withCRHeader H).Nodup := by
  induction H with
  | nil => simp [withCRHeader]
  | cons a rest ih =>
    cases rest with
    | nil => simp [withCRHeader]
    | cons g rest =>
      rw [List.nodup_cons] at hnd
      simp only [withCRHeader, List.nodup_cons]
      refine ⟨?_, ih hnd.2 (fun h hh => hcr h (List.mem_cons_of_mem _ hh))⟩
      intro hmem
      rcases mem_withCRHeader hmem with h1 | ⟨last, _, h2⟩
      · exact hnd.1 (List.dropLast_subset _ h1)
      · exact ne_append_cr (hcr a (by simp)) h2

theorem getLast?_eq_getD {H : List String} {i : Nat} (hi : i + 1 = H.length) :
    H.getLast? = some (H.getD i "") := by
  have hlt : i < H.length := by omega
  rw [List.getLast?_eq_getElem?, List.getD_eq_getElem _ _ hlt,
    ← List.getElem?_eq_getElem hlt]
  congr 1
  omega

theorem last_not_mem_withCRHeader {H : List String} (hnd : H.Nodup)
    (hcr : ∀ h ∈ H, '\r' ∉ h.data) {last : String} (hl : H.getLast? = some last) :
    last ∉ withCRHeader H := by
  intro hmem
  have hmemH : last ∈ H := List.mem_of_mem_getLast? hl
  rcases mem_withCRHeader hmem with h1 | ⟨last', _, h2⟩
  · have hne : H ≠ [] := List.ne_nil_of_mem hmemH
    have e := List.dropLast_append_getLast hne
    have hl' : H.getLast hne = last := by
      rw [List.getLast?_eq_getLast _ hne] at hl
      exact Option.some.inj hl
    rw [hl'] at e
    rw [← e] at hnd
    have := List.disjoint_of_nodup_append hnd h1 (by simp)
    exact this
  · exact ne_append_cr (hcr last hmemH) h2

theorem records_crlf (H values : List String) (hnd : H.Nodup)
    (hcr : ∀ h ∈ H, '\r' ∉ h.data) (hproto : H.getLast? ≠ some "__proto__")
    (i : Nat) (hi : i < H.length) :
    JSObj.get? (buildRecord (withCRHeader H) values) ((withCRHeader H).getD i "") =
      JSObj.get? (buildRecord H values) (H.getD i "") := by
  have hkey := getD_withCRHeader H i hi
  by_cases hp : H.getD i "" = "__proto__"
  · have hnl : ¬ i + 1 = H.length := by
      intro he
      apply hproto
      rw [getLast?_eq_getD he, hp]
    rw [if_neg hnl] at hkey
    rw [hkey, hp, get?_proto_buildRecord, get?_proto_buildRecord]
  · rw [get?_buildRecord_of_nodup H values hnd i hi hp]
    apply get?_buildRecord_of_nodup _ _ (nodup_withCRHeader hnd hcr) i
      (by rw [length_withCRHeader]; exact hi)
    rw [hkey]
    split
    · exact fun h => @ne_append_cr "__proto__" _ (by decide) h.symm
    · exact hp

/-- C15, as amended: for a text without carriage returns whose first non-blank
line `header` is followed by a line break, has pairwise distinct header names
and a last header name other than `__proto__`, the text with every line feed
replaced by carriage return and line feed parses to as many records, built
from the same rows and values, under the same header names except that the
last one has a carriage return appended; at every header position each record
holds what the original holds, and a lookup of the last column by its plain
name finds nothing. -/
theorem C15_crlf_header (text : String) (blanks : List String) (header : String)
    (after : List String) (hcr : '\r' ∉ text.data)
    (hsplit : jsSplit '\n' text = blanks ++ header :: after)
    (hblanks : ∀ l ∈ blanks, isBlankLine l = true) (hheader : isBlankLine header = false)
    (hbreak : after ≠ []) (hdistinct : (jsSplit ',' header).Nodup)
    (hproto : (jsSplit ',' header).getLast? ≠ some "__proto__") :
    ∃ rows : List String,
      parse text =
        .ok (rows.map (fun row => buildRecord (jsSplit ',' header) (tokenize row))) ∧
      parse (crlf text) =
        .ok (rows.map (fun row =>
          buildRecord (withCRHeader (jsSplit ',' header)) (tokenize row))) ∧
      ∀ values : List String,
        (∀ i, i < (jsSplit ',' header).length →
          (withCRHeader (jsSplit ',' header)).getD i "" =
              (if i + 1 = (jsSplit ',' header).length then (jsSplit ',' header).getD i "" ++ "\r"
                else (jsSplit ',' header).getD i "") ∧
            JSObj.get? (buildRecord (withCRHeader (jsSplit ',' header)) values)
                ((withCRHeader (jsSplit ',' header)).getD i "") =
              JSObj.get? (buildRecord (jsSplit ',' header) values)
                ((jsSplit ',' header).getD i "")) ∧
        (∀ last, (jsSplit ',' header).getLast? = some last →
          JSObj.get? (buildRecord (withCRHeader (jsSplit ',' header)) values) last = none) := by
  have hchars : splitChars '\n' text.data = (blanks ++ header :: after).map String.data := by
    have := congrArg (List.map String.data) hsplit
    simpa [jsSplit, List.map_map, Function.comp_def] using this
  have hHcr : ∀ h ∈ jsSplit ',' header, '\r' ∉ h.data := by
    intro h hh hmem
    obtain ⟨p, hp, rfl⟩ := List.mem_map.1 hh
    have h1 := mem_of_mem_splitChars ',' header.data p hp '\r' hmem
    have h2 : header.data ∈ splitChars '\n' text.data := by
      rw [hchars]
      exact List.mem_map.2 ⟨header, by simp, rfl⟩
    exact hcr (mem_of_mem_splitChars '\n' text.data _ h2 '\r' h1)
  refine ⟨after.filter (fun l => !isBlankLine l), ?_, ?_, ?_⟩
  · unfold parse
    rw [nonBlankRows_eq, hsplit, List.filter_append, List.filter_cons]
    have hb : blanks.filter (fun l => !isBlankLine l) = [] := by
      rw [List.filter_eq_nil_iff]
      intro l hl
      simp [hblanks l hl]
    simp [hb, hheader]
  · have hlines : jsSplit '\n' (crlf text) =
        (blanks.map (fun l => (⟨l.data ++ ['\r']⟩ : String))) ++
          (⟨header.data ++ ['\r']⟩ : String) ::
            (addCR (after.map String.data)).map String.mk := by
      unfold jsSplit crlf
      rw [splitChars_crlfChars, hchars, List.map_append, List.map_cons,
        addCR_append_cons _ _ _ (by simpa using hbreak)]
      simp [List.map_map, Function.comp_def]
    have hb : (blanks.map (fun l => (⟨l.data ++ ['\r']⟩ : String))).filter
        (fun l => !isBlankLine l) = [] := by
      rw [List.filter_eq_nil_iff]
      intro l hl
      obtain ⟨b, hb, rfl⟩ := List.mem_map.1 hl
      rw [isBlankLine_append_cr]
      simp [hblanks b hb]
    have hh : isBlankLine ⟨header.data ++ ['\r']⟩ = false := by
      rw [isBlankLine_append_cr]
      exact hheader
    have hrest := map_filter_addCR (fun cs => !isBlankLine ⟨cs⟩)
      (fun cs => buildRecord (withCRHeader (jsSplit ',' header)) (tokenize ⟨cs⟩))
      (fun cs => by simp only [isBlankLine_append_cr])
      (fun cs => by simp only [tokenize_append_cr]) (after.map String.data)
    unfold parse
    rw [nonBlankRows_eq, hlines, List.filter_append, List.filter_cons, hb]
    simp only [hh, Bool.not_false, if_true, List.nil_append]
    rw [jsSplit_append_cr]
    congr 1
    simp only [List.filter_map, List.map_map, Function.comp_def] at hrest ⊢
    exact hrest
  · intro values
    refine ⟨fun i hi => ⟨getD_withCRHeader _ i hi,
      records_crlf _ values hdistinct hHcr hproto i hi⟩, ?_⟩
    intro last hl
    exact get?_buildRecord_of_not_mem _ _ _ (last_not_mem_withCRHeader hdistinct hHcr hl)

theorem C15_crlf_header_witness :
    ∃ rows : List String,
      parse "x,y\n1, 2\n3,4\n" =
        .ok (rows.map (fun row => buildRecord (jsSplit ',' "x,y") (tokenize row))) ∧
      parse (crlf "x,y\n1, 2\n3,4\n") =
        .ok (rows.map (fun row =>
          buildRecord (withCRHeader (jsSplit ',' "x,y")) (tokenize row))) ∧
      withCRHeader (jsSplit ',' "x,y") = ["x", "y\r"] := by
  obtain ⟨rows, h1, h2, _⟩ := C15_crlf_header "x,y\n1, 2\n3,4\n" [] "x,y" ["1, 2", "3,4", ""]
    (by decide) (by decide) (by decide) (by decide) (by decide) (by decide) (by decide)
  exact ⟨rows, h1, h2, by decide⟩

/-- C15 as stated fails: with the header `a,__proto__` the record of the row
`1,2` holds nothing for the last column (the assignment to `__proto__` is
ignored), while with carriage returns it holds `2` under `__proto__\r`. -/
theorem C15_counterexample :
    parse "a,__proto__\n1,2" = .ok [[("a", "1")]] ∧
      parse (crlf "a,__proto__\n1,2") = .ok [[("a", "1"), ("__proto__\r", "2")]] ∧
      JSObj.get? ([("a", "1")] : Record) "__proto__" = none ∧
      JSObj.get? ([("a", "1"), ("__proto__\r", "2")] : Record) "__proto__\r" = some "2" := by
  refine ⟨?_, ?_, ?_, ?_⟩ <;> decide

end CallAnalytics
